import Mathlib

/-!
# Moving Cells: `webcam_delays.cpp` and the `Kinect` interface

A shallow embedding of the temporal pixel-delay program `src/webcam_delays.cpp`
and of the parts of `src/kinect.hpp` the specification talks about.

Modelling conventions.

* A `cv::Mat` of `cv::Vec3b` pixels is seen through its pixel pointer
  (`ptr<cv::Vec3b>(0)`): a map from the linear index `i` to a pixel.  An assignment
  `currentPixel[i] = workingPixel[i]` updates the map at `i`, whatever `i` is; whether
  `i` lies inside the `frameWidth * frameHeight` pixels of the frame is a separate
  question.
* `unsigned int delay` is a 32-bit machine integer: the arithmetic of the key
  handler is taken modulo `2^32`, and so is the subtraction `delay/2-(d+1)` of
  `computeHorizontalReverseSymmetric`, the one place where a compute function
  underflows.  Ring indices (`newDelay`, `displayDelay`, `currentDelay`, `workingDelay`,
  `int` in the source) and pixel indices are natural numbers in the state model; with
  `1 ≤ delay ≤ maxDelay` the ring indices stay below `2 * (maxDelay + 2)`.  The same
  lines on machine integers (`wrapNewDelay32`, `displayDelay32`, `currentDelay32`,
  `nextSlot32`, `initLoop32`) give the same values as long as `maxDelay+2 < 2^31`; at
  `maxDelay = 2^32-1` the 32-bit value of `maxDelay+2` is 1 and they do not.
* Every compute function takes the truncated band bound
  `(int) (k * ((float) dim / (float) delay))` as a parameter `band dim delay k`.
  `floatBand` is the value the program computes, in binary32 with round to nearest even;
  `exactBand` evaluates the bound as an exact rational truncated toward zero, which is
  what the specification assumes.  The two differ for some `delay`.
* The four non-symmetric compute functions are also given as their nested loops on
  machine integers with a fuel bound (`computeVertical32` and its siblings); for
  `maxDelay+2 < 2^31` and `delay ≤ 2^23` these runs end and produce the step lists.
* A tick is a function of the state at the top of the loop body and of its
  environment (`TickInput`): the frame the camera delivers, the key `waitKey` returns,
  the return codes of the six thread calls, the outcome of the clock test of line 286.
  `getFrame` and the compute function run concurrently; what the compute thread sees
  in the slot `getFrame` is overwriting is part of the environment (`racy`).
* The bodies of the `Kinect` member functions are not part of the sources; what is
  said about them is modelled from the specification and marked so.
-/

namespace MovingCells

/-! ## Constants of `webcam_delays.cpp` -/

/-- Source constant `frameWidth` (line 49). -/
def frameWidth : Nat := 1280

/-- Source constant `frameHeight` (line 50). -/
def frameHeight : Nat := 720

/-- Source default of `maxDelay` (line 41), overridden by `argv[2]`. -/
def defaultMaxDelay : Nat := 60

/-- Source constant `useSymmetric` (line 47). -/
def useSymmetric : Bool := false

/-- Number of values of a 32-bit `unsigned int`. -/
def uintSize : Nat := 2 ^ 32

/-- Unsigned 32-bit addition. -/
def uadd32 (a b : Nat) : Nat := (a + b) % uintSize

/-- Unsigned 32-bit subtraction. -/
def usub32 (a b : Nat) : Nat := (a % uintSize + uintSize - b % uintSize) % uintSize

/-! ## Frames -/

/-- A `cv::Vec3b`: three colour channels. -/
structure Vec3b where
  c0 : Nat
  c1 : Nat
  c2 : Nat
  deriving DecidableEq, Repr

/-- The pixel pointer of a frame: linear index to pixel. -/
abbrev Frame := Nat → Vec3b

/-- The three assignments `currentPixel[i][ch] = workingPixel[i][ch]`, `ch = 0, 1, 2`. -/
def copyPixel (currentPixel workingPixel : Frame) (i : Nat) : Frame :=
  fun j => if j = i then ⟨(workingPixel i).c0, (workingPixel i).c1, (workingPixel i).c2⟩
    else currentPixel j

/-! ## Program state -/

/-- The global variables of `webcam_delays.cpp` that the tick reads or writes.
`acquired` is a ghost field: the ring slots `cam.read` has written so far. -/
structure State where
  stop : Bool
  vertical : Bool
  reverse : Bool
  symmetric : Bool
  delay : Nat
  newDelay : Nat
  displayDelay : Nat
  currentDelay : Nat
  frameArray : Nat → Frame
  acquired : Nat → Bool
  finalFrame : Frame

/-! ## Key handling (`displayFrame`, lines 310-354) -/

/-- The value `key & 0xFF` of a positive key code. -/
def maskKey (key : Int) : Nat := key.toNat % 256

/-- The `switch (key)` of `displayFrame`, on the masked key code. -/
def switchKey (maxDelay : Nat) (s : State) (k : Nat) : State :=
  if k = 27 then { s with stop := true }
  else if k = 114 then { s with reverse := !s.reverse }
  else if k = 115 then { s with symmetric := !s.symmetric }
  else if k = 104 then { s with vertical := !s.vertical }
  else if k = 118 then { s with vertical := !s.vertical }
  else if k = 171 then
    let d := uadd32 s.delay 1
    { s with delay := if d > maxDelay then maxDelay else d }
  else if k = 173 then
    let d := usub32 s.delay 1
    { s with delay := if d ≤ 1 then 1 else d }
  else if k = 141 then
    { s with delay := if s.delay < maxDelay then maxDelay else 1 }
  else s

/-- The key handling of `displayFrame`: `if (key > 0) { key = key & 0xFF; switch ... }`. -/
def handleKey (maxDelay : Nat) (s : State) (key : Int) : State :=
  if 0 < key then switchKey maxDelay s (maskKey key) else s

/-- A frame whose pixels are all black. -/
def blackFrame : Frame := fun _ => ⟨0, 0, 0⟩

/-- The globals as `main` sets them before the initialisation loop (lines 67-71, 166-167). -/
def startState : State :=
  { stop := false, vertical := false, reverse := false, symmetric := false,
    delay := 1, newDelay := 0, displayDelay := 0, currentDelay := 0,
    frameArray := fun _ => blackFrame, acquired := fun _ => false,
    finalFrame := blackFrame }

/-! ## The compute functions (lines 380-725)

All nine functions share one skeleton:

    workingDelay = <start>;  float first = <k0> * ((float) dim / (float) delay);
    for (unsigned int d = 1; d < <bound>; d++) {
      workingDelay++;  if (workingDelay >= maxDelay+2) { workingDelay = 0; }
      workingPixel = frameArray[workingDelay].ptr<cv::Vec3b>(0);
      float last = <k d> * ((float) dim / (float) delay);
      <copy the band between (int) first and (int) last>
      first = last;
    }

One iteration is recorded as a `Step`: the ring slot whose pixel pointer is
taken, and the linear indices `i` of the assignments
`currentPixel[i] = workingPixel[i]`, in program order. -/

/-- The bound `(int) (k * ((float) dim / (float) delay))` evaluated as an exact
rational truncated toward zero.  This is the idealisation the specification uses; the value
the program computes in binary32 is `floatBand`, which differs from it for some `delay`
(first at `delay = 73`, `k = 73` for `dim = 720`). -/
def exactBand (dim delay k : Nat) : Nat := k * dim / delay

/-- One iteration of the outer loop of a compute function. -/
structure Step where
  workingDelay : Nat
  pixels : List Nat
  deriving DecidableEq, Repr

/-- The statements `workingDelay++; if (workingDelay >= maxDelay+2) { workingDelay = 0; }`
on natural numbers.  The source compares 32-bit unsigned values (`nextSlot32`); the two
agree for `maxDelay+2 < 2^31` (`nextSlot32_eq`). -/
def nextSlot (maxDelay workingDelay : Nat) : Nat :=
  if workingDelay + 1 ≥ maxDelay + 2 then 0 else workingDelay + 1

/-- The statements `workingDelay = currentDelay + delay/2;
if (workingDelay >= maxDelay+2) { workingDelay -= (maxDelay+2); }`. -/
def symmetricStart (maxDelay delay currentDelay : Nat) : Nat :=
  if currentDelay + delay / 2 ≥ maxDelay + 2 then currentDelay + delay / 2 - (maxDelay + 2)
  else currentDelay + delay / 2

/-- The outer loop: `n` iterations remain, `d` is the loop counter, `first` is
`(int) first`; `lastOf d` is `(int) last` of iteration `d` and `body first last`
the indices copied by the inner loops. -/
def bandLoop (maxDelay : Nat) (lastOf : Nat → Nat) (body : Nat → Nat → List Nat) :
    Nat → Nat → Nat → Nat → List Step
  | 0, _, _, _ => []
  | n + 1, d, workingDelay, first =>
    let w := nextSlot maxDelay workingDelay
    let last := lastOf d
    ⟨w, body first last⟩ :: bandLoop maxDelay lastOf body n (d + 1) w last

/-- The values of `for (unsigned int x = first; x < last; x++)`. -/
def rangeUp (first last : Nat) : List Nat := List.range' first (last - first)

/-- The values of `for (unsigned int x = first; x > last; x--)`. -/
def rangeDown (first last : Nat) : List Nat := (List.range (first - last)).map (fun j => first - j)

/-- Indices of `i = start; for (int c = 0; c < n; c++) { ...; i++; }`. -/
def rowPixels (start n : Nat) : List Nat := (List.range n).map (fun c => start + c)

/-- Indices of `i = start; for (int r = 0; r < H; r++) { ...; i += W; }`. -/
def colPixels (W H start : Nat) : List Nat := (List.range H).map (fun r => start + r * W)

/-- Steps of `computeVertical` (lines 380-408). -/
def computeVerticalSteps (band : Nat → Nat → Nat → Nat) (W H maxDelay delay currentDelay : Nat) :
    List Step :=
  bandLoop maxDelay (fun d => band W delay (d + 1))
    (fun first last => (rangeUp first last).flatMap (fun c => colPixels W H c))
    (delay - 1) 1 currentDelay (band W delay 1)

/-- Steps of `computeVerticalSymmetric` (lines 411-450). -/
def computeVerticalSymmetricSteps (band : Nat → Nat → Nat → Nat)
    (W H maxDelay delay currentDelay : Nat) : List Step :=
  bandLoop maxDelay (fun d => band W delay (d + 1))
    (fun first last => (rangeUp first last).flatMap
      (fun c => colPixels W H c ++ colPixels W H ((W - 1) - c)))
    (delay / 2 - 1) 1 (symmetricStart maxDelay delay currentDelay) (band W delay 1)

/-- Steps of `computeVerticalReverse` (lines 453-481). -/
def computeVerticalReverseSteps (band : Nat → Nat → Nat → Nat)
    (W H maxDelay delay currentDelay : Nat) : List Step :=
  bandLoop maxDelay (fun d => band W delay (delay - (d + 1)))
    (fun first last => (rangeDown first last).flatMap (fun c => colPixels W H c))
    (delay - 1) 1 currentDelay (band W delay (delay - 1))

/-- Steps of `computeVerticalReverseSymmetric` (lines 484-522). -/
def computeVerticalReverseSymmetricSteps (band : Nat → Nat → Nat → Nat)
    (W H maxDelay delay currentDelay : Nat) : List Step :=
  bandLoop maxDelay (fun d => band W delay (delay / 2 - (d + 1)))
    (fun first last => (rangeDown first last).flatMap
      (fun c => colPixels W H c ++ colPixels W H (W - c)))
    (delay / 2 - 1) 1 (symmetricStart maxDelay delay currentDelay) (band W delay (delay - 1))

/-- Steps of `computeHorizontal` (lines 527-556). -/
def computeHorizontalSteps (band : Nat → Nat → Nat → Nat) (W H maxDelay delay currentDelay : Nat) :
    List Step :=
  bandLoop maxDelay (fun d => band H delay (d + 1))
    (fun first last => (rangeUp first last).flatMap (fun r => rowPixels (r * W) W))
    (delay - 1) 1 currentDelay (band H delay 1)

/-- Steps of `computeHorizontalSymmetric` (lines 559-597). -/
def computeHorizontalSymmetricSteps (band : Nat → Nat → Nat → Nat)
    (W H maxDelay delay currentDelay : Nat) : List Step :=
  bandLoop maxDelay (fun d => band H delay (d + 1))
    (fun first last => (rangeUp first last).flatMap
      (fun r => rowPixels (r * W) W ++ rowPixels ((H - r) * W) W))
    (delay / 2 - 1) 1 (symmetricStart maxDelay delay currentDelay) (band H delay 1)

/-- Steps of `computeHorizontalSymmetricBis` (lines 600-653): two loops, the
second restarting from `workingDelay = currentDelay`. -/
def computeHorizontalSymmetricBisSteps (band : Nat → Nat → Nat → Nat)
    (W H maxDelay delay currentDelay : Nat) : List Step :=
  bandLoop maxDelay (fun d => band H delay (d + 1))
    (fun first last => (rangeUp first last).flatMap (fun r => rowPixels (r * W) (W / 2)))
    (delay - 1) 1 currentDelay (band H delay 1)
  ++
  bandLoop maxDelay (fun d => band H delay (delay - (d + 1)))
    (fun first last => (rangeDown first last).flatMap (fun r => rowPixels (r * W + W / 2) (W / 2)))
    (delay - 1) 1 currentDelay (band H delay (delay - 1))

/-- Steps of `computeHorizontalReverse` (lines 656-684). -/
def computeHorizontalReverseSteps (band : Nat → Nat → Nat → Nat)
    (W H maxDelay delay currentDelay : Nat) : List Step :=
  bandLoop maxDelay (fun d => band H delay (delay - (d + 1)))
    (fun first last => (rangeDown first last).flatMap (fun r => rowPixels (r * W) W))
    (delay - 1) 1 currentDelay (band H delay (delay - 1))

/-- Steps of `computeHorizontalReverseSymmetric` (lines 687-725).  The loop runs
while `d < delay`, and `delay/2-(d+1)` is an unsigned subtraction that wraps
once `d + 1 > delay/2`. -/
def computeHorizontalReverseSymmetricSteps (band : Nat → Nat → Nat → Nat)
    (W H maxDelay delay currentDelay : Nat) : List Step :=
  bandLoop maxDelay (fun d => band H delay (usub32 (delay / 2) (d + 1)))
    (fun first last => (rangeDown first last).flatMap
      (fun r => rowPixels (r * W) W ++ rowPixels ((H - r) * W) W))
    (delay - 1) 1 (symmetricStart maxDelay delay currentDelay) (band H delay (delay - 1))

/-- The nine compute functions. -/
inductive Variant where
  | vertical | verticalSymmetric | verticalReverse | verticalReverseSymmetric
  | horizontal | horizontalSymmetric | horizontalSymmetricBis
  | horizontalReverse | horizontalReverseSymmetric
  deriving DecidableEq, Repr

/-- The steps of a compute function. -/
def Variant.steps (v : Variant) (band : Nat → Nat → Nat → Nat)
    (W H maxDelay delay currentDelay : Nat) : List Step :=
  match v with
  | .vertical => computeVerticalSteps band W H maxDelay delay currentDelay
  | .verticalSymmetric => computeVerticalSymmetricSteps band W H maxDelay delay currentDelay
  | .verticalReverse => computeVerticalReverseSteps band W H maxDelay delay currentDelay
  | .verticalReverseSymmetric =>
    computeVerticalReverseSymmetricSteps band W H maxDelay delay currentDelay
  | .horizontal => computeHorizontalSteps band W H maxDelay delay currentDelay
  | .horizontalSymmetric => computeHorizontalSymmetricSteps band W H maxDelay delay currentDelay
  | .horizontalSymmetricBis =>
    computeHorizontalSymmetricBisSteps band W H maxDelay delay currentDelay
  | .horizontalReverse => computeHorizontalReverseSteps band W H maxDelay delay currentDelay
  | .horizontalReverseSymmetric =>
    computeHorizontalReverseSymmetricSteps band W H maxDelay delay currentDelay

/-- The inner loops of one step, run on the frames. -/
def runStep (frameArray : Nat → Frame) (currentPixel : Frame) (s : Step) : Frame :=
  s.pixels.foldl (fun f i => copyPixel f (frameArray s.workingDelay) i) currentPixel

/-- A whole compute function, run on the frames: `currentPixel` points into `finalFrame`. -/
def runSteps (frameArray : Nat → Frame) (finalFrame : Frame) (steps : List Step) : Frame :=
  steps.foldl (runStep frameArray) finalFrame

/-- The effect of compute function `v` on `finalFrame`. -/
def compute (v : Variant) (band : Nat → Nat → Nat → Nat) (W H maxDelay delay currentDelay : Nat)
    (frameArray : Nat → Frame) (finalFrame : Frame) : Frame :=
  runSteps frameArray finalFrame (v.steps band W H maxDelay delay currentDelay)

/-! ## `main` (lines 135-296) -/

/-- The choice of compute function in the parallel branch of `main` (lines 234-250). -/
def selectVariant (vertical reverse symmetric : Bool) : Variant :=
  if vertical then
    if reverse then
      if symmetric then .verticalReverseSymmetric else .verticalReverse
    else
      if symmetric then .verticalSymmetric else .vertical
  else
    if reverse then
      if symmetric then .horizontalReverseSymmetric else .horizontalReverse
    else
      if symmetric then .horizontalSymmetric else .horizontal

/-- Line 213: `if (newDelay >= maxDelay+2) { newDelay = 0; }`, on natural numbers.  The
source compares 32-bit unsigned values (`wrapNewDelay32`); the two agree for
`maxDelay+2 < 2^31` (`machine_slots`). -/
def wrapNewDelay (maxDelay newDelay : Nat) : Nat :=
  if newDelay ≥ maxDelay + 2 then 0 else newDelay

/-- The loop `while (x >= maxDelay+2) { x -= (maxDelay + 2); }` with `fuel` iterations left. -/
def reduceLoop (maxDelay : Nat) : Nat → Nat → Nat
  | 0, x => x
  | fuel + 1, x => if x ≥ maxDelay + 2 then reduceLoop maxDelay fuel (x - (maxDelay + 2)) else x

/-- Lines 215-216: `displayDelay = newDelay+1 + (maxDelay - delay);` followed by the
reduction loop, on natural numbers.  Each iteration subtracts at least 2, so `x` iterations
are enough.  The machine version is `displayDelay32`; the two agree for
`maxDelay+2 < 2^31` (`machine_slots`). -/
def displayDelayOf (maxDelay delay newDelay : Nat) : Nat :=
  reduceLoop maxDelay (newDelay + 1 + (maxDelay - delay)) (newDelay + 1 + (maxDelay - delay))

/-- Lines 218-219: `currentDelay = displayDelay+1;
if (currentDelay >= maxDelay+2) { currentDelay -= (maxDelay + 2); }`, on natural numbers.
The machine version is `currentDelay32`; the two agree for `maxDelay+2 < 2^31`
(`machine_slots`). -/
def currentDelayOf (maxDelay displayDelay : Nat) : Nat :=
  if displayDelay + 1 ≥ maxDelay + 2 then displayDelay + 1 - (maxDelay + 2) else displayDelay + 1

/-- Lines 213-223: the slots of the tick and the clone of the base frame. -/
def selectSlots (maxDelay : Nat) (s : State) : State :=
  let newDelay := wrapNewDelay maxDelay s.newDelay
  let displayDelay := displayDelayOf maxDelay s.delay newDelay
  let currentDelay := currentDelayOf maxDelay displayDelay
  { s with newDelay := newDelay, displayDelay := displayDelay, currentDelay := currentDelay,
           finalFrame := s.frameArray currentDelay }

/-- What `getFrame` does: `cam.read (frameArray[newDelay])`. -/
def getFrame (cam : Frame) (s : State) : State :=
  { s with frameArray := fun slot => if slot = s.newDelay then cam else s.frameArray slot,
           acquired := fun slot => if slot = s.newDelay then true else s.acquired slot }

/-- What `cv::flip (finalFrame, finalFrame, 1)` does: every row is mirrored. -/
def flip (W : Nat) (f : Frame) : Frame :=
  fun i => f ((i / W) * W + (W - 1 - i % W))

/-- Lines 286-292, the body of `if (switchingTime > 0 && time > switchingTime)`. -/
def switchStep (s : State) : State :=
  let vertical := !s.vertical
  let symmetric := if useSymmetric && vertical then !s.symmetric else s.symmetric
  let reverse :=
    if (useSymmetric && vertical && symmetric) || (!useSymmetric && vertical) then !s.reverse
    else s.reverse
  { s with vertical := vertical, symmetric := symmetric, reverse := reverse }

/-- Lines 282-292: `displayDelay = newDelay; newDelay++;` and the switching step. -/
def endOfTick (switchNow : Bool) (s : State) : State :=
  let s1 := { s with displayDelay := s.newDelay, newDelay := s.newDelay + 1 }
  if switchNow then switchStep s1 else s1

/-- The six thread calls of the parallel tick, in program order. -/
inductive ThreadCall where
  | createFrame | createCompute | joinFrame | joinCompute | createDisplay | joinDisplay
  deriving DecidableEq, Repr

/-- The thread functions. -/
inductive Phase where
  | getFrame | compute (v : Variant) | displayFrame
  deriving DecidableEq, Repr

/-- What a tick does that can be seen from outside. -/
inductive Event where
  | called (c : ThreadCall)
  | started (p : Phase)
  | selected (workingDelay : Nat)
  | shown (frame : Frame)
  | diagnostic (code : Int)
  | exited (code : Int)

/-- The environment of one tick. -/
structure TickInput where
  /-- The frame `cam.read` delivers in `getFrame`. -/
  cam : Frame
  /-- The contents of slot `newDelay` as the compute thread sees them while `getFrame`
  is overwriting that slot. -/
  racy : Frame
  /-- The value returned by `cv::waitKey(1)`. -/
  key : Int
  /-- The value of `switchingTime > 0 && time > switchingTime` at line 286. -/
  switchNow : Bool
  /-- The return codes of the thread calls. -/
  ret : ThreadCall → Int

/-- How a tick ends: `exit (code)` or the state at the end of the loop body. -/
inductive Outcome where
  | exit (code : Int)
  | next (s : State)

/-- The result of a tick. -/
structure TickResult where
  trace : List Event
  outcome : Outcome

/-- The failure branch `std::cout << "Error: ..." << t << std::endl; exit(-1);`. -/
def failWith (trace : List Event) (code : Int) : TickResult :=
  ⟨trace ++ [.diagnostic code, .exited (-1)], .exit (-1)⟩

/-- The frame array as the compute thread sees it. -/
def ringSeen (s : State) (racy : Frame) : Nat → Frame :=
  fun slot => if slot = s.newDelay then racy else s.frameArray slot

/-- The body of `displayFrame` (lines 298-360), with `cropFrame = resizeFrame = false`. -/
def displayFrame (W maxDelay : Nat) (key : Int) (s : State) : List Event × State :=
  let s1 := { s with finalFrame := flip W s.finalFrame }
  ([.shown s1.finalFrame], handleKey maxDelay s1 key)

/-- The compute function a tick starts (lines 234-250), chosen from the flags as
they are when the compute thread is created. -/
def tickVariant (maxDelay : Nat) (s : State) : Variant :=
  selectVariant (selectSlots maxDelay s).vertical (selectSlots maxDelay s).reverse
    (selectSlots maxDelay s).symmetric

/-- The steps of the compute function a tick starts. -/
def tickSteps (band : Nat → Nat → Nat → Nat) (W H maxDelay : Nat) (s : State) : List Step :=
  (tickVariant maxDelay s).steps band W H maxDelay (selectSlots maxDelay s).delay
    (selectSlots maxDelay s).currentDelay

/-- The state when both `getFrame` and the compute function have been joined. -/
def afterCompute (band : Nat → Nat → Nat → Nat) (W H maxDelay : Nat) (s : State)
    (inp : TickInput) : State :=
  getFrame inp.cam
    { selectSlots maxDelay s with
      finalFrame := runSteps (ringSeen (selectSlots maxDelay s) inp.racy)
        (selectSlots maxDelay s).finalFrame (tickSteps band W H maxDelay s) }

/-- One tick of the `while (!stop)` loop of `main` with `parallelComputation = true`
(lines 213-292). -/
def parallelTick (band : Nat → Nat → Nat → Nat) (W H maxDelay : Nat) (s : State)
    (inp : TickInput) : TickResult :=
  let t1 : List Event := [.called .createFrame]
  if inp.ret .createFrame ≠ 0 then failWith t1 (inp.ret .createFrame) else
  let t2 := t1 ++ [.started .getFrame, .called .createCompute]
  if inp.ret .createCompute ≠ 0 then failWith t2 (inp.ret .createCompute) else
  let t3 := t2 ++ [.started (.compute (tickVariant maxDelay s))]
    ++ (tickSteps band W H maxDelay s).map (fun st => Event.selected st.workingDelay)
    ++ [.called .joinFrame]
  if inp.ret .joinFrame ≠ 0 then failWith t3 (inp.ret .joinFrame) else
  let t4 := t3 ++ [.called .joinCompute]
  if inp.ret .joinCompute ≠ 0 then failWith t4 (inp.ret .joinCompute) else
  let t5 := t4 ++ [.called .createDisplay]
  if inp.ret .createDisplay ≠ 0 then failWith t5 (inp.ret .createDisplay) else
  let shownAndState := displayFrame W maxDelay inp.key (afterCompute band W H maxDelay s inp)
  let t6 := t5 ++ [.started .displayFrame] ++ shownAndState.1 ++ [.called .joinDisplay]
  if inp.ret .joinDisplay ≠ 0 then failWith t6 (inp.ret .joinDisplay) else
  ⟨t6, .next (endOfTick inp.switchNow shownAndState.2)⟩

/-- How `main` ends on a finite list of tick environments: `exit (code)`, `return 0`,
or still running when the list is used up. -/
inductive MainOutcome where
  | exited (code : Int)
  | returned (s : State)
  | running (s : State)

/-- The loop `while (!stop) { ... }` of `main` (line 194), one tick per input. -/
def mainLoop (band : Nat → Nat → Nat → Nat) (W H maxDelay : Nat) :
    List TickInput → State → List Event × MainOutcome
  | [], s => ([], if s.stop then .returned s else .running s)
  | inp :: rest, s =>
    if s.stop then ([], .returned s)
    else
      match parallelTick band W H maxDelay s inp with
      | ⟨trace, .exit code⟩ => (trace, .exited code)
      | ⟨trace, .next s1⟩ =>
        (trace ++ (mainLoop band W H maxDelay rest s1).1,
          (mainLoop band W H maxDelay rest s1).2)

/-- The initialisation loop (lines 174-187): `while (newDelay < maxDelay+1)
{ cam.read (frameArray[newDelay]); newDelay++; }`, on natural numbers; `cams k` is the
frame read into slot `k`.  The machine version is `initLoop32`; the two fill the same slots
for `maxDelay+2 < 2^31` (`initLoop32_spec`). -/
def initLoop (maxDelay : Nat) (cams : Nat → Frame) : Nat → State → State
  | 0, s => s
  | fuel + 1, s =>
    if s.newDelay < maxDelay + 1 then
      initLoop maxDelay cams fuel
        { getFrame (cams s.newDelay) s with newDelay := s.newDelay + 1 }
    else s

/-- The state of `main` when it enters the `while (!stop)` loop. -/
def initState (maxDelay : Nat) (cams : Nat → Frame) : State :=
  initLoop maxDelay cams (maxDelay + 1) { startState with delay := 1, newDelay := 0 }

/-- The thread calls of the parallel tick in program order (lines 230-264). -/
def callOrder : List ThreadCall :=
  [.createFrame, .createCompute, .joinFrame, .joinCompute, .createDisplay, .joinDisplay]

/-- The thread calls a trace records, in order. -/
def callsOf (trace : List Event) : List ThreadCall :=
  trace.filterMap (fun e => match e with
    | .called c => some c
    | _ => none)

/-- The `pthread_create` call that starts a thread function. -/
def Phase.createCall : Phase → ThreadCall
  | .getFrame => .createFrame
  | .compute _ => .createCompute
  | .displayFrame => .createDisplay

/-- Every ring slot other than the one the coming tick overwrites has been written by
`cam.read`. -/
def RingReady (maxDelay : Nat) (s : State) : Prop :=
  ∀ slot, slot < maxDelay + 2 → slot ≠ wrapNewDelay maxDelay s.newDelay →
    s.acquired slot = true

/-- The ring slots a tick reads: the base slot `currentDelay` cloned by `main` and the
slots `workingDelay` of the steps of its compute function. -/
def slotsRead (band : Nat → Nat → Nat → Nat) (W H maxDelay : Nat) (s : State) : List Nat :=
  (selectSlots maxDelay s).currentDelay ::
    (tickSteps band W H maxDelay s).map (fun st => st.workingDelay)

/-- The indices written by a list of steps, in program order. -/
def writes (steps : List Step) : List Nat := steps.flatMap (fun st => st.pixels)

/-- The body of the row loops of `computeHorizontal`: rows `first ≤ r < last`, each
copied over its whole width `W`. -/
def rowsUp (W first last : Nat) : List Nat :=
  (rangeUp first last).flatMap (fun r => rowPixels (r * W) W)

/-! ## `kinect.hpp` -/

/-- Source constants `SYMMETRIC_GRAVITATION` .. `EXPONENTIAL_GRAVITATION`
(kinect.hpp lines 51-54). -/
inductive GravitationModel where
  | symmetric | quadrant | linear | exponential
  deriving DecidableEq, Repr

/-- The integer code of a gravitation model (kinect.hpp lines 51-54). -/
def GravitationModel.code : GravitationModel → Nat
  | .symmetric => 0
  | .quadrant => 1
  | .linear => 2
  | .exponential => 3

/-- The integer coordinates of `struct Pixel` (kinect.hpp lines 64-70). -/
structure Pixel where
  x : Int
  y : Int
  z : Int
  deriving DecidableEq, Repr

/-- The raw-space statistics of `class Object` (kinect.hpp lines 81-82): the pixel count
and the bounding box. -/
structure Object where
  pixelNb : Int
  xMin : Int
  xMax : Int
  yMin : Int
  yMax : Int
  zMin : Int
  zMax : Int
  deriving DecidableEq, Repr

/-- Default member initialiser `int objectMinSize = 5000` (kinect.hpp line 109). -/
def objectMinSize : Int := 5000

/-- Modelled from the spec: the per-cluster accumulation inside `Kinect::extractObjects`,
whose body is not in the sources.  Spec 4.1: "For each cluster accumulate pixel count and
running min/sum/max of x, y, z (raw)".  The first pixel initialises the bounds. -/
def accumulate : List Pixel → Object
  | [] => ⟨0, 0, 0, 0, 0, 0, 0⟩
  | p :: rest =>
    rest.foldl (fun o q =>
      { pixelNb := o.pixelNb + 1,
        xMin := min o.xMin q.x, xMax := max o.xMax q.x,
        yMin := min o.yMin q.y, yMax := max o.yMax q.y,
        zMin := min o.zMin q.z, zMax := max o.zMax q.z })
      ⟨1, p.x, p.x, p.y, p.y, p.z, p.z⟩

/-- Modelled from the spec: `Kinect::extractObjects` (declared at kinect.hpp lines
186-187, body not in the sources), from the clusters of foreground pixels on.  Spec 4.1:
"For each cluster accumulate pixel count ... Discard any cluster with
`pixelNb < objectMinSize`."  The grouping of the depth buffer into `clusters` is taken
as given. -/
def extractObjects (minSize : Int) (clusters : List (List Pixel)) : List Object :=
  (clusters.map accumulate).filter (fun o => !decide (o.pixelNb < minSize))

/-- A force or a position of the particle plane, floating-point numbers read as exact
rationals. -/
abbrev Vec2 := ℚ × ℚ

/-- Modelled from the spec: the gravitation field used by `Kinect::updateParticles`
(declared at kinect.hpp lines 210-211, body not in the sources).  Spec 4.3: "pure
function `force(particlePos, objectList) → forceVector`, selected by one of four models";
spec 4.4: "sum gravitational contributions from all currently tracked objects".  The
force law of one object under a model, clamped and cut off as the spec requires, is the
parameter `pull`. -/
def gravitationField (pull : GravitationModel → Vec2 → Object → Vec2)
    (model : GravitationModel) (particle : Vec2) (objects : List Object) : Vec2 :=
  objects.foldl (fun force o => force + pull model particle o) (0, 0)

/-- Modelled from the spec: the force step of `Kinect::updateParticles` and
`Kinect::updateParticlesWithDistribution` (bodies not in the sources).  Spec 4.4: "per
particle: (1) sum gravitational contributions from all currently tracked objects via
GravitationField".  The result pairs every particle with the force applied to it. -/
def updateParticles (pull : GravitationModel → Vec2 → Object → Vec2)
    (model : GravitationModel) (particles : List Vec2) (objects : List Object) :
    List (Vec2 × Vec2) :=
  particles.map (fun p => (p, gravitationField pull model p objects))

/-! ### Default configuration of `class Kinect` (kinect.hpp lines 132-141)

The default member initialisers of the spatial bounds, the `float` literals read as
exact rationals. -/

/-- Default `float xMin = -2.30`. -/
def Kinect.xMin : ℚ := -2.30

/-- Default `float xMax = 2.30`. -/
def Kinect.xMax : ℚ := 2.30

/-- Default `float yMin = 0`. -/
def Kinect.yMin : ℚ := 0

/-- Default `float yMax = 0`. -/
def Kinect.yMax : ℚ := 0

/-- Default `float zMin = 2.00`. -/
def Kinect.zMin : ℚ := 2.00

/-- Default `float zMax = 4.40`. -/
def Kinect.zMax : ℚ := 4.40

/-- Default `float rMin = 0.45/1.75`. -/
def Kinect.rMin : ℚ := 0.45 / 1.75

/-- Default `float rMoy = 1.35/1.75`. -/
def Kinect.rMoy : ℚ := 1.35 / 1.75

/-- Default `float rMax = 1.65/1.75`. -/
def Kinect.rMax : ℚ := 1.65 / 1.75

/-- The effect of the switching step (lines 288-290) on the pair `(vertical, reverse)`
when `useSymmetric` is false. -/
def switchFlags (p : Bool × Bool) : Bool × Bool :=
  (!p.1, if !p.1 then !p.2 else p.2)

/-! ### Lines 213-219 on machine integers

`newDelay`, `displayDelay` and `currentDelay` are `int`, `maxDelay` and `delay` are
`unsigned int`: comparisons and mixed arithmetic happen on 32-bit unsigned values, and
the result is stored back into an `int`. -/

/-- The 32-bit unsigned value an `int` converts to. -/
def toU32 (x : Int) : Nat := (x % 4294967296).toNat

/-- The `int` a 32-bit unsigned value converts to (two's complement). -/
def toI32 (u : Nat) : Int :=
  if u % 4294967296 < 2147483648 then ((u % 4294967296 : Nat) : Int)
  else ((u % 4294967296 : Nat) : Int) - 4294967296

/-- Line 213 on machine integers. -/
def wrapNewDelay32 (maxDelay : Nat) (newDelay : Int) : Int :=
  if toU32 newDelay ≥ uadd32 maxDelay 2 then 0 else newDelay

/-- The loop of line 216 on machine integers, with `fuel` iterations left: the value of
`displayDelay` when the loop is left and the number of subtractions made. -/
def reduceLoop32 (maxDelay : Nat) : Nat → Int → Int × Nat
  | 0, x => (x, 0)
  | fuel + 1, x =>
    if toU32 x ≥ uadd32 maxDelay 2 then
      ((reduceLoop32 maxDelay fuel (toI32 (usub32 (toU32 x) (uadd32 maxDelay 2)))).1,
        (reduceLoop32 maxDelay fuel (toI32 (usub32 (toU32 x) (uadd32 maxDelay 2)))).2 + 1)
    else (x, 0)

/-- Lines 215-216 on machine integers; `2^32` iterations are enough whenever
`maxDelay+2` is not `0` as a 32-bit value. -/
def displayDelay32 (maxDelay delay : Nat) (newDelay : Int) : Int × Nat :=
  reduceLoop32 maxDelay uintSize
    (toI32 (uadd32 (toU32 (newDelay + 1)) (usub32 maxDelay delay)))

/-- Lines 218-219 on machine integers. -/
def currentDelay32 (maxDelay : Nat) (displayDelay : Int) : Int :=
  if toU32 (displayDelay + 1) ≥ uadd32 maxDelay 2 then
    toI32 (usub32 (toU32 (displayDelay + 1)) (uadd32 maxDelay 2))
  else displayDelay + 1

/-- The number of subtractions the loop `while (x >= maxDelay+2) { x -= (maxDelay + 2); }`
makes, with `fuel` iterations left. -/
def reduceSteps (maxDelay : Nat) : Nat → Nat → Nat
  | 0, _ => 0
  | fuel + 1, x =>
    if x ≥ maxDelay + 2 then reduceSteps maxDelay fuel (x - (maxDelay + 2)) + 1 else 0

/-! ## Binary32 arithmetic of the band bounds

The compute functions evaluate `(int) (k * ((float) dim / (float) delay))` in binary32
(round to nearest, ties to even).  A non-negative binary32 value `v` is held as the natural
number `v * 2^64`; every binary32 value between `2^-41` and the largest finite one is such
a natural below `2^256`, and the values met here, `dim/delay` with `delay < 2^32` and its
multiples, lie in that range. -/

/-- Floor of the binary logarithm of `n < 2^(2^level)`, by halving the bit range. -/
def log2Step : Nat → Nat → Nat
  | 0, _ => 0
  | level + 1, n =>
    if n < 2 ^ 2 ^ level then log2Step level n
    else 2 ^ level + log2Step level (n / 2 ^ 2 ^ level)

/-- Floor of the binary logarithm of `n < 2^256` (`0` for `n = 0`). -/
def ilog2 (n : Nat) : Nat := log2Step 8 n

/-- The integer nearest to `a / b`, ties to even. -/
def rne (a b : Nat) : Nat :=
  if 2 * (a % b) < b then a / b
  else if b < 2 * (a % b) then a / b + 1
  else if a / b % 2 = 0 then a / b else a / b + 1

/-- The rational `a / b` rounded to 24 significant bits: with `2^e ≤ a/b < 2^(e+1)` the
result is the multiple of `2^(e-23)` nearest to `a / b`, ties to even. -/
def round24 (a b : Nat) : Nat :=
  rne a (b * 2 ^ (ilog2 (a / b) - 23)) * 2 ^ (ilog2 (a / b) - 23)

/-- The scale of the fixed-point representation. -/
def fscale : Nat := 2 ^ 64

/-- The conversion `(float) n` of an integer. -/
def floatOfNat (n : Nat) : Nat := round24 (n * fscale) 1

/-- The binary32 quotient `x / y`. -/
def floatDiv (x y : Nat) : Nat := round24 (x * fscale) y

/-- The binary32 product `x * y`. -/
def floatMul (x y : Nat) : Nat := round24 (x * y) fscale

/-- The conversion `(int) x`: truncation toward zero. -/
def floatToInt (x : Nat) : Nat := x / fscale

/-- The bound `(int) (k * ((float) dim / (float) delay))` as the program computes it. -/
def floatBand (dim delay k : Nat) : Nat :=
  floatToInt (floatMul (floatOfNat k) (floatDiv (floatOfNat dim) (floatOfNat delay)))

/-! ## The non-symmetric compute functions on machine integers

`computeVertical`, `computeVerticalReverse`, `computeHorizontal` and
`computeHorizontalReverse` as the three nested loops of the source: 32-bit unsigned
counters and pixel indices, the `int` ring index `workingDelay`, binary32 bounds, and a
bound `fuel` on the number of loop tests.  A run returns the list of its outer iterations,
each with the ring slot of `workingPixel` and the pixel indices copied, or `none` when the
fuel runs out.  The bounds `(int) firstRow`, `(int) lastRow` are non-negative and small,
so their conversion to `unsigned int` is the identity. -/

/-- Unsigned 32-bit multiplication. -/
def umul32 (a b : Nat) : Nat := (a * b) % uintSize

/-- The statements `workingDelay++; if (workingDelay >= maxDelay+2) { workingDelay = 0; }`
on machine integers: `workingDelay` is an `int`, the comparison is unsigned. -/
def nextSlot32 (maxDelay : Nat) (workingDelay : Int) : Int :=
  if toU32 (workingDelay + 1) ≥ uadd32 maxDelay 2 then 0 else workingDelay + 1

/-- The innermost loop `for (int x = 0; x < n; x++) { currentPixel[i] = workingPixel[i];
i += stride; }`: the indices copied so far are `out`. -/
def copyLoop32 (stride n : Nat) : Nat → Nat → Nat → List Nat → Option (List Nat)
  | 0, _, _, _ => none
  | fuel + 1, x, i, out =>
    if x < n then copyLoop32 stride n fuel (x + 1) (uadd32 i stride) (out ++ [i])
    else some out

/-- The body of a row loop: `unsigned int i = r * frameWidth;` and the loop over the
columns with `i++`. -/
def rowLine32 (W : Nat) (fuel r : Nat) : Option (List Nat) :=
  copyLoop32 1 W fuel 0 (umul32 r W) []

/-- The body of a column loop: `unsigned int i = c;` and the loop over the rows with
`i += frameWidth`. -/
def colLine32 (W H : Nat) (fuel c : Nat) : Option (List Nat) :=
  copyLoop32 W H fuel 0 c []

/-- The loop `for (unsigned int x = (int) first; x < (int) last; x++)` over rows or
columns. -/
def linesUp32 (line : Nat → Nat → Option (List Nat)) (last : Nat) :
    Nat → Nat → List Nat → Option (List Nat)
  | 0, _, _ => none
  | fuel + 1, x, out =>
    if x < last then
      match line fuel x with
      | some px => linesUp32 line last fuel (uadd32 x 1) (out ++ px)
      | none => none
    else some out

/-- The loop `for (unsigned int x = (int) first; x > (int) last; x--)` over rows or
columns. -/
def linesDown32 (line : Nat → Nat → Option (List Nat)) (last : Nat) :
    Nat → Nat → List Nat → Option (List Nat)
  | 0, _, _ => none
  | fuel + 1, x, out =>
    if x > last then
      match line fuel x with
      | some px => linesDown32 line last fuel (usub32 x 1) (out ++ px)
      | none => none
    else some out

/-- The outer loop `for (unsigned int d = 1; d < delay; d++)`: `first` is `(int) first`,
`lastOf d` is `(int) last` of iteration `d`, `lines fuel first last` the middle loop. -/
def outerLoop32 (maxDelay delay : Nat) (lastOf : Nat → Nat)
    (lines : Nat → Nat → Nat → Option (List Nat)) :
    Nat → Nat → Int → Nat → List Step → Option (List Step)
  | 0, _, _, _, _ => none
  | fuel + 1, d, workingDelay, first, acc =>
    if d < delay then
      match lines fuel first (lastOf d) with
      | some px =>
        outerLoop32 maxDelay delay lastOf lines fuel (uadd32 d 1)
          (nextSlot32 maxDelay workingDelay) (lastOf d)
          (acc ++ [⟨(nextSlot32 maxDelay workingDelay).toNat, px⟩])
      | none => none
    else some acc

/-- Run of `computeVertical` (lines 380-408). -/
def computeVertical32 (W H maxDelay delay : Nat) (currentDelay : Int) (fuel : Nat) :
    Option (List Step) :=
  outerLoop32 maxDelay delay (fun d => floatBand W delay (uadd32 d 1))
    (fun fuel first last => linesUp32 (colLine32 W H) last fuel first [])
    fuel 1 currentDelay (floatToInt (floatDiv (floatOfNat W) (floatOfNat delay))) []

/-- Run of `computeVerticalReverse` (lines 453-481). -/
def computeVerticalReverse32 (W H maxDelay delay : Nat) (currentDelay : Int) (fuel : Nat) :
    Option (List Step) :=
  outerLoop32 maxDelay delay (fun d => floatBand W delay (usub32 delay (uadd32 d 1)))
    (fun fuel first last => linesDown32 (colLine32 W H) last fuel first [])
    fuel 1 currentDelay (floatBand W delay (usub32 delay 1)) []

/-- Run of `computeHorizontal` (lines 527-556). -/
def computeHorizontal32 (W H maxDelay delay : Nat) (currentDelay : Int) (fuel : Nat) :
    Option (List Step) :=
  outerLoop32 maxDelay delay (fun d => floatBand H delay (uadd32 d 1))
    (fun fuel first last => linesUp32 (rowLine32 W) last fuel first [])
    fuel 1 currentDelay (floatToInt (floatDiv (floatOfNat H) (floatOfNat delay))) []

/-- Run of `computeHorizontalReverse` (lines 656-684). -/
def computeHorizontalReverse32 (W H maxDelay delay : Nat) (currentDelay : Int) (fuel : Nat) :
    Option (List Step) :=
  outerLoop32 maxDelay delay (fun d => floatBand H delay (usub32 delay (uadd32 d 1)))
    (fun fuel first last => linesDown32 (rowLine32 W) last fuel first [])
    fuel 1 currentDelay (floatBand H delay (usub32 delay 1)) []

/-- The initialisation loop (lines 174-187) on machine integers: `newDelay` is an `int`,
the test `newDelay < maxDelay+1` is unsigned; `filled` lists the slots `cam.read` has
written, and the result is `none` when the fuel runs out. -/
def initLoop32 (maxDelay : Nat) : Nat → Int → List Int → Option (Int × List Int)
  | 0, _, _ => none
  | fuel + 1, newDelay, filled =>
    if toU32 newDelay < uadd32 maxDelay 1 then
      initLoop32 maxDelay fuel (newDelay + 1) (filled ++ [newDelay])
    else some (newDelay, filled)

/-! ## Theorems -/

/-- The cases of the `switch` of `displayFrame`. -/
theorem switchKey_cases (maxDelay : Nat) (s : State) (k : Nat) :
    (k = 27 ∧ switchKey maxDelay s k = { s with stop := true }) ∨
    (k = 114 ∧ switchKey maxDelay s k = { s with reverse := !s.reverse }) ∨
    (k = 115 ∧ switchKey maxDelay s k = { s with symmetric := !s.symmetric }) ∨
    ((k = 104 ∨ k = 118) ∧ switchKey maxDelay s k = { s with vertical := !s.vertical }) ∨
    (k = 171 ∧ switchKey maxDelay s k
      = { s with delay := if uadd32 s.delay 1 > maxDelay then maxDelay else uadd32 s.delay 1 }) ∨
    (k = 173 ∧ switchKey maxDelay s k
      = { s with delay := if usub32 s.delay 1 ≤ 1 then 1 else usub32 s.delay 1 }) ∨
    (k = 141 ∧ switchKey maxDelay s k
      = { s with delay := if s.delay < maxDelay then maxDelay else 1 }) ∨
    ((k ≠ 27 ∧ k ≠ 114 ∧ k ≠ 115 ∧ k ≠ 104 ∧ k ≠ 118 ∧ k ≠ 171 ∧ k ≠ 173 ∧ k ≠ 141) ∧
      switchKey maxDelay s k = s) := by
  unfold switchKey
  by_cases h1 : k = 27
  · exact Or.inl ⟨h1, if_pos h1⟩
  rw [if_neg h1]
  by_cases h2 : k = 114
  · exact Or.inr (Or.inl ⟨h2, if_pos h2⟩)
  rw [if_neg h2]
  by_cases h3 : k = 115
  · exact Or.inr (Or.inr (Or.inl ⟨h3, if_pos h3⟩))
  rw [if_neg h3]
  by_cases h4 : k = 104
  · exact Or.inr (Or.inr (Or.inr (Or.inl ⟨Or.inl h4, if_pos h4⟩)))
  rw [if_neg h4]
  by_cases h5 : k = 118
  · exact Or.inr (Or.inr (Or.inr (Or.inl ⟨Or.inr h5, if_pos h5⟩)))
  rw [if_neg h5]
  by_cases h6 : k = 171
  · exact Or.inr (Or.inr (Or.inr (Or.inr (Or.inl ⟨h6, if_pos h6⟩))))
  rw [if_neg h6]
  by_cases h7 : k = 173
  · exact Or.inr (Or.inr (Or.inr (Or.inr (Or.inr (Or.inl ⟨h7, if_pos h7⟩)))))
  rw [if_neg h7]
  by_cases h8 : k = 141
  · exact Or.inr (Or.inr (Or.inr (Or.inr (Or.inr (Or.inr (Or.inl ⟨h8, if_pos h8⟩))))))
  rw [if_neg h8]
  exact Or.inr (Or.inr (Or.inr (Or.inr (Or.inr (Or.inr (Or.inr
    ⟨⟨h1, h2, h3, h4, h5, h6, h7, h8⟩, rfl⟩))))))

theorem uadd32_one (d : Nat) (h : d + 1 < 2 ^ 32) : uadd32 d 1 = d + 1 := by
  unfold uadd32 uintSize
  exact Nat.mod_eq_of_lt h

theorem usub32_one (d : Nat) (h1 : 1 ≤ d) (h : d < 2 ^ 32) : usub32 d 1 = d - 1 := by
  unfold usub32 uintSize
  rw [Nat.mod_eq_of_lt h]
  norm_num
  omega

theorem switchKey_delay_range (maxDelay : Nat) (h32 : maxDelay < 2 ^ 32 - 1)
    (s : State) (k : Nat) (h1 : 1 ≤ s.delay) (h2 : s.delay ≤ maxDelay) :
    1 ≤ (switchKey maxDelay s k).delay ∧ (switchKey maxDelay s k).delay ≤ maxDelay := by
  have hm : 1 ≤ maxDelay := le_trans h1 h2
  have ha : uadd32 s.delay 1 = s.delay + 1 := uadd32_one _ (by omega)
  have hs : usub32 s.delay 1 = s.delay - 1 := usub32_one _ h1 (by omega)
  rcases switchKey_cases maxDelay s k with ⟨_, e⟩ | ⟨_, e⟩ | ⟨_, e⟩ | ⟨_, e⟩ | ⟨_, e⟩ | ⟨_, e⟩ |
    ⟨_, e⟩ | ⟨_, e⟩ <;> rw [e]
  · exact ⟨h1, h2⟩
  · exact ⟨h1, h2⟩
  · exact ⟨h1, h2⟩
  · exact ⟨h1, h2⟩
  · dsimp only
    rw [ha]
    split_ifs <;> omega
  · dsimp only
    rw [hs]
    split_ifs <;> omega
  · dsimp only
    split_ifs <;> omega
  · exact ⟨h1, h2⟩

/-- Key `-` (173) at `delay = 1`. -/
theorem switchKey_minus_at_one (maxDelay : Nat) (s : State) (hs : s.delay = 1) :
    (switchKey maxDelay s 173).delay = 1 := by
  have hsub : usub32 s.delay 1 = s.delay - 1 := usub32_one _ (by omega) (by omega)
  rcases switchKey_cases maxDelay s 173 with ⟨h, _⟩ | ⟨h, _⟩ | ⟨h, _⟩ | ⟨h, _⟩ | ⟨h, _⟩ |
    ⟨_, e⟩ | ⟨h, _⟩ | ⟨h, _⟩
  · omega
  · omega
  · omega
  · omega
  · omega
  · rw [e]
    dsimp only
    rw [hsub, hs]
    rfl
  · omega
  · omega

/-- Key `+` (171) at `delay = maxDelay`. -/
theorem switchKey_plus_at_max (maxDelay : Nat) (h32 : maxDelay < 2 ^ 32 - 1) (s : State)
    (hs : s.delay = maxDelay) : (switchKey maxDelay s 171).delay = maxDelay := by
  have hadd : uadd32 s.delay 1 = s.delay + 1 := uadd32_one _ (by omega)
  rcases switchKey_cases maxDelay s 171 with ⟨h, _⟩ | ⟨h, _⟩ | ⟨h, _⟩ | ⟨h, _⟩ | ⟨_, e⟩ |
    ⟨h, _⟩ | ⟨h, _⟩ | ⟨h, _⟩
  · omega
  · omega
  · omega
  · omega
  · rw [e]
    dsimp only
    rw [hadd, hs, if_pos (by omega)]
  · omega
  · omega
  · omega

theorem handleKey_delay_range (maxDelay : Nat) (h32 : maxDelay < 2 ^ 32 - 1)
    (s : State) (key : Int) (h1 : 1 ≤ s.delay) (h2 : s.delay ≤ maxDelay) :
    1 ≤ (handleKey maxDelay s key).delay ∧ (handleKey maxDelay s key).delay ≤ maxDelay := by
  unfold handleKey
  split_ifs
  · exact switchKey_delay_range maxDelay h32 s _ h1 h2
  · exact ⟨h1, h2⟩

theorem foldl_handleKey_delay_range (maxDelay : Nat) (h32 : maxDelay < 2 ^ 32 - 1)
    (keys : List Int) (s : State) (h1 : 1 ≤ s.delay) (h2 : s.delay ≤ maxDelay) :
    1 ≤ (keys.foldl (handleKey maxDelay) s).delay ∧
      (keys.foldl (handleKey maxDelay) s).delay ≤ maxDelay := by
  induction keys generalizing s with
  | nil => exact ⟨h1, h2⟩
  | cons key rest ih =>
    obtain ⟨a, b⟩ := handleKey_delay_range maxDelay h32 s key h1 h2
    exact ih _ a b

/-! ### Ring slots of the compute functions -/

theorem nextSlot_eq_mod (maxDelay w : Nat) (hw : w < maxDelay + 2) :
    nextSlot maxDelay w = (w + 1) % (maxDelay + 2) := by
  unfold nextSlot
  split_ifs with h
  · have : w + 1 = maxDelay + 2 := by omega
    rw [this, Nat.mod_self]
  · rw [Nat.mod_eq_of_lt (by omega)]

theorem nextSlot_lt (maxDelay w : Nat) : nextSlot maxDelay w < maxDelay + 2 := by
  unfold nextSlot
  split_ifs <;> omega

theorem symmetricStart_eq_mod (maxDelay delay currentDelay : Nat) (hd : delay ≤ maxDelay)
    (hc : currentDelay < maxDelay + 2) :
    symmetricStart maxDelay delay currentDelay = (currentDelay + delay / 2) % (maxDelay + 2) := by
  unfold symmetricStart
  have h2 : delay / 2 ≤ delay := Nat.div_le_self _ _
  split_ifs with h
  · rw [Nat.mod_eq_sub_mod h, Nat.mod_eq_of_lt (by omega)]
  · rw [Nat.mod_eq_of_lt (by omega)]

/-- The slot of every step of the outer loop is `(w + j) mod (maxDelay+2)` for some
`1 ≤ j ≤ n`, where `w` is the slot the loop starts from and `n` its number of iterations. -/
theorem bandLoop_slots (maxDelay : Nat) (lastOf : Nat → Nat) (body : Nat → Nat → List Nat)
    (n d w first : Nat) (hw : w < maxDelay + 2) (st : Step)
    (hst : st ∈ bandLoop maxDelay lastOf body n d w first) :
    ∃ j, 1 ≤ j ∧ j ≤ n ∧ st.workingDelay = (w + j) % (maxDelay + 2) := by
  induction n generalizing d w first with
  | zero => simp [bandLoop] at hst
  | succ n ih =>
    simp only [bandLoop, List.mem_cons] at hst
    rcases hst with h | h
    · refine ⟨1, le_refl _, by omega, ?_⟩
      rw [h]
      exact nextSlot_eq_mod maxDelay w hw
    · obtain ⟨j, hj1, hj2, hj3⟩ := ih (d + 1) (nextSlot maxDelay w) (lastOf d)
        (nextSlot_lt maxDelay w) h
      refine ⟨j + 1, by omega, by omega, ?_⟩
      rw [hj3, nextSlot_eq_mod maxDelay w hw, Nat.mod_add_mod]
      congr 1
      omega

/-- Slots of the loops that start from `currentDelay` and run `delay - 1` times. -/
theorem plainLoop_slots (maxDelay delay currentDelay : Nat) (lastOf : Nat → Nat)
    (body : Nat → Nat → List Nat) (d first : Nat) (hc : currentDelay < maxDelay + 2) (st : Step)
    (hst : st ∈ bandLoop maxDelay lastOf body (delay - 1) d currentDelay first) :
    ∃ k, 1 ≤ k ∧ k < delay ∧ st.workingDelay = (currentDelay + k) % (maxDelay + 2) := by
  obtain ⟨j, h1, h2, h3⟩ := bandLoop_slots maxDelay lastOf body _ d currentDelay first hc st hst
  exact ⟨j, h1, by omega, h3⟩

/-- Slots of the loops that start from `currentDelay + delay/2` and run `delay/2 - 1` times. -/
theorem symmetricLoop_slots (maxDelay delay currentDelay : Nat) (lastOf : Nat → Nat)
    (body : Nat → Nat → List Nat) (d first : Nat) (hd : delay ≤ maxDelay)
    (hc : currentDelay < maxDelay + 2) (st : Step)
    (hst : st ∈ bandLoop maxDelay lastOf body (delay / 2 - 1) d
      (symmetricStart maxDelay delay currentDelay) first) :
    ∃ k, delay / 2 + 1 ≤ k ∧ k < 2 * (delay / 2) ∧
      st.workingDelay = (currentDelay + k) % (maxDelay + 2) := by
  have hs := symmetricStart_eq_mod maxDelay delay currentDelay hd hc
  have hlt : symmetricStart maxDelay delay currentDelay < maxDelay + 2 := by
    rw [hs]
    exact Nat.mod_lt _ (by omega)
  obtain ⟨j, h1, h2, h3⟩ := bandLoop_slots maxDelay lastOf body _ d _ first hlt st hst
  refine ⟨delay / 2 + j, by omega, by omega, ?_⟩
  rw [h3, hs, Nat.mod_add_mod]
  congr 1
  omega

/-- Every compute function other than `computeHorizontalReverseSymmetric` takes its
pixel pointers from slots `(currentDelay + k) mod (maxDelay+2)` with `1 ≤ k < delay`. -/
theorem steps_slots (v : Variant) (hv : v ≠ .horizontalReverseSymmetric)
    (band : Nat → Nat → Nat → Nat) (W H maxDelay delay currentDelay : Nat)
    (hd : delay ≤ maxDelay) (hc : currentDelay < maxDelay + 2) (st : Step)
    (hst : st ∈ v.steps band W H maxDelay delay currentDelay) :
    ∃ k, 1 ≤ k ∧ k < delay ∧ st.workingDelay = (currentDelay + k) % (maxDelay + 2) := by
  have h2 : 2 * (delay / 2) ≤ delay := Nat.mul_div_le delay 2
  cases v with
  | vertical => exact plainLoop_slots _ _ _ _ _ _ _ hc st hst
  | verticalReverse => exact plainLoop_slots _ _ _ _ _ _ _ hc st hst
  | horizontal => exact plainLoop_slots _ _ _ _ _ _ _ hc st hst
  | horizontalReverse => exact plainLoop_slots _ _ _ _ _ _ _ hc st hst
  | horizontalSymmetricBis =>
    simp only [Variant.steps, computeHorizontalSymmetricBisSteps, List.mem_append] at hst
    rcases hst with h | h
    · exact plainLoop_slots _ _ _ _ _ _ _ hc st h
    · exact plainLoop_slots _ _ _ _ _ _ _ hc st h
  | verticalSymmetric =>
    obtain ⟨k, a, b, c⟩ := symmetricLoop_slots _ _ _ _ _ _ _ hd hc st hst
    exact ⟨k, by omega, by omega, c⟩
  | verticalReverseSymmetric =>
    obtain ⟨k, a, b, c⟩ := symmetricLoop_slots _ _ _ _ _ _ _ hd hc st hst
    exact ⟨k, by omega, by omega, c⟩
  | horizontalSymmetric =>
    obtain ⟨k, a, b, c⟩ := symmetricLoop_slots _ _ _ _ _ _ _ hd hc st hst
    exact ⟨k, by omega, by omega, c⟩
  | horizontalReverseSymmetric => exact absurd rfl hv

/-! ### Effect of the steps on the frame -/

theorem copyPixel_same (cur work : Frame) (i : Nat) : copyPixel cur work i i = work i := by
  simp [copyPixel]

theorem copyPixel_other (cur work : Frame) (i j : Nat) (h : j ≠ i) :
    copyPixel cur work i j = cur j := by
  simp [copyPixel, h]

/-- C2 (amended): for every `maxDelay` with `1 ≤ maxDelay < 2^32 - 1` (32-bit unsigned
arithmetic), handling any single key event leaves `1 ≤ delay ≤ maxDelay` whenever
`1 ≤ delay ≤ maxDelay` held before; `-` (173) at `delay = 1` leaves `delay = 1`, `+` (171)
at `delay = maxDelay` leaves `delay = maxDelay`; and the range holds after every finite
sequence of key events starting from `delay = 1`. -/
theorem delay_stays_in_range (maxDelay : Nat) (hmax : 1 ≤ maxDelay)
    (h32 : maxDelay < 2 ^ 32 - 1) :
    (∀ (s : State) (key : Int), 1 ≤ s.delay → s.delay ≤ maxDelay →
      1 ≤ (handleKey maxDelay s key).delay ∧ (handleKey maxDelay s key).delay ≤ maxDelay) ∧
    (∀ s : State, s.delay = 1 → (handleKey maxDelay s 173).delay = 1) ∧
    (∀ s : State, s.delay = maxDelay → (handleKey maxDelay s 171).delay = maxDelay) ∧
    (∀ (keys : List Int) (s : State), s.delay = 1 →
      1 ≤ (keys.foldl (handleKey maxDelay) s).delay ∧
        (keys.foldl (handleKey maxDelay) s).delay ≤ maxDelay) := by
  refine ⟨fun s key a b => handleKey_delay_range maxDelay h32 s key a b, ?_, ?_, ?_⟩
  · intro s hs
    have hk : handleKey maxDelay s 173 = switchKey maxDelay s 173 := if_pos (by decide)
    rw [hk]
    exact switchKey_minus_at_one maxDelay s hs
  · intro s hs
    have hk : handleKey maxDelay s 171 = switchKey maxDelay s 171 := if_pos (by decide)
    rw [hk]
    exact switchKey_plus_at_max maxDelay h32 s hs
  · intro keys s hs
    exact foldl_handleKey_delay_range maxDelay h32 keys s (by omega) (by omega)

/-- Witness for `delay_stays_in_range`: `+` pressed at the initial `delay = 1` with the
default `maxDelay = 60`. -/
theorem delay_stays_in_range_witness :
    1 ≤ (handleKey 60 startState 171).delay ∧ (handleKey 60 startState 171).delay ≤ 60 :=
  (delay_stays_in_range 60 (by decide) (by norm_num)).1 startState 171 (by decide) (by decide)

/-- C2 fails as stated at `maxDelay = 4294967295` (what `atoi` of "-1" stores in the
unsigned `maxDelay`): there `delay = maxDelay` is in range, `+` increments it to
`2^32`, which wraps to `0`, and `0 > maxDelay` does not hold, so `delay` is left at `0`.
The same state is reached from `delay = 1` by Enter (141) followed by `+` (171). -/
theorem delay_range_counterexample :
    (1 : Nat) ≤ 4294967295 ∧
    1 ≤ ({ startState with delay := 4294967295 } : State).delay ∧
    ({ startState with delay := 4294967295 } : State).delay ≤ 4294967295 ∧
    (handleKey 4294967295 { startState with delay := 4294967295 } 171).delay = 0 ∧
    startState.delay = 1 ∧
    (([141, 171] : List Int).foldl (handleKey 4294967295) startState).delay = 0 := by
  refine ⟨by decide, by decide, by decide, by decide, rfl, by decide⟩

/-! ### Thread failures -/

theorem callsOf_append (a b : List Event) : callsOf (a ++ b) = callsOf a ++ callsOf b := by
  simp [callsOf, List.filterMap_append]

theorem callsOf_selected (steps : List Step) :
    callsOf (steps.map (fun st => Event.selected st.workingDelay)) = [] := by
  induction steps with
  | nil => rfl
  | cons st rest ih =>
    simp only [List.map_cons, callsOf, List.filterMap_cons] at ih ⊢
    exact ih

theorem callsOf_failWith (pre : List Event) (code : Int) :
    callsOf (failWith pre code).trace = callsOf pre := by
  simp [failWith, callsOf, List.filterMap_append]

theorem started_mem_failWith (pre : List Event) (code : Int) (p : Phase) :
    Event.started p ∈ (failWith pre code).trace ↔ Event.started p ∈ pre := by
  simp [failWith]

theorem shown_mem_failWith (pre : List Event) (code : Int) (f : Frame) :
    Event.shown f ∈ (failWith pre code).trace ↔ Event.shown f ∈ pre := by
  simp [failWith]

/-- The tick when every thread call succeeds. -/
theorem parallelTick_outcome_of_success (band : Nat → Nat → Nat → Nat) (W H maxDelay : Nat)
    (s : State) (inp : TickInput) (h : ∀ c, inp.ret c = 0) :
    (parallelTick band W H maxDelay s inp).outcome
      = .next (endOfTick inp.switchNow
          (displayFrame W maxDelay inp.key (afterCompute band W H maxDelay s inp)).2) := by
  simp [parallelTick, h]

/-- What a failed thread call `c` leaves behind, given the trace `pre` up to and
including the call. -/
theorem failWith_fatal (band : Nat → Nat → Nat → Nat) (W H maxDelay : Nat) (s : State)
    (inp : TickInput) (rest : List TickInput) (pre : List Event) (c : ThreadCall)
    (hr : parallelTick band W H maxDelay s inp = failWith pre (inp.ret c))
    (hc : inp.ret c ≠ 0)
    (hpre : callsOf pre <+: callOrder) (hlast : (callsOf pre).getLast? = some c)
    (hzero : ∀ b ∈ callsOf pre, b ≠ c → inp.ret b = 0)
    (hstarted : ∀ p, Event.started p ∈ pre →
      p.createCall ∈ callsOf pre ∧ inp.ret p.createCall = 0) :
    ∃ c, inp.ret c ≠ 0 ∧
      (parallelTick band W H maxDelay s inp).outcome = .exit (-1) ∧
      (∃ pre, (parallelTick band W H maxDelay s inp).trace
        = pre ++ [.diagnostic (inp.ret c), .exited (-1)]) ∧
      callsOf (parallelTick band W H maxDelay s inp).trace <+: callOrder ∧
      (callsOf (parallelTick band W H maxDelay s inp).trace).getLast? = some c ∧
      (∀ b ∈ callsOf (parallelTick band W H maxDelay s inp).trace, b ≠ c → inp.ret b = 0) ∧
      (∀ p, Event.started p ∈ (parallelTick band W H maxDelay s inp).trace →
        p.createCall ∈ callsOf (parallelTick band W H maxDelay s inp).trace ∧
          inp.ret p.createCall = 0) ∧
      (s.stop = false → mainLoop band W H maxDelay (inp :: rest) s
        = ((parallelTick band W H maxDelay s inp).trace, .exited (-1))) := by
  refine ⟨c, hc, ?_, ⟨pre, ?_⟩, ?_, ?_, ?_, ?_, ?_⟩
  · rw [hr]; rfl
  · rw [hr]; rfl
  · rw [hr, callsOf_failWith]; exact hpre
  · rw [hr, callsOf_failWith]; exact hlast
  · rw [hr, callsOf_failWith]; exact hzero
  · rw [hr, callsOf_failWith]
    intro p hp
    exact hstarted p ((started_mem_failWith pre _ p).1 hp)
  · intro hstop
    simp only [mainLoop, hstop, Bool.false_eq_true, if_false]
    rw [hr]
    rfl

/-- The case analysis of the parallel tick over the six return codes. -/
theorem thread_failure_is_fatal_aux (band : Nat → Nat → Nat → Nat) (W H maxDelay : Nat)
    (s : State) (inp : TickInput) (rest : List TickInput) :
    ((∃ c, inp.ret c ≠ 0) →
      ∃ c, inp.ret c ≠ 0 ∧
        (parallelTick band W H maxDelay s inp).outcome = .exit (-1) ∧
        (∃ pre, (parallelTick band W H maxDelay s inp).trace
          = pre ++ [.diagnostic (inp.ret c), .exited (-1)]) ∧
        callsOf (parallelTick band W H maxDelay s inp).trace <+: callOrder ∧
        (callsOf (parallelTick band W H maxDelay s inp).trace).getLast? = some c ∧
        (∀ b ∈ callsOf (parallelTick band W H maxDelay s inp).trace, b ≠ c → inp.ret b = 0) ∧
        (∀ p, Event.started p ∈ (parallelTick band W H maxDelay s inp).trace →
          p.createCall ∈ callsOf (parallelTick band W H maxDelay s inp).trace ∧
            inp.ret p.createCall = 0) ∧
        (s.stop = false → mainLoop band W H maxDelay (inp :: rest) s
          = ((parallelTick band W H maxDelay s inp).trace, .exited (-1)))) ∧
    ((inp.ret .createFrame ≠ 0 ∨ inp.ret .createCompute ≠ 0 ∨ inp.ret .joinFrame ≠ 0 ∨
        inp.ret .joinCompute ≠ 0) →
      Event.started .displayFrame ∉ (parallelTick band W H maxDelay s inp).trace ∧
      ∀ f, Event.shown f ∉ (parallelTick band W H maxDelay s inp).trace) ∧
    ((∀ c, inp.ret c = 0) →
      ∃ s1, (parallelTick band W H maxDelay s inp).outcome = .next s1) := by
  have pre1 : callsOf ([.called .createFrame] : List Event) = [.createFrame] := rfl
  have pre2 : callsOf ([.called .createFrame] ++ [.started .getFrame, .called .createCompute])
      = [.createFrame, .createCompute] := rfl
  have pre3 : callsOf ([.called .createFrame] ++ [.started .getFrame, .called .createCompute]
      ++ [.started (.compute (tickVariant maxDelay s))]
      ++ (tickSteps band W H maxDelay s).map (fun st => Event.selected st.workingDelay)
      ++ [.called .joinFrame]) = [.createFrame, .createCompute, .joinFrame] := by
    simp only [callsOf_append, callsOf_selected]
    rfl
  have pre4 : callsOf ([.called .createFrame] ++ [.started .getFrame, .called .createCompute]
      ++ [.started (.compute (tickVariant maxDelay s))]
      ++ (tickSteps band W H maxDelay s).map (fun st => Event.selected st.workingDelay)
      ++ [.called .joinFrame] ++ [.called .joinCompute])
      = [.createFrame, .createCompute, .joinFrame, .joinCompute] := by
    simp only [callsOf_append, callsOf_selected]
    rfl
  have pre5 : callsOf ([.called .createFrame] ++ [.started .getFrame, .called .createCompute]
      ++ [.started (.compute (tickVariant maxDelay s))]
      ++ (tickSteps band W H maxDelay s).map (fun st => Event.selected st.workingDelay)
      ++ [.called .joinFrame] ++ [.called .joinCompute] ++ [.called .createDisplay])
      = [.createFrame, .createCompute, .joinFrame, .joinCompute, .createDisplay] := by
    simp only [callsOf_append, callsOf_selected]
    rfl
  have pre6 : callsOf ([.called .createFrame] ++ [.started .getFrame, .called .createCompute]
      ++ [.started (.compute (tickVariant maxDelay s))]
      ++ (tickSteps band W H maxDelay s).map (fun st => Event.selected st.workingDelay)
      ++ [.called .joinFrame] ++ [.called .joinCompute] ++ [.called .createDisplay]
      ++ [.started .displayFrame]
      ++ (displayFrame W maxDelay inp.key (afterCompute band W H maxDelay s inp)).1
      ++ [.called .joinDisplay])
      = [.createFrame, .createCompute, .joinFrame, .joinCompute, .createDisplay,
          .joinDisplay] := by
    simp only [callsOf_append, callsOf_selected]
    rfl
  have started3 : ∀ p, Event.started p ∈ ([.called .createFrame]
      ++ [.started .getFrame, .called .createCompute]
      ++ [.started (.compute (tickVariant maxDelay s))]
      ++ (tickSteps band W H maxDelay s).map (fun st => Event.selected st.workingDelay)) →
      p = .getFrame ∨ p = .compute (tickVariant maxDelay s) := by
    intro p hp
    simp only [List.mem_append, List.mem_cons, List.mem_singleton, List.mem_map,
      List.not_mem_nil, Event.started.injEq, reduceCtorEq, or_false, false_or, and_false,
      exists_false, exists_const] at hp
    exact hp
  have shown3 : ∀ f, Event.shown f ∉ ([.called .createFrame]
      ++ [.started .getFrame, .called .createCompute]
      ++ [.started (.compute (tickVariant maxDelay s))]
      ++ (tickSteps band W H maxDelay s).map (fun st => Event.selected st.workingDelay)) := by
    intro f hf
    simp only [List.mem_append, List.mem_cons, List.mem_singleton, List.mem_map,
      List.not_mem_nil, reduceCtorEq, or_false, false_or, and_false,
      exists_false, exists_const] at hf
  by_cases h1 : inp.ret .createFrame = 0
  swap
  · have hr : parallelTick band W H maxDelay s inp
        = failWith [.called .createFrame] (inp.ret .createFrame) := by
      unfold parallelTick
      exact if_pos h1
    refine ⟨fun _ => ?_, fun _ => ?_, fun h => absurd (h _) h1⟩
    · refine failWith_fatal band W H maxDelay s inp rest _ .createFrame hr h1 ?_ ?_ ?_ ?_
      · rw [pre1]; decide
      · rw [pre1]; rfl
      · rw [pre1]
        intro b hb hne
        simp only [List.mem_singleton] at hb
        exact absurd hb hne
      · intro p hp
        simp only [List.mem_singleton, reduceCtorEq] at hp
    · rw [hr]
      constructor
      · rw [started_mem_failWith]
        simp only [List.mem_singleton, reduceCtorEq, not_false_eq_true]
      · intro f
        rw [shown_mem_failWith]
        simp only [List.mem_singleton, reduceCtorEq, not_false_eq_true]
  have n1 : ¬ inp.ret .createFrame ≠ 0 := fun h => h h1
  by_cases h2 : inp.ret .createCompute = 0
  swap
  · have hr : parallelTick band W H maxDelay s inp
        = failWith ([.called .createFrame] ++ [.started .getFrame, .called .createCompute])
            (inp.ret .createCompute) := by
      unfold parallelTick
      exact (if_neg n1).trans (if_pos h2)
    refine ⟨fun _ => ?_, fun _ => ?_, fun h => absurd (h _) h2⟩
    · refine failWith_fatal band W H maxDelay s inp rest _ .createCompute hr h2 ?_ ?_ ?_ ?_
      · rw [pre2]; decide
      · rw [pre2]; rfl
      · rw [pre2]
        intro b hb hne
        simp only [List.mem_cons, List.mem_singleton, List.not_mem_nil, or_false] at hb
        rcases hb with hb | hb
        · rw [hb]; exact h1
        · exact absurd hb hne
      · intro p hp
        rw [pre2]
        simp only [List.cons_append, List.nil_append, List.mem_cons, List.mem_singleton,
          List.not_mem_nil, Event.started.injEq, reduceCtorEq, or_false, false_or] at hp
        rw [hp]
        exact ⟨List.mem_cons_self _ _, h1⟩
    · rw [hr]
      constructor
      · rw [started_mem_failWith]
        simp only [List.cons_append, List.nil_append, List.mem_cons, List.mem_singleton,
          List.not_mem_nil, Event.started.injEq, reduceCtorEq, or_false, false_or,
          not_false_eq_true]
      · intro f
        rw [shown_mem_failWith]
        simp only [List.cons_append, List.nil_append, List.mem_cons, List.mem_singleton,
          List.not_mem_nil, reduceCtorEq, or_false, false_or, not_false_eq_true]
  have n2 : ¬ inp.ret .createCompute ≠ 0 := fun h => h h2
  have hstart : ∀ p, p = Phase.getFrame ∨ p = Phase.compute (tickVariant maxDelay s) →
      ∀ calls : List ThreadCall, .createFrame ∈ calls → .createCompute ∈ calls →
      p.createCall ∈ calls ∧ inp.ret p.createCall = 0 := by
    intro p hp calls c1 c2
    rcases hp with hp | hp
    · rw [hp]; exact ⟨c1, h1⟩
    · rw [hp]; exact ⟨c2, h2⟩
  by_cases h3 : inp.ret .joinFrame = 0
  swap
  · have hr : parallelTick band W H maxDelay s inp
        = failWith ([.called .createFrame] ++ [.started .getFrame, .called .createCompute]
            ++ [.started (.compute (tickVariant maxDelay s))]
            ++ (tickSteps band W H maxDelay s).map (fun st => Event.selected st.workingDelay)
            ++ [.called .joinFrame]) (inp.ret .joinFrame) := by
      unfold parallelTick
      exact (if_neg n1).trans ((if_neg n2).trans (if_pos h3))
    refine ⟨fun _ => ?_, fun _ => ?_, fun h => absurd (h _) h3⟩
    · refine failWith_fatal band W H maxDelay s inp rest _ .joinFrame hr h3 ?_ ?_ ?_ ?_
      · rw [pre3]; decide
      · rw [pre3]; rfl
      · rw [pre3]
        intro b hb hne
        simp only [List.mem_cons, List.mem_singleton, List.not_mem_nil, or_false] at hb
        rcases hb with hb | hb | hb
        · rw [hb]; exact h1
        · rw [hb]; exact h2
        · exact absurd hb hne
      · intro p hp
        rw [pre3]
        rw [List.mem_append] at hp
        rcases hp with hp | hp
        · exact hstart p (started3 p hp) _ (by decide) (by decide)
        · simp only [List.mem_singleton, reduceCtorEq] at hp
    · rw [hr]
      constructor
      · rw [started_mem_failWith, List.mem_append]
        rintro (hp | hp)
        · rcases started3 _ hp with h | h <;> cases h
        · simp only [List.mem_singleton, reduceCtorEq] at hp
      · intro f
        rw [shown_mem_failWith, List.mem_append]
        rintro (hp | hp)
        · exact shown3 f hp
        · simp only [List.mem_singleton, reduceCtorEq] at hp
  have n3 : ¬ inp.ret .joinFrame ≠ 0 := fun h => h h3
  by_cases h4 : inp.ret .joinCompute = 0
  swap
  · have hr : parallelTick band W H maxDelay s inp
        = failWith ([.called .createFrame] ++ [.started .getFrame, .called .createCompute]
            ++ [.started (.compute (tickVariant maxDelay s))]
            ++ (tickSteps band W H maxDelay s).map (fun st => Event.selected st.workingDelay)
            ++ [.called .joinFrame] ++ [.called .joinCompute]) (inp.ret .joinCompute) := by
      unfold parallelTick
      exact (if_neg n1).trans ((if_neg n2).trans ((if_neg n3).trans (if_pos h4)))
    refine ⟨fun _ => ?_, fun _ => ?_, fun h => absurd (h _) h4⟩
    · refine failWith_fatal band W H maxDelay s inp rest _ .joinCompute hr h4 ?_ ?_ ?_ ?_
      · rw [pre4]; decide
      · rw [pre4]; rfl
      · rw [pre4]
        intro b hb hne
        simp only [List.mem_cons, List.mem_singleton, List.not_mem_nil, or_false] at hb
        rcases hb with hb | hb | hb | hb
        · rw [hb]; exact h1
        · rw [hb]; exact h2
        · rw [hb]; exact h3
        · exact absurd hb hne
      · intro p hp
        rw [pre4]
        rw [List.mem_append, List.mem_append] at hp
        rcases hp with (hp | hp) | hp
        · exact hstart p (started3 p hp) _ (by decide) (by decide)
        · simp only [List.mem_singleton, reduceCtorEq] at hp
        · simp only [List.mem_singleton, reduceCtorEq] at hp
    · rw [hr]
      constructor
      · rw [started_mem_failWith, List.mem_append, List.mem_append]
        rintro ((hp | hp) | hp)
        · rcases started3 _ hp with h | h <;> cases h
        · simp only [List.mem_singleton, reduceCtorEq] at hp
        · simp only [List.mem_singleton, reduceCtorEq] at hp
      · intro f
        rw [shown_mem_failWith, List.mem_append, List.mem_append]
        rintro ((hp | hp) | hp)
        · exact shown3 f hp
        · simp only [List.mem_singleton, reduceCtorEq] at hp
        · simp only [List.mem_singleton, reduceCtorEq] at hp
  have n4 : ¬ inp.ret .joinCompute ≠ 0 := fun h => h h4
  have hfirst4 : ¬ (inp.ret .createFrame ≠ 0 ∨ inp.ret .createCompute ≠ 0 ∨
      inp.ret .joinFrame ≠ 0 ∨ inp.ret .joinCompute ≠ 0) := by
    rintro (h | h | h | h)
    · exact h h1
    · exact h h2
    · exact h h3
    · exact h h4
  by_cases h5 : inp.ret .createDisplay = 0
  swap
  · have hr : parallelTick band W H maxDelay s inp
        = failWith ([.called .createFrame] ++ [.started .getFrame, .called .createCompute]
            ++ [.started (.compute (tickVariant maxDelay s))]
            ++ (tickSteps band W H maxDelay s).map (fun st => Event.selected st.workingDelay)
            ++ [.called .joinFrame] ++ [.called .joinCompute] ++ [.called .createDisplay])
            (inp.ret .createDisplay) := by
      unfold parallelTick
      exact (if_neg n1).trans ((if_neg n2).trans ((if_neg n3).trans ((if_neg n4).trans
        (if_pos h5))))
    refine ⟨fun _ => ?_, fun h => absurd h hfirst4, fun h => absurd (h _) h5⟩
    refine failWith_fatal band W H maxDelay s inp rest _ .createDisplay hr h5 ?_ ?_ ?_ ?_
    · rw [pre5]; decide
    · rw [pre5]; rfl
    · rw [pre5]
      intro b hb hne
      simp only [List.mem_cons, List.mem_singleton, List.not_mem_nil, or_false] at hb
      rcases hb with hb | hb | hb | hb | hb
      · rw [hb]; exact h1
      · rw [hb]; exact h2
      · rw [hb]; exact h3
      · rw [hb]; exact h4
      · exact absurd hb hne
    · intro p hp
      rw [pre5]
      rw [List.mem_append, List.mem_append, List.mem_append] at hp
      rcases hp with ((hp | hp) | hp) | hp
      · exact hstart p (started3 p hp) _ (by decide) (by decide)
      · simp only [List.mem_singleton, reduceCtorEq] at hp
      · simp only [List.mem_singleton, reduceCtorEq] at hp
      · simp only [List.mem_singleton, reduceCtorEq] at hp
  have n5 : ¬ inp.ret .createDisplay ≠ 0 := fun h => h h5
  by_cases h6 : inp.ret .joinDisplay = 0
  swap
  · have hr : parallelTick band W H maxDelay s inp
        = failWith ([.called .createFrame] ++ [.started .getFrame, .called .createCompute]
            ++ [.started (.compute (tickVariant maxDelay s))]
            ++ (tickSteps band W H maxDelay s).map (fun st => Event.selected st.workingDelay)
            ++ [.called .joinFrame] ++ [.called .joinCompute] ++ [.called .createDisplay]
            ++ [.started .displayFrame]
            ++ (displayFrame W maxDelay inp.key (afterCompute band W H maxDelay s inp)).1
            ++ [.called .joinDisplay]) (inp.ret .joinDisplay) := by
      unfold parallelTick
      exact (if_neg n1).trans ((if_neg n2).trans ((if_neg n3).trans ((if_neg n4).trans
        ((if_neg n5).trans (if_pos h6)))))
    refine ⟨fun _ => ?_, fun h => absurd h hfirst4, fun h => absurd (h _) h6⟩
    refine failWith_fatal band W H maxDelay s inp rest _ .joinDisplay hr h6 ?_ ?_ ?_ ?_
    · rw [pre6]; decide
    · rw [pre6]; rfl
    · rw [pre6]
      intro b hb hne
      simp only [List.mem_cons, List.mem_singleton, List.not_mem_nil, or_false] at hb
      rcases hb with hb | hb | hb | hb | hb | hb
      · rw [hb]; exact h1
      · rw [hb]; exact h2
      · rw [hb]; exact h3
      · rw [hb]; exact h4
      · rw [hb]; exact h5
      · exact absurd hb hne
    · intro p hp
      rw [pre6]
      rw [List.mem_append, List.mem_append, List.mem_append, List.mem_append, List.mem_append,
        List.mem_append] at hp
      rcases hp with (((((hp | hp) | hp) | hp) | hp) | hp) | hp
      · exact hstart p (started3 p hp) _ (by decide) (by decide)
      · simp only [List.mem_singleton, reduceCtorEq] at hp
      · simp only [List.mem_singleton, reduceCtorEq] at hp
      · simp only [List.mem_singleton, reduceCtorEq] at hp
      · simp only [List.mem_singleton, Event.started.injEq] at hp
        rw [hp]
        exact ⟨by decide, h5⟩
      · simp only [displayFrame, List.mem_singleton, reduceCtorEq] at hp
      · simp only [List.mem_singleton, reduceCtorEq] at hp
  have n6 : ¬ inp.ret .joinDisplay ≠ 0 := fun h => h h6
  refine ⟨fun ⟨c, hc⟩ => ?_, fun h => absurd h hfirst4, fun _ => ?_⟩
  · cases c <;> contradiction
  · refine ⟨endOfTick inp.switchNow
      (displayFrame W maxDelay inp.key (afterCompute band W H maxDelay s inp)).2, ?_⟩
    unfold parallelTick
    exact congrArg TickResult.outcome ((if_neg n1).trans ((if_neg n2).trans ((if_neg n3).trans
      ((if_neg n4).trans ((if_neg n5).trans (if_neg n6))))))

/-- C3: thread failure is fatal.  In the parallel tick of `main`, if any of the six
thread calls returns a non-zero code, then for the first such call `c` the tick prints
a diagnostic with that code and ends with `exit(-1)`; the thread calls made are exactly
the calls of the program order up to `c`, all earlier ones returned 0, a thread
function has started only if its `pthread_create` was made and returned 0, and `main`
starts no further tick.  In particular `displayFrame` is never started (and nothing is
shown) when creating or joining the frame or compute thread failed.  If all six calls
return 0 the tick does not exit. -/
theorem thread_failure_is_fatal (band : Nat → Nat → Nat → Nat) (W H maxDelay : Nat)
    (s : State) (inp : TickInput) (rest : List TickInput) :
    ((∃ c, inp.ret c ≠ 0) →
      ∃ c, inp.ret c ≠ 0 ∧
        (parallelTick band W H maxDelay s inp).outcome = .exit (-1) ∧
        (∃ pre, (parallelTick band W H maxDelay s inp).trace
          = pre ++ [.diagnostic (inp.ret c), .exited (-1)]) ∧
        callsOf (parallelTick band W H maxDelay s inp).trace <+: callOrder ∧
        (callsOf (parallelTick band W H maxDelay s inp).trace).getLast? = some c ∧
        (∀ b ∈ callsOf (parallelTick band W H maxDelay s inp).trace, b ≠ c → inp.ret b = 0) ∧
        (∀ p, Event.started p ∈ (parallelTick band W H maxDelay s inp).trace →
          p.createCall ∈ callsOf (parallelTick band W H maxDelay s inp).trace ∧
            inp.ret p.createCall = 0) ∧
        (s.stop = false → mainLoop band W H maxDelay (inp :: rest) s
          = ((parallelTick band W H maxDelay s inp).trace, .exited (-1)))) ∧
    ((inp.ret .createFrame ≠ 0 ∨ inp.ret .createCompute ≠ 0 ∨ inp.ret .joinFrame ≠ 0 ∨
        inp.ret .joinCompute ≠ 0) →
      Event.started .displayFrame ∉ (parallelTick band W H maxDelay s inp).trace ∧
      ∀ f, Event.shown f ∉ (parallelTick band W H maxDelay s inp).trace) ∧
    ((∀ c, inp.ret c = 0) →
      ∃ s1, (parallelTick band W H maxDelay s inp).outcome = .next s1) :=
  thread_failure_is_fatal_aux band W H maxDelay s inp rest

/-! ### Key events and the stop flag -/

/-- The `switch` touches none of `newDelay`, `displayDelay`, `currentDelay`, the ring
and `finalFrame`. -/
theorem switchKey_data (maxDelay : Nat) (s : State) (k : Nat) :
    (switchKey maxDelay s k).newDelay = s.newDelay ∧
    (switchKey maxDelay s k).displayDelay = s.displayDelay ∧
    (switchKey maxDelay s k).currentDelay = s.currentDelay ∧
    (switchKey maxDelay s k).frameArray = s.frameArray ∧
    (switchKey maxDelay s k).acquired = s.acquired ∧
    (switchKey maxDelay s k).finalFrame = s.finalFrame := by
  rcases switchKey_cases maxDelay s k with ⟨_, e⟩ | ⟨_, e⟩ | ⟨_, e⟩ | ⟨_, e⟩ | ⟨_, e⟩ | ⟨_, e⟩ |
    ⟨_, e⟩ | ⟨_, e⟩ <;> rw [e] <;> exact ⟨rfl, rfl, rfl, rfl, rfl, rfl⟩

/-- The key handler touches none of `newDelay`, `displayDelay`, `currentDelay`, the ring
and `finalFrame`. -/
theorem handleKey_data (maxDelay : Nat) (s : State) (key : Int) :
    (handleKey maxDelay s key).newDelay = s.newDelay ∧
    (handleKey maxDelay s key).displayDelay = s.displayDelay ∧
    (handleKey maxDelay s key).currentDelay = s.currentDelay ∧
    (handleKey maxDelay s key).frameArray = s.frameArray ∧
    (handleKey maxDelay s key).acquired = s.acquired ∧
    (handleKey maxDelay s key).finalFrame = s.finalFrame := by
  unfold handleKey
  split_ifs
  · exact switchKey_data maxDelay s _
  · exact ⟨rfl, rfl, rfl, rfl, rfl, rfl⟩

/-- The end of the loop body advances `newDelay` and leaves the ring and `finalFrame`. -/
theorem endOfTick_data (switchNow : Bool) (s : State) :
    (endOfTick switchNow s).newDelay = s.newDelay + 1 ∧
    (endOfTick switchNow s).displayDelay = s.newDelay ∧
    (endOfTick switchNow s).currentDelay = s.currentDelay ∧
    (endOfTick switchNow s).frameArray = s.frameArray ∧
    (endOfTick switchNow s).acquired = s.acquired ∧
    (endOfTick switchNow s).finalFrame = s.finalFrame := by
  cases switchNow <;> exact ⟨rfl, rfl, rfl, rfl, rfl, rfl⟩

/-- A tick that does not exit ends in the state the loop body computes. -/
theorem parallelTick_next (band : Nat → Nat → Nat → Nat) (W H maxDelay : Nat)
    (s : State) (inp : TickInput) (s1 : State)
    (h : (parallelTick band W H maxDelay s inp).outcome = .next s1) :
    s1 = endOfTick inp.switchNow
      (displayFrame W maxDelay inp.key (afterCompute band W H maxDelay s inp)).2 := by
  unfold parallelTick at h
  simp only [failWith] at h
  split_ifs at h
  exact (Outcome.next.inj h).symm

/-- The data fields at the end of a tick, in terms of the state when the compute
function has been joined. -/
theorem tickEnd_data (W maxDelay : Nat) (switchNow : Bool) (key : Int) (s : State) :
    (endOfTick switchNow (displayFrame W maxDelay key s).2).newDelay = s.newDelay + 1 ∧
    (endOfTick switchNow (displayFrame W maxDelay key s).2).displayDelay = s.newDelay ∧
    (endOfTick switchNow (displayFrame W maxDelay key s).2).currentDelay = s.currentDelay ∧
    (endOfTick switchNow (displayFrame W maxDelay key s).2).frameArray = s.frameArray ∧
    (endOfTick switchNow (displayFrame W maxDelay key s).2).acquired = s.acquired ∧
    (endOfTick switchNow (displayFrame W maxDelay key s).2).finalFrame
      = flip W s.finalFrame := by
  obtain ⟨a1, a2, a3, a4, a5, a6⟩ := endOfTick_data switchNow (displayFrame W maxDelay key s).2
  obtain ⟨c1, c2, c3, c4, c5, c6⟩ := handleKey_data maxDelay
    { s with finalFrame := flip W s.finalFrame } key
  exact ⟨a1.trans (congrArg (· + 1) c1), a2.trans c1, a3.trans c3, a4.trans c4, a5.trans c5,
    a6.trans c6⟩

/-- C4: key events take effect only at the tick boundary.  Two runs of a tick from the
same start state that differ only in the key returned by `waitKey` produce the same
trace: the same thread calls, the same selected slots `workingDelay`, the same frame
shown by `imshow`.  The frame shown is the flipped result of the compute function chosen
from `vertical`, `reverse`, `symmetric` and run with `delay` as they are at the start of
the tick, and the selected slots are those of its steps.  The states the two runs end in
agree on `newDelay`, `displayDelay`, `currentDelay`, the ring and `finalFrame`, so the
key can only change behaviour from the next tick on. -/
theorem key_effect_waits_for_next_tick (band : Nat → Nat → Nat → Nat) (W H maxDelay : Nat)
    (s : State) (inp : TickInput) (key1 key2 : Int) :
    (parallelTick band W H maxDelay s { inp with key := key1 }).trace
      = (parallelTick band W H maxDelay s { inp with key := key2 }).trace ∧
    (∀ f, Event.shown f ∈ (parallelTick band W H maxDelay s { inp with key := key1 }).trace →
      f = flip W (compute (selectVariant s.vertical s.reverse s.symmetric) band W H maxDelay
        s.delay (selectSlots maxDelay s).currentDelay
        (ringSeen (selectSlots maxDelay s) inp.racy)
        (s.frameArray (selectSlots maxDelay s).currentDelay))) ∧
    (∀ w, Event.selected w ∈ (parallelTick band W H maxDelay s { inp with key := key1 }).trace →
      ∃ st ∈ (selectVariant s.vertical s.reverse s.symmetric).steps band W H maxDelay
        s.delay (selectSlots maxDelay s).currentDelay, st.workingDelay = w) ∧
    (∀ s1, (parallelTick band W H maxDelay s { inp with key := key1 }).outcome = .next s1 →
      ∃ s2, (parallelTick band W H maxDelay s { inp with key := key2 }).outcome = .next s2 ∧
        s1.newDelay = s2.newDelay ∧ s1.displayDelay = s2.displayDelay ∧
        s1.currentDelay = s2.currentDelay ∧
        s1.currentDelay = (selectSlots maxDelay s).currentDelay ∧
        s1.frameArray = s2.frameArray ∧ s1.acquired = s2.acquired ∧
        s1.finalFrame = s2.finalFrame) := by
  refine ⟨?_, ?_, ?_, ?_⟩
  · simp only [parallelTick, failWith, displayFrame, afterCompute]
    split_ifs <;> rfl
  · intro f hf
    simp only [parallelTick, failWith, displayFrame, afterCompute] at hf
    split_ifs at hf <;> simp at hf <;> (rw [hf]; rfl)
  · intro w hw
    simp only [parallelTick, failWith, displayFrame, afterCompute] at hw
    split_ifs at hw <;> simp at hw <;> exact hw
  · intro s1 h1
    have e1 := parallelTick_next band W H maxDelay s _ s1 h1
    have hret : ∀ c, inp.ret c = 0 := by
      intro c
      by_contra hc
      obtain ⟨c0, _, hexit, _⟩ :=
        (thread_failure_is_fatal_aux band W H maxDelay s { inp with key := key1 } []).1 ⟨c, hc⟩
      rw [hexit] at h1
      cases h1
    obtain ⟨a1, a2, a3, a4, a5, a6⟩ :=
      tickEnd_data W maxDelay inp.switchNow key1 (afterCompute band W H maxDelay s inp)
    obtain ⟨b1, b2, b3, b4, b5, b6⟩ :=
      tickEnd_data W maxDelay inp.switchNow key2 (afterCompute band W H maxDelay s inp)
    refine ⟨_, parallelTick_outcome_of_success band W H maxDelay s { inp with key := key2 } hret,
      ?_⟩
    subst e1
    exact ⟨a1.trans b1.symm, a2.trans b2.symm, a3.trans b3.symm, a3, a4.trans b4.symm,
      a5.trans b5.symm, a6.trans b6.symm⟩

/-! ### The stop flag -/

theorem switchKey_stop (maxDelay : Nat) (s : State) (k : Nat) :
    (switchKey maxDelay s k).stop = (s.stop || decide (k = 27)) := by
  rcases switchKey_cases maxDelay s k with ⟨h, e⟩ | ⟨h, e⟩ | ⟨h, e⟩ | ⟨h, e⟩ | ⟨h, e⟩ | ⟨h, e⟩ |
    ⟨h, e⟩ | ⟨h, e⟩ <;> rw [e]
  · show true = (s.stop || decide (k = 27))
    rw [decide_eq_true h, Bool.or_true]
  all_goals
    show s.stop = (s.stop || decide (k = 27))
    rw [decide_eq_false (by omega), Bool.or_false]

theorem handleKey_stop (maxDelay : Nat) (s : State) (key : Int) :
    (handleKey maxDelay s key).stop = (s.stop || decide (0 < key ∧ maskKey key = 27)) := by
  unfold handleKey
  split_ifs with h
  · rw [switchKey_stop]
    simp [h]
  · simp [h]

theorem switchKey_forgets_stop (maxDelay : Nat) (s : State) (k : Nat) (b c : Bool) :
    { switchKey maxDelay { s with stop := b } k with stop := c }
      = { switchKey maxDelay s k with stop := c } := by
  rcases switchKey_cases maxDelay s k with ⟨h, e⟩ | ⟨h, e⟩ | ⟨h, e⟩ | ⟨h, e⟩ | ⟨h, e⟩ | ⟨h, e⟩ |
    ⟨h, e⟩ | ⟨h, e⟩ <;>
  rcases switchKey_cases maxDelay { s with stop := b } k with ⟨h1, e1⟩ | ⟨h1, e1⟩ | ⟨h1, e1⟩ |
    ⟨h1, e1⟩ | ⟨h1, e1⟩ | ⟨h1, e1⟩ | ⟨h1, e1⟩ | ⟨h1, e1⟩ <;>
  first
    | omega
    | (rw [e, e1])

theorem handleKey_forgets_stop (maxDelay : Nat) (s : State) (key : Int) (b c : Bool) :
    { handleKey maxDelay { s with stop := b } key with stop := c }
      = { handleKey maxDelay s key with stop := c } := by
  unfold handleKey
  split_ifs
  · exact switchKey_forgets_stop maxDelay s _ b c
  · rfl

theorem endOfTick_stop (switchNow : Bool) (s : State) :
    (endOfTick switchNow s).stop = s.stop := by
  cases switchNow <;> rfl

theorem endOfTick_setStop (switchNow : Bool) (s : State) (c : Bool) :
    { endOfTick switchNow s with stop := c } = endOfTick switchNow { s with stop := c } := by
  cases switchNow <;> rfl

theorem endOfTick_vertical (switchNow : Bool) (s : State) :
    (endOfTick switchNow s).vertical = (if switchNow then !s.vertical else s.vertical) := by
  cases switchNow <;> rfl

theorem mainLoop_of_stop (band : Nat → Nat → Nat → Nat) (W H maxDelay : Nat)
    (inputs : List TickInput) (s : State) (h : s.stop = true) :
    mainLoop band W H maxDelay inputs s = ([], .returned s) := by
  cases inputs <;> simp [mainLoop, h]

theorem mainLoop_of_next (band : Nat → Nat → Nat → Nat) (W H maxDelay : Nat)
    (inp : TickInput) (rest : List TickInput) (s s1 : State) (hs : s.stop = false)
    (h : (parallelTick band W H maxDelay s inp).outcome = .next s1) :
    mainLoop band W H maxDelay (inp :: rest) s
      = ((parallelTick band W H maxDelay s inp).trace
          ++ (mainLoop band W H maxDelay rest s1).1, (mainLoop band W H maxDelay rest s1).2) := by
  rw [mainLoop]
  simp only [hs, Bool.false_eq_true, if_false]
  generalize parallelTick band W H maxDelay s inp = r at h
  obtain ⟨trace, outcome⟩ := r
  simp only at h
  subst h
  rfl

/-- C5: stop flag discipline.  A tick never reads `stop`: started from a state that
differs only in `stop`, it produces the same trace and ends in a state that differs only
in `stop`; the flag is read by the loop condition alone, which ends `main` without a
tick when it is set.  A key event (`key > 0`) sets `stop` exactly when
`key & 0xFF = 27`, and neither the key handler nor the rest of the tick resets `stop`
from true to false.  Hence the tick in which ESC is handled still completes, with its
`newDelay` increment and its mode-switch step, and no further tick begins. -/
theorem stop_flag_discipline (band : Nat → Nat → Nat → Nat) (W H maxDelay : Nat)
    (s : State) (inp : TickInput) (rest : List TickInput) :
    (∀ b, (parallelTick band W H maxDelay { s with stop := b } inp).trace
        = (parallelTick band W H maxDelay s inp).trace ∧
      ∀ s1, (parallelTick band W H maxDelay s inp).outcome = .next s1 →
        ∃ s2, (parallelTick band W H maxDelay { s with stop := b } inp).outcome = .next s2 ∧
          { s2 with stop := s1.stop } = s1) ∧
    (s.stop = true → mainLoop band W H maxDelay (inp :: rest) s = ([], .returned s)) ∧
    (∀ key : Int, 0 < key → s.stop = false →
      ((handleKey maxDelay s key).stop = true ↔ maskKey key = 27)) ∧
    (∀ key : Int, ¬ 0 < key → (handleKey maxDelay s key).stop = s.stop) ∧
    (∀ key : Int, s.stop = true → (handleKey maxDelay s key).stop = true) ∧
    (s.stop = true → ∀ s1, (parallelTick band W H maxDelay s inp).outcome = .next s1 →
      s1.stop = true) ∧
    ((∀ c, inp.ret c = 0) → 0 < inp.key → maskKey inp.key = 27 →
      ∃ s1, (parallelTick band W H maxDelay s inp).outcome = .next s1 ∧
        s1.stop = true ∧
        s1.newDelay = wrapNewDelay maxDelay s.newDelay + 1 ∧
        s1.vertical = (if inp.switchNow then !s.vertical else s.vertical) ∧
        s1 = endOfTick inp.switchNow
          { afterCompute band W H maxDelay s inp with
            finalFrame := flip W (afterCompute band W H maxDelay s inp).finalFrame,
            stop := true } ∧
        mainLoop band W H maxDelay rest s1 = ([], .returned s1) ∧
        (s.stop = false → mainLoop band W H maxDelay (inp :: rest) s
          = ((parallelTick band W H maxDelay s inp).trace, .returned s1))) := by
  refine ⟨fun b => ⟨?_, ?_⟩, ?_, ?_, ?_, ?_, ?_, ?_⟩
  · simp only [parallelTick, failWith, displayFrame, afterCompute]
    split_ifs <;> rfl
  · intro s1 h1
    have e1 := parallelTick_next band W H maxDelay s inp s1 h1
    have hret : ∀ c, inp.ret c = 0 := by
      intro c
      by_contra hc
      obtain ⟨c0, _, hexit, _⟩ :=
        (thread_failure_is_fatal_aux band W H maxDelay s inp []).1 ⟨c, hc⟩
      rw [hexit] at h1
      cases h1
    refine ⟨_, parallelTick_outcome_of_success band W H maxDelay { s with stop := b } inp hret,
      ?_⟩
    subst e1
    exact ((endOfTick_setStop inp.switchNow _ _).trans
      (congrArg (endOfTick inp.switchNow)
        (handleKey_forgets_stop maxDelay
          { afterCompute band W H maxDelay s inp with
            finalFrame := flip W (afterCompute band W H maxDelay s inp).finalFrame }
          inp.key b _))).trans (endOfTick_setStop inp.switchNow _ _).symm
  · intro h
    exact mainLoop_of_stop band W H maxDelay _ s h
  · intro key hk hs
    rw [handleKey_stop, hs]
    simp [hk]
  · intro key hk
    rw [handleKey_stop]
    simp [hk]
  · intro key hs
    rw [handleKey_stop, hs]
    rfl
  · intro hs s1 h1
    have e1 := parallelTick_next band W H maxDelay s inp s1 h1
    rw [e1, endOfTick_stop]
    show (handleKey maxDelay _ inp.key).stop = true
    rw [handleKey_stop]
    show (s.stop || _) = true
    rw [hs]
    rfl
  · intro hret hk h27
    have hout := parallelTick_outcome_of_success band W H maxDelay s inp hret
    have hkey : (displayFrame W maxDelay inp.key (afterCompute band W H maxDelay s inp)).2
        = { afterCompute band W H maxDelay s inp with
            finalFrame := flip W (afterCompute band W H maxDelay s inp).finalFrame,
            stop := true } := by
      simp [displayFrame, handleKey, hk, h27, switchKey]
    have hstop : (endOfTick inp.switchNow
        (displayFrame W maxDelay inp.key (afterCompute band W H maxDelay s inp)).2).stop
        = true := by
      rw [endOfTick_stop, hkey]
    refine ⟨_, hout, hstop, ?_, ?_, ?_, ?_, ?_⟩
    · exact (tickEnd_data W maxDelay inp.switchNow inp.key _).1
    · rw [endOfTick_vertical, hkey]
      rfl
    · rw [hkey]
    · exact mainLoop_of_stop band W H maxDelay rest _ hstop
    · intro hs
      rw [mainLoop_of_next band W H maxDelay inp rest s _ hs hout,
        mainLoop_of_stop band W H maxDelay rest _ hstop]
      simp

/-! ### Acquisition and the slots being read -/

theorem reduceLoop_eq_mod (maxDelay : Nat) (fuel x : Nat)
    (h : x < (fuel + 1) * (maxDelay + 2)) :
    reduceLoop maxDelay fuel x = x % (maxDelay + 2) := by
  induction fuel generalizing x with
  | zero =>
    simp only [reduceLoop]
    rw [Nat.mod_eq_of_lt (by omega)]
  | succ n ih =>
    simp only [reduceLoop]
    split_ifs with hx
    · rw [ih (x - (maxDelay + 2)) (by
        have : (n + 1 + 1) * (maxDelay + 2) = (n + 1) * (maxDelay + 2) + (maxDelay + 2) := by ring
        omega)]
      exact (Nat.mod_eq_sub_mod hx).symm
    · rw [Nat.mod_eq_of_lt (by omega)]

theorem displayDelayOf_eq_mod (maxDelay delay newDelay : Nat) :
    displayDelayOf maxDelay delay newDelay
      = (newDelay + 1 + (maxDelay - delay)) % (maxDelay + 2) := by
  unfold displayDelayOf
  apply reduceLoop_eq_mod
  have : (newDelay + 1 + (maxDelay - delay) + 1) * (maxDelay + 2)
      = (newDelay + 1 + (maxDelay - delay)) * (maxDelay + 2) + (maxDelay + 2) := by ring
  have h2 : newDelay + 1 + (maxDelay - delay)
      ≤ (newDelay + 1 + (maxDelay - delay)) * (maxDelay + 2) :=
    Nat.le_mul_of_pos_right _ (by omega)
  omega

theorem currentDelayOf_eq_mod (maxDelay displayDelay : Nat) (h : displayDelay < maxDelay + 2) :
    currentDelayOf maxDelay displayDelay = (displayDelay + 1) % (maxDelay + 2) := by
  unfold currentDelayOf
  split_ifs with hx
  · have : displayDelay + 1 = maxDelay + 2 := by omega
    rw [this, Nat.mod_self, Nat.sub_self]
  · rw [Nat.mod_eq_of_lt (by omega)]

/-- The base slot of a tick is `delay` slots behind the slot being written. -/
theorem currentDelay_formula (maxDelay delay newDelay : Nat) (hd : delay ≤ maxDelay) :
    currentDelayOf maxDelay (displayDelayOf maxDelay delay newDelay)
      = (newDelay + (maxDelay + 2 - delay)) % (maxDelay + 2) := by
  rw [currentDelayOf_eq_mod _ _ (by
    rw [displayDelayOf_eq_mod]
    exact Nat.mod_lt _ (by omega)), displayDelayOf_eq_mod, Nat.mod_add_mod]
  congr 1
  omega

theorem currentDelayOf_lt (maxDelay delay newDelay : Nat) (hd : delay ≤ maxDelay) :
    currentDelayOf maxDelay (displayDelayOf maxDelay delay newDelay) < maxDelay + 2 := by
  rw [currentDelay_formula _ _ _ hd]
  exact Nat.mod_lt _ (by omega)

theorem add_mod_ne_self (n j x : Nat) (hj : 0 < j) (hjn : j < n) (hx : x < n) :
    (x + j) % n ≠ x := by
  by_cases h : x + j < n
  · rw [Nat.mod_eq_of_lt h]
    omega
  · rw [Nat.mod_eq_sub_mod (by omega), Nat.mod_eq_of_lt (by omega)]
    omega

/-- A slot `k` steps after the base slot, `k < delay`, is not the slot being written. -/
theorem slot_after_base_ne (maxDelay delay newDelay k : Nat)
    (hd : delay ≤ maxDelay) (hn : newDelay < maxDelay + 2) (hk : k < delay) :
    (currentDelayOf maxDelay (displayDelayOf maxDelay delay newDelay) + k) % (maxDelay + 2)
      ≠ newDelay := by
  rw [currentDelay_formula _ _ _ hd, Nat.mod_add_mod]
  have : newDelay + (maxDelay + 2 - delay) + k = newDelay + (maxDelay + 2 - delay + k) := by
    omega
  rw [this]
  exact add_mod_ne_self _ _ _ (by omega) (by omega) hn

theorem wrapNewDelay_lt (maxDelay newDelay : Nat) : wrapNewDelay maxDelay newDelay < maxDelay + 2 := by
  unfold wrapNewDelay
  split_ifs <;> omega

/-- What the initialisation loop leaves. -/
theorem initLoop_spec (maxDelay : Nat) (cams : Nat → Frame) (fuel : Nat) (s : State)
    (hfuel : s.newDelay + fuel = maxDelay + 1)
    (hs : ∀ slot, slot < s.newDelay → s.acquired slot = true ∧ s.frameArray slot = cams slot) :
    (initLoop maxDelay cams fuel s).newDelay = maxDelay + 1 ∧
    (initLoop maxDelay cams fuel s).delay = s.delay ∧
    ∀ slot, slot < maxDelay + 1 →
      (initLoop maxDelay cams fuel s).acquired slot = true ∧
      (initLoop maxDelay cams fuel s).frameArray slot = cams slot := by
  induction fuel generalizing s with
  | zero =>
    have h0 : s.newDelay = maxDelay + 1 := by omega
    exact ⟨h0, rfl, fun slot h => hs slot (by omega)⟩
  | succ n ih =>
    simp only [initLoop]
    rw [if_pos (by omega)]
    refine ih _ (by show s.newDelay + 1 + n = maxDelay + 1; omega) ?_
    intro slot hslot
    show (if slot = s.newDelay then true else s.acquired slot) = true ∧
      (if slot = s.newDelay then cams s.newDelay else s.frameArray slot) = cams slot
    by_cases h : slot = s.newDelay
    · simp [h]
    · have hlt : slot < s.newDelay := by
        have : slot < s.newDelay + 1 := hslot
        omega
      simp [h, hs slot hlt]

/-- The non-symmetric compute functions. -/
theorem steps_slots_plain (v : Variant)
    (hv : v = .vertical ∨ v = .verticalReverse ∨ v = .horizontal ∨ v = .horizontalReverse) :
    v ≠ .horizontalReverseSymmetric := by
  rcases hv with h | h | h | h <;> rw [h] <;> decide

theorem plain_slots_ne (maxDelay : Nat) (band : Nat → Nat → Nat → Nat)
    (W H newDelay delay : Nat) (v : Variant)
    (hn : newDelay < maxDelay + 2) (h1 : 1 ≤ delay) (hd : delay ≤ maxDelay)
    (hv : v ≠ .horizontalReverseSymmetric) :
    currentDelayOf maxDelay (displayDelayOf maxDelay delay newDelay) ≠ newDelay ∧
    ∀ st ∈ v.steps band W H maxDelay delay
        (currentDelayOf maxDelay (displayDelayOf maxDelay delay newDelay)),
      st.workingDelay ≠ newDelay := by
  constructor
  · have h := slot_after_base_ne maxDelay delay newDelay 0 hd hn (by omega)
    rw [Nat.add_zero, Nat.mod_eq_of_lt (currentDelayOf_lt _ _ _ hd)] at h
    exact h
  · intro st hst
    obtain ⟨k, _, hk, e⟩ := steps_slots v hv band W H maxDelay delay _ hd
      (currentDelayOf_lt _ _ _ hd) st hst
    rw [e]
    exact slot_after_base_ne maxDelay delay newDelay k hd hn hk

theorem initState_spec (maxDelay : Nat) (cams : Nat → Frame) :
    (initState maxDelay cams).newDelay = maxDelay + 1 ∧
    (initState maxDelay cams).delay = 1 ∧
    ∀ slot, slot < maxDelay + 1 →
      (initState maxDelay cams).acquired slot = true ∧
      (initState maxDelay cams).frameArray slot = cams slot := by
  unfold initState
  exact initLoop_spec maxDelay cams (maxDelay + 1) _ (Nat.zero_add _)
    (fun slot h => absurd h (Nat.not_lt_zero _))

theorem ringReady_initState (maxDelay : Nat) (cams : Nat → Frame) :
    RingReady maxDelay (initState maxDelay cams) := by
  obtain ⟨h1, _, h3⟩ := initState_spec maxDelay cams
  intro slot hslot hne
  rw [h1] at hne
  have hw : wrapNewDelay maxDelay (maxDelay + 1) = maxDelay + 1 := by
    unfold wrapNewDelay
    rw [if_neg (by omega)]
  rw [hw] at hne
  exact (h3 slot (by omega)).1

theorem ringReady_next (band : Nat → Nat → Nat → Nat) (W H maxDelay : Nat) (s : State)
    (inp : TickInput) (s1 : State) (hr : RingReady maxDelay s)
    (h : (parallelTick band W H maxDelay s inp).outcome = .next s1) :
    RingReady maxDelay s1 ∧ ∀ slot, slot < maxDelay + 2 → s1.acquired slot = true := by
  have e1 := parallelTick_next band W H maxDelay s inp s1 h
  have hacq : s1.acquired = (afterCompute band W H maxDelay s inp).acquired := by
    rw [e1]
    exact (tickEnd_data W maxDelay inp.switchNow inp.key _).2.2.2.2.1
  have hall : ∀ slot, slot < maxDelay + 2 → s1.acquired slot = true := by
    intro slot hslot
    rw [hacq]
    show (if slot = wrapNewDelay maxDelay s.newDelay then true else s.acquired slot) = true
    by_cases hs : slot = wrapNewDelay maxDelay s.newDelay
    · rw [if_pos hs]
    · rw [if_neg hs]
      exact hr slot hslot hs
  exact ⟨fun slot hslot _ => hall slot hslot, hall⟩

/-- Acquisition and the non-symmetric modes on the natural-number ring arithmetic.  With
`N = maxDelay+2` and `newDelay < N` the slot `getFrame` writes: the base slot
`currentDelay` and every slot `workingDelay` selected by `computeVertical`,
`computeVerticalReverse`, `computeHorizontal` and `computeHorizontalReverse` differ from
`newDelay`.  The initialisation loop fills slots `0..maxDelay` and leaves
`newDelay = maxDelay+1`; from there on, at the start of every tick every slot but the one
about to be written has been acquired, so in a tick of a non-symmetric mode every slot read
holds a frame acquired during initialisation or an earlier tick, is not the slot written in
this tick, and what the compute thread reads does not depend on the frame being acquired
meanwhile. -/
theorem acquisition_never_overlaps_nat (maxDelay : Nat) (hmax : 1 ≤ maxDelay) :
    (∀ (band : Nat → Nat → Nat → Nat) (W H newDelay delay : Nat) (v : Variant),
      newDelay < maxDelay + 2 → 1 ≤ delay → delay ≤ maxDelay →
      (v = .vertical ∨ v = .verticalReverse ∨ v = .horizontal ∨ v = .horizontalReverse) →
      currentDelayOf maxDelay (displayDelayOf maxDelay delay newDelay) ≠ newDelay ∧
      ∀ st ∈ v.steps band W H maxDelay delay
          (currentDelayOf maxDelay (displayDelayOf maxDelay delay newDelay)),
        st.workingDelay ≠ newDelay) ∧
    (∀ cams : Nat → Frame,
      (initState maxDelay cams).newDelay = maxDelay + 1 ∧
      (∀ slot, slot ≤ maxDelay → (initState maxDelay cams).acquired slot = true ∧
        (initState maxDelay cams).frameArray slot = cams slot) ∧
      RingReady maxDelay (initState maxDelay cams)) ∧
    (∀ (band : Nat → Nat → Nat → Nat) (W H : Nat) (s : State) (inp : TickInput) (s1 : State),
      RingReady maxDelay s → (parallelTick band W H maxDelay s inp).outcome = .next s1 →
      RingReady maxDelay s1) ∧
    (∀ (band : Nat → Nat → Nat → Nat) (W H : Nat) (s : State) (racy : Frame),
      RingReady maxDelay s → 1 ≤ s.delay → s.delay ≤ maxDelay → s.symmetric = false →
      ∀ slot ∈ slotsRead band W H maxDelay s,
        slot < maxDelay + 2 ∧ slot ≠ (selectSlots maxDelay s).newDelay ∧
        s.acquired slot = true ∧
        ringSeen (selectSlots maxDelay s) racy slot = s.frameArray slot) := by
  refine ⟨?_, ?_, ?_, ?_⟩
  · intro band W H newDelay delay v hn h1 hd hv
    exact plain_slots_ne maxDelay band W H newDelay delay v hn h1 hd (steps_slots_plain v hv)
  · intro cams
    obtain ⟨h1, _, h3⟩ := initState_spec maxDelay cams
    exact ⟨h1, fun slot hslot => h3 slot (by omega), ringReady_initState maxDelay cams⟩
  · intro band W H s inp s1 hr h
    exact (ringReady_next band W H maxDelay s inp s1 hr h).1
  · intro band W H s racy hr h1 hd hsym slot hslot
    have hv : tickVariant maxDelay s ≠ .horizontalReverseSymmetric := by
      show selectVariant s.vertical s.reverse s.symmetric ≠ _
      rw [hsym]
      cases s.vertical <;> cases s.reverse <;> decide
    have hn := wrapNewDelay_lt maxDelay s.newDelay
    obtain ⟨hbase, hsteps⟩ := plain_slots_ne maxDelay band W H
      (wrapNewDelay maxDelay s.newDelay) s.delay (tickVariant maxDelay s) hn h1 hd hv
    have key : slot < maxDelay + 2 ∧ slot ≠ wrapNewDelay maxDelay s.newDelay := by
      simp only [slotsRead, List.mem_cons, List.mem_map] at hslot
      rcases hslot with h | ⟨st, hst, h⟩
      · rw [h]
        exact ⟨currentDelayOf_lt _ _ _ hd, hbase⟩
      · rw [← h]
        refine ⟨?_, hsteps st hst⟩
        obtain ⟨k, _, _, e⟩ := steps_slots (tickVariant maxDelay s) hv band W H maxDelay
          s.delay _ hd (currentDelayOf_lt maxDelay s.delay
            (wrapNewDelay maxDelay s.newDelay) hd) st hst
        rw [e]
        exact Nat.mod_lt _ (by omega)
    refine ⟨key.1, key.2, hr slot key.1 key.2, ?_⟩
    show (if slot = wrapNewDelay maxDelay s.newDelay then racy else s.frameArray slot) = _
    rw [if_neg key.2]

/-! ### The band map of `computeHorizontal` -/

theorem foldl_copyPixel_apply (work : Frame) (pixels : List Nat) (cur : Frame) (i : Nat) :
    pixels.foldl (fun f i => copyPixel f work i) cur i
      = if i ∈ pixels then work i else cur i := by
  induction pixels generalizing cur with
  | nil => simp
  | cons p rest ih =>
    rw [List.foldl_cons, ih]
    by_cases h1 : i ∈ rest
    · simp [h1]
    · by_cases h2 : i = p
      · subst h2
        simp [h1, copyPixel_same]
      · simp [h1, h2, copyPixel_other _ _ _ _ h2]

theorem runStep_of_mem (fa : Nat → Frame) (cur : Frame) (st : Step) (i : Nat)
    (h : i ∈ st.pixels) : runStep fa cur st i = fa st.workingDelay i := by
  unfold runStep
  rw [foldl_copyPixel_apply, if_pos h]

theorem runStep_of_not_mem (fa : Nat → Frame) (cur : Frame) (st : Step) (i : Nat)
    (h : i ∉ st.pixels) : runStep fa cur st i = cur i := by
  unfold runStep
  rw [foldl_copyPixel_apply, if_neg h]

theorem runSteps_cons (fa : Nat → Frame) (cur : Frame) (st : Step) (rest : List Step) :
    runSteps fa cur (st :: rest) = runSteps fa (runStep fa cur st) rest := rfl

theorem row_index_inj (W r c r1 c1 : Nat) (hc : c < W) (hc1 : c1 < W)
    (h : r * W + c = r1 * W + c1) : r = r1 := by
  have hW : 0 < W := by omega
  have e : (r * W + c) / W = r := by
    rw [Nat.add_comm, Nat.add_mul_div_right _ _ hW, Nat.div_eq_of_lt hc, Nat.zero_add]
  have e1 : (r1 * W + c1) / W = r1 := by
    rw [Nat.add_comm, Nat.add_mul_div_right _ _ hW, Nat.div_eq_of_lt hc1, Nat.zero_add]
  rw [← e, ← e1, h]

theorem mem_rowsUp (W first last i : Nat) :
    i ∈ rowsUp W first last ↔ ∃ r c, first ≤ r ∧ r < last ∧ c < W ∧ i = r * W + c := by
  simp only [rowsUp, rangeUp, rowPixels, List.mem_flatMap, List.mem_range'_1, List.mem_map,
    List.mem_range]
  constructor
  · rintro ⟨r, ⟨h1, h2⟩, c, hc, rfl⟩
    exact ⟨r, c, h1, by omega, hc, rfl⟩
  · rintro ⟨r, c, h1, h2, hc, rfl⟩
    exact ⟨r, ⟨h1, by omega⟩, c, hc, rfl⟩

theorem mem_rowsUp_row (W first last r c : Nat) (hc : c < W) :
    r * W + c ∈ rowsUp W first last ↔ first ≤ r ∧ r < last := by
  rw [mem_rowsUp]
  constructor
  · rintro ⟨r1, c1, h1, h2, hc1, e⟩
    have := row_index_inj W r c r1 c1 hc hc1 e
    subst this
    exact ⟨h1, h2⟩
  · rintro ⟨h1, h2⟩
    exact ⟨r, c, h1, h2, hc, rfl⟩

/-- The frame after an upward row loop: rows below the first bound are untouched, and
band `j` holds the rows of the slot of iteration `j`. -/
theorem bandLoop_rowsUp (maxDelay W : Nat) (lastOf : Nat → Nat)
    (hmono : ∀ d, lastOf d ≤ lastOf (d + 1)) (fa : Nat → Frame)
    (n d w : Nat) (cur : Frame) (hd : 1 ≤ d) (hw : w < maxDelay + 2) :
    (∀ r c, c < W → r < lastOf (d - 1) →
      runSteps fa cur (bandLoop maxDelay lastOf (rowsUp W) n d w (lastOf (d - 1))) (r * W + c)
        = cur (r * W + c)) ∧
    (∀ j r c, d ≤ j → j < d + n → c < W → lastOf (j - 1) ≤ r → r < lastOf j →
      runSteps fa cur (bandLoop maxDelay lastOf (rowsUp W) n d w (lastOf (d - 1))) (r * W + c)
        = fa ((w + (j - d) + 1) % (maxDelay + 2)) (r * W + c)) := by
  induction n generalizing d w cur with
  | zero =>
    refine ⟨fun r c _ _ => rfl, fun j r c h1 h2 => ?_⟩
    omega
  | succ n ih =>
    have hd1 : d + 1 - 1 = d := by omega
    obtain ⟨ih1, ih2⟩ := ih (d + 1) (nextSlot maxDelay w)
      (runStep fa cur ⟨nextSlot maxDelay w, rowsUp W (lastOf (d - 1)) (lastOf d)⟩)
      (by omega) (nextSlot_lt maxDelay w)
    rw [hd1] at ih1 ih2
    have hle : lastOf (d - 1) ≤ lastOf d := by
      have := hmono (d - 1)
      rwa [Nat.sub_add_cancel hd] at this
    simp only [bandLoop, runSteps_cons]
    constructor
    · intro r c hc hr
      rw [ih1 r c hc (by omega)]
      apply runStep_of_not_mem
      show r * W + c ∉ rowsUp W (lastOf (d - 1)) (lastOf d)
      rw [mem_rowsUp_row _ _ _ _ _ hc]
      omega
    · intro j r c hj1 hj2 hc hr1 hr2
      by_cases hjd : j = d
      · subst hjd
        rw [ih1 r c hc hr2, runStep_of_mem]
        · show fa (nextSlot maxDelay w) (r * W + c) = _
          rw [nextSlot_eq_mod _ _ hw, Nat.sub_self, Nat.add_zero]
        · show r * W + c ∈ rowsUp W (lastOf (j - 1)) (lastOf j)
          rw [mem_rowsUp_row _ _ _ _ _ hc]
          exact ⟨hr1, hr2⟩
      · have e : ((w + 1) % (maxDelay + 2) + (j - (d + 1)) + 1) % (maxDelay + 2)
            = (w + (j - d) + 1) % (maxDelay + 2) := by
          rw [Nat.add_assoc ((w + 1) % (maxDelay + 2)), Nat.mod_add_mod]
          congr 1
          omega
        rw [ih2 j r c (by omega) (by omega) hc hr1 hr2, nextSlot_eq_mod _ _ hw, e]

theorem exactBand_mono (dim delay : Nat) (d : Nat) :
    exactBand dim delay (d + 1) ≤ exactBand dim delay (d + 1 + 1) := by
  unfold exactBand
  exact Nat.div_le_div_right (Nat.mul_le_mul_right _ (by omega))

theorem exactBand_le_of_le (dim delay a b : Nat) (h : a ≤ b) :
    exactBand dim delay a ≤ exactBand dim delay b := by
  unfold exactBand
  exact Nat.div_le_div_right (Nat.mul_le_mul_right _ h)

theorem exactBand_full (dim delay : Nat) (h : 1 ≤ delay) : exactBand dim delay delay = dim := by
  unfold exactBand
  exact Nat.mul_div_cancel_left _ (by omega)

/-- Two bands that share a row are the same band. -/
theorem exactBand_disjoint (dim delay d d1 r : Nat)
    (h1 : exactBand dim delay d ≤ r) (h2 : r < exactBand dim delay (d + 1))
    (h3 : exactBand dim delay d1 ≤ r) (h4 : r < exactBand dim delay (d1 + 1)) : d = d1 := by
  by_contra hne
  rcases Nat.lt_or_gt_of_ne hne with h | h
  · have := exactBand_le_of_le dim delay (d + 1) d1 (by omega)
    omega
  · have := exactBand_le_of_le dim delay (d1 + 1) d (by omega)
    omega

/-- Every row between band bound 1 and band bound `n` lies in one of the bands
`1 .. n-1`. -/
theorem exactBand_cover (dim delay r : Nat) (n : Nat)
    (h1 : exactBand dim delay 1 ≤ r) (h2 : r < exactBand dim delay n) :
    ∃ d, 1 ≤ d ∧ d < n ∧ exactBand dim delay d ≤ r ∧ r < exactBand dim delay (d + 1) := by
  induction n with
  | zero =>
    have : exactBand dim delay 0 = 0 := by simp [exactBand]
    omega
  | succ n ih =>
    by_cases h : r < exactBand dim delay n
    · obtain ⟨d, a, b, c, e⟩ := ih h
      exact ⟨d, a, by omega, c, e⟩
    · have hn : 1 ≤ n := by
        by_contra h0
        have : n = 0 := by omega
        subst this
        simp only [Nat.zero_add] at h2
        omega
      exact ⟨n, hn, by omega, by omega, h2⟩

theorem rowPixels_eq_range' (start n : Nat) : rowPixels start n = List.range' start n := by
  unfold rowPixels
  exact (List.range'_eq_map_range start n).symm

theorem flatMap_rows_range' (W a k : Nat) :
    (List.range' a k).flatMap (fun r => rowPixels (r * W) W) = List.range' (a * W) (k * W) := by
  induction k generalizing a with
  | zero => simp
  | succ k ih =>
    rw [List.range'_succ, List.flatMap_cons, ih, rowPixels_eq_range']
    have h := List.range'_append (a * W) W (k * W) 1
    rw [Nat.one_mul] at h
    have e1 : (a + 1) * W = a * W + W := by ring
    have e2 : (k + 1) * W = k * W + W := by ring
    rw [e1, e2]
    exact h

theorem rowsUp_eq_range' (W first last : Nat) :
    rowsUp W first last = List.range' (first * W) ((last - first) * W) := by
  unfold rowsUp rangeUp
  exact flatMap_rows_range' W first (last - first)

theorem rowsUp_append (W a b c : Nat) (hab : a ≤ b) (hbc : b ≤ c) :
    rowsUp W a b ++ rowsUp W b c = rowsUp W a c := by
  rw [rowsUp_eq_range', rowsUp_eq_range', rowsUp_eq_range']
  have h := List.range'_append (a * W) ((b - a) * W) ((c - b) * W) 1
  rw [Nat.one_mul] at h
  have e1 : a * W + (b - a) * W = b * W := by
    rw [← Nat.add_mul]
    congr 1
    omega
  have e2 : (c - b) * W + (b - a) * W = (c - a) * W := by
    rw [← Nat.add_mul]
    congr 1
    omega
  rw [e1, e2] at h
  exact h

/-- All the indices an upward row loop writes: the rows from its first bound to its
last bound, each index once. -/
theorem writes_bandLoop_rowsUp (maxDelay W : Nat) (lastOf : Nat → Nat)
    (hmono : ∀ d, lastOf d ≤ lastOf (d + 1)) (n d w : Nat) (hd : 1 ≤ d) :
    writes (bandLoop maxDelay lastOf (rowsUp W) n d w (lastOf (d - 1)))
      = rowsUp W (lastOf (d - 1)) (lastOf (d + n - 1)) := by
  induction n generalizing d w with
  | zero =>
    simp only [bandLoop, writes, List.flatMap_nil, Nat.add_zero]
    rw [rowsUp_eq_range', Nat.sub_self, Nat.zero_mul]
    rfl
  | succ n ih =>
    have hd1 : d + 1 - 1 = d := by omega
    have ih1 := ih (d + 1) (nextSlot maxDelay w) (by omega)
    rw [hd1] at ih1
    have hle : lastOf (d - 1) ≤ lastOf d := by
      have := hmono (d - 1)
      rwa [Nat.sub_add_cancel hd] at this
    have hle2 : ∀ m, lastOf d ≤ lastOf (d + m) := by
      intro m
      induction m with
      | zero => exact le_refl _
      | succ m ihm => exact le_trans ihm (hmono (d + m))
    have e : d + (n + 1) - 1 = d + n := by omega
    have e2 : d + 1 + n - 1 = d + n := by omega
    rw [e2] at ih1
    simp only [bandLoop]
    show rowsUp W (lastOf (d - 1)) (lastOf d)
      ++ writes (bandLoop maxDelay lastOf (rowsUp W) n (d + 1) (nextSlot maxDelay w) (lastOf d)) = _
    rw [ih1, e]
    exact rowsUp_append W _ _ _ hle (hle2 n)

theorem count_rowsUp (W first last r c : Nat) (hc : c < W) (h1 : first ≤ r) (h2 : r < last) :
    (rowsUp W first last).count (r * W + c) = 1 := by
  apply List.count_eq_one_of_mem
  · rw [rowsUp_eq_range']
    exact List.nodup_range' _ _
  · rw [mem_rowsUp_row _ _ _ _ _ hc]
    exact ⟨h1, h2⟩

theorem computeHorizontalSteps_exact (W H maxDelay delay currentDelay : Nat) :
    computeHorizontalSteps exactBand W H maxDelay delay currentDelay
      = bandLoop maxDelay (fun d => exactBand H delay (d + 1)) (rowsUp W) (delay - 1) 1
          currentDelay ((fun d => exactBand H delay (d + 1)) (1 - 1)) := rfl

/-- The band map of `computeHorizontal` for the exact bounds `exactBand`: after the run
every row `r < H/delay` of `finalFrame` is unchanged; every row `r` with
`d*H/delay ≤ r < (d+1)*H/delay`, `1 ≤ d < delay`, equals pixel for pixel the same row of
`frameArray[(currentDelay + d) mod N]`; the bands are pairwise disjoint, they cover exactly
the rows `H/delay .. H-1`, and every pixel of those rows is written exactly once. -/
theorem computeHorizontal_band_map_exact (maxDelay delay currentDelay : Nat)
    (h1 : 1 ≤ delay) (h2 : delay ≤ maxDelay) (hc : currentDelay < maxDelay + 2)
    (frameArray : Nat → Frame) (finalFrame : Frame) :
    (∀ r c, r < frameHeight / delay → c < frameWidth →
      compute .horizontal exactBand frameWidth frameHeight maxDelay delay currentDelay
          frameArray finalFrame (r * frameWidth + c)
        = finalFrame (r * frameWidth + c)) ∧
    (∀ d r c, 1 ≤ d → d < delay →
      d * frameHeight / delay ≤ r → r < (d + 1) * frameHeight / delay → c < frameWidth →
      compute .horizontal exactBand frameWidth frameHeight maxDelay delay currentDelay
          frameArray finalFrame (r * frameWidth + c)
        = frameArray ((currentDelay + d) % (maxDelay + 2)) (r * frameWidth + c)) ∧
    (∀ d d1 r,
      d * frameHeight / delay ≤ r → r < (d + 1) * frameHeight / delay →
      d1 * frameHeight / delay ≤ r → r < (d1 + 1) * frameHeight / delay → d = d1) ∧
    (∀ r, (frameHeight / delay ≤ r ∧ r < frameHeight) ↔
      ∃ d, 1 ≤ d ∧ d < delay ∧
        d * frameHeight / delay ≤ r ∧ r < (d + 1) * frameHeight / delay) ∧
    (∀ r c, frameHeight / delay ≤ r → r < frameHeight → c < frameWidth →
      (writes (computeHorizontalSteps exactBand frameWidth frameHeight maxDelay delay
        currentDelay)).count (r * frameWidth + c) = 1) := by
  have hmono : ∀ d, (fun d => exactBand frameHeight delay (d + 1)) d
      ≤ (fun d => exactBand frameHeight delay (d + 1)) (d + 1) :=
    fun d => exactBand_mono frameHeight delay d
  have hb1 : exactBand frameHeight delay 1 = frameHeight / delay := by
    unfold exactBand
    rw [Nat.one_mul]
  obtain ⟨v1, v2⟩ := bandLoop_rowsUp maxDelay frameWidth
    (fun d => exactBand frameHeight delay (d + 1)) hmono frameArray (delay - 1) 1 currentDelay
    finalFrame (le_refl 1) hc
  refine ⟨?_, ?_, ?_, ?_, ?_⟩
  · intro r c hr hcw
    exact v1 r c hcw (by
      show r < exactBand frameHeight delay (1 - 1 + 1)
      rw [hb1]
      exact hr)
  · intro d r c hd1 hd2 hr1 hr2 hcw
    have e : (currentDelay + (d - 1) + 1) % (maxDelay + 2)
        = (currentDelay + d) % (maxDelay + 2) := by
      congr 1
      omega
    rw [← e]
    refine v2 d r c hd1 (by omega) hcw ?_ hr2
    show exactBand frameHeight delay (d - 1 + 1) ≤ r
    rw [Nat.sub_add_cancel hd1]
    exact hr1
  · intro d d1 r a b c e
    exact exactBand_disjoint frameHeight delay d d1 r a b c e
  · intro r
    constructor
    · rintro ⟨a, b⟩
      rw [← hb1] at a
      rw [← exactBand_full frameHeight delay h1] at b
      exact exactBand_cover frameHeight delay r delay a b
    · rintro ⟨d, a, b, c, e⟩
      constructor
      · rw [← hb1]
        exact le_trans (exactBand_le_of_le frameHeight delay 1 d a) c
      · have := exactBand_le_of_le frameHeight delay (d + 1) delay (by omega)
        rw [exactBand_full frameHeight delay h1] at this
        exact lt_of_lt_of_le e this
  · intro r c hr1 hr2 hcw
    rw [computeHorizontalSteps_exact,
      writes_bandLoop_rowsUp maxDelay frameWidth _ hmono (delay - 1) 1 currentDelay (le_refl 1)]
    apply count_rowsUp _ _ _ _ _ hcw
    · show exactBand frameHeight delay (1 - 1 + 1) ≤ r
      rw [hb1]
      exact hr1
    · show r < exactBand frameHeight delay (1 + (delay - 1) - 1 + 1)
      have e : 1 + (delay - 1) - 1 + 1 = delay := by omega
      rw [e, exactBand_full frameHeight delay h1]
      exact hr2

/-! ### Acquisition and the symmetric modes -/

/-- The three symmetric compute functions whose loop runs while `d < delay/2` never
take their pixel pointer from the slot being written. -/
theorem symmetric_slots_ne (maxDelay : Nat) (band : Nat → Nat → Nat → Nat)
    (W H newDelay delay : Nat) (v : Variant)
    (hn : newDelay < maxDelay + 2) (h1 : 1 ≤ delay) (hd : delay ≤ maxDelay)
    (hv : v = .verticalSymmetric ∨ v = .horizontalSymmetric ∨ v = .verticalReverseSymmetric) :
    ∀ st ∈ v.steps band W H maxDelay delay
        (currentDelayOf maxDelay (displayDelayOf maxDelay delay newDelay)),
      st.workingDelay ≠ newDelay := by
  refine (plain_slots_ne maxDelay band W H newDelay delay v hn h1 hd ?_).2
  rcases hv with h | h | h <;> rw [h] <;> decide

/-- C10, the failing input: `maxDelay = 60` (the default), `delay = 2`, `getFrame` writing
slot `newDelay = 0`, mode horizontal + reverse + symmetric.  `main` computes
`currentDelay = 60`; `computeHorizontalReverseSymmetric` starts from slot `60 + 2/2 = 61`
and its loop, which runs while `d < delay` (not `d < delay/2` as in the other symmetric
functions), takes the pixel pointer of slot `0` at `d = 1`: the slot being written. -/
theorem horizontalReverseSymmetric_selects_written_slot :
    currentDelayOf 60 (displayDelayOf 60 2 0) = 60 ∧
    (computeHorizontalReverseSymmetricSteps exactBand frameWidth frameHeight 60 2 60).map
      (fun st => st.workingDelay) = [0] ∧
    selectVariant false true true = .horizontalReverseSymmetric ∧
    (selectSlots 60 { startState with reverse := true, symmetric := true, delay := 2 }).newDelay
      ∈ slotsRead exactBand frameWidth frameHeight 60
          { startState with reverse := true, symmetric := true, delay := 2 } := by
  refine ⟨by decide, by decide, by decide, ?_⟩
  simp only [slotsRead, List.mem_cons, List.mem_map]
  right
  refine ⟨⟨0, _⟩, List.mem_cons_self _ _, ?_⟩
  decide

/-! ### Object extraction and the particle field -/

theorem accumulate_foldl_pixelNb (rest : List Pixel) (o : Object) :
    (rest.foldl (fun o q =>
      ({ pixelNb := o.pixelNb + 1,
         xMin := min o.xMin q.x, xMax := max o.xMax q.x,
         yMin := min o.yMin q.y, yMax := max o.yMax q.y,
         zMin := min o.zMin q.z, zMax := max o.zMax q.z } : Object)) o).pixelNb
      = o.pixelNb + rest.length := by
  induction rest generalizing o with
  | nil => simp
  | cons q rest ih =>
    rw [List.foldl_cons, ih]
    simp only [List.length_cons, Nat.cast_add, Nat.cast_one]
    ring

/-- The pixel count of an accumulated cluster is its number of pixels. -/
theorem accumulate_pixelNb (cluster : List Pixel) :
    (accumulate cluster).pixelNb = cluster.length := by
  cases cluster with
  | nil => rfl
  | cons p rest =>
    simp only [accumulate, accumulate_foldl_pixelNb, List.length_cons, Nat.cast_add,
      Nat.cast_one]
    ring

/-- C6: minimum object size.  Every `Object` in the list produced by
`Kinect::extractObjects` has `pixelNb ≥ objectMinSize`, for the default 5000 as for any
other setting; a cluster of `objectMinSize - 1` pixels is absent from the result and a
cluster of `objectMinSize` pixels is retained. -/
theorem extractObjects_min_size (minSize : Int) (clusters : List (List Pixel)) :
    (∀ o ∈ extractObjects minSize clusters, minSize ≤ o.pixelNb) ∧
    (∀ o ∈ extractObjects objectMinSize clusters, 5000 ≤ o.pixelNb) ∧
    (∀ o : Object, o.pixelNb = minSize - 1 → o ∉ extractObjects minSize clusters) ∧
    (∀ cluster ∈ clusters, (cluster.length : Int) = minSize - 1 →
      ∀ o ∈ extractObjects minSize clusters, o.pixelNb ≠ cluster.length) ∧
    (∀ cluster ∈ clusters, (cluster.length : Int) = minSize →
      accumulate cluster ∈ extractObjects minSize clusters ∧
      (accumulate cluster).pixelNb = minSize) := by
  have hmem : ∀ (m : Int) (o : Object), o ∈ extractObjects m clusters ↔
      o ∈ clusters.map accumulate ∧ m ≤ o.pixelNb := by
    intro m o
    simp [extractObjects, List.mem_filter]
  refine ⟨fun o ho => ((hmem _ o).1 ho).2, fun o ho => ((hmem _ o).1 ho).2, ?_, ?_, ?_⟩
  · intro o ho hin
    have := ((hmem _ o).1 hin).2
    omega
  · intro cluster _ hlen o ho
    have := ((hmem _ o).1 ho).2
    omega
  · intro cluster hc hlen
    have hp := accumulate_pixelNb cluster
    refine ⟨(hmem _ _).2 ⟨List.mem_map_of_mem _ hc, by omega⟩, by omega⟩

/-- C7: zero objects, zero force.  With an empty live object list the force applied to
every particle by the particle update is the zero vector, for each of the four
gravitation models and whatever the force law of a single object. -/
theorem zero_objects_zero_force (pull : GravitationModel → Vec2 → Object → Vec2)
    (model : GravitationModel) (particles : List Vec2) :
    (∀ particle : Vec2, gravitationField pull model particle [] = (0, 0)) ∧
    (∀ pf ∈ updateParticles pull model particles [], pf.2 = (0, 0)) ∧
    (updateParticles pull model particles []).map (fun pf => pf.1) = particles := by
  refine ⟨fun _ => rfl, ?_, ?_⟩
  · intro pf hpf
    simp only [updateParticles, List.mem_map] at hpf
    obtain ⟨p, _, rfl⟩ := hpf
    rfl
  · induction particles with
    | nil => rfl
    | cons p rest ih =>
      simp only [updateParticles, List.map_cons, List.cons.injEq, true_and] at ih ⊢
      exact ih

/-! ### Saturating delay steps -/

theorem switchKey_plus (maxDelay : Nat) (s : State) :
    switchKey maxDelay s 171
      = { s with delay := if uadd32 s.delay 1 > maxDelay then maxDelay else uadd32 s.delay 1 } := by
  rcases switchKey_cases maxDelay s 171 with ⟨h, _⟩ | ⟨h, _⟩ | ⟨h, _⟩ | ⟨h, _⟩ | ⟨_, e⟩ |
    ⟨h, _⟩ | ⟨h, _⟩ | ⟨h, _⟩
  · omega
  · omega
  · omega
  · omega
  · exact e
  · omega
  · omega
  · omega

theorem switchKey_minus (maxDelay : Nat) (s : State) :
    switchKey maxDelay s 173
      = { s with delay := if usub32 s.delay 1 ≤ 1 then 1 else usub32 s.delay 1 } := by
  rcases switchKey_cases maxDelay s 173 with ⟨h, _⟩ | ⟨h, _⟩ | ⟨h, _⟩ | ⟨h, _⟩ | ⟨h, _⟩ |
    ⟨_, e⟩ | ⟨h, _⟩ | ⟨h, _⟩
  · omega
  · omega
  · omega
  · omega
  · omega
  · exact e
  · omega
  · omega

theorem switchKey_enter (maxDelay : Nat) (s : State) :
    switchKey maxDelay s 141
      = { s with delay := if s.delay < maxDelay then maxDelay else 1 } := by
  rcases switchKey_cases maxDelay s 141 with ⟨h, _⟩ | ⟨h, _⟩ | ⟨h, _⟩ | ⟨h, _⟩ | ⟨h, _⟩ |
    ⟨h, _⟩ | ⟨_, e⟩ | ⟨h, _⟩
  · omega
  · omega
  · omega
  · omega
  · omega
  · omega
  · exact e
  · omega

theorem handleKey_plus (maxDelay : Nat) (s : State) :
    handleKey maxDelay s 171
      = { s with delay := if uadd32 s.delay 1 > maxDelay then maxDelay else uadd32 s.delay 1 } :=
  (if_pos (by decide)).trans (switchKey_plus maxDelay s)

theorem handleKey_minus (maxDelay : Nat) (s : State) :
    handleKey maxDelay s 173
      = { s with delay := if usub32 s.delay 1 ≤ 1 then 1 else usub32 s.delay 1 } :=
  (if_pos (by decide)).trans (switchKey_minus maxDelay s)

theorem handleKey_enter (maxDelay : Nat) (s : State) :
    handleKey maxDelay s 141
      = { s with delay := if s.delay < maxDelay then maxDelay else 1 } :=
  (if_pos (by decide)).trans (switchKey_enter maxDelay s)

/-- C11 (amended): saturating delay steps.  For every `maxDelay` with
`1 ≤ maxDelay < 2^32 - 1` and every `1 ≤ delay ≤ maxDelay` (32-bit unsigned arithmetic)
the key handler maps `delay` to `min (delay+1) maxDelay` on `+` (171), to
`max (delay-1) 1` on `-` (173), and on Enter (141) to `maxDelay` when `delay < maxDelay`
and to `1` when `delay = maxDelay`; none of the three keys changes `stop`, `vertical`,
`reverse` or `symmetric`. -/
theorem saturating_delay_steps (maxDelay : Nat) (s : State) (hmax : 1 ≤ maxDelay)
    (h32 : maxDelay < 2 ^ 32 - 1) (h1 : 1 ≤ s.delay) (h2 : s.delay ≤ maxDelay) :
    (handleKey maxDelay s 171).delay = min (s.delay + 1) maxDelay ∧
    (handleKey maxDelay s 173).delay = max (s.delay - 1) 1 ∧
    (s.delay < maxDelay → (handleKey maxDelay s 141).delay = maxDelay) ∧
    (s.delay = maxDelay → (handleKey maxDelay s 141).delay = 1) ∧
    (∀ key : Int, key = 171 ∨ key = 173 ∨ key = 141 →
      (handleKey maxDelay s key).stop = s.stop ∧
      (handleKey maxDelay s key).vertical = s.vertical ∧
      (handleKey maxDelay s key).reverse = s.reverse ∧
      (handleKey maxDelay s key).symmetric = s.symmetric) := by
  have ha : uadd32 s.delay 1 = s.delay + 1 := uadd32_one _ (by omega)
  have hs : usub32 s.delay 1 = s.delay - 1 := usub32_one _ h1 (by omega)
  refine ⟨?_, ?_, ?_, ?_, ?_⟩
  · rw [handleKey_plus]
    dsimp only
    rw [ha]
    split_ifs <;> omega
  · rw [handleKey_minus]
    dsimp only
    rw [hs]
    split_ifs <;> omega
  · intro h
    rw [handleKey_enter]
    dsimp only
    rw [if_pos h]
  · intro h
    rw [handleKey_enter]
    dsimp only
    rw [if_neg (by omega)]
  · rintro key (h | h | h) <;> subst h
    · rw [handleKey_plus]
      exact ⟨rfl, rfl, rfl, rfl⟩
    · rw [handleKey_minus]
      exact ⟨rfl, rfl, rfl, rfl⟩
    · rw [handleKey_enter]
      exact ⟨rfl, rfl, rfl, rfl⟩

/-- Witness for `saturating_delay_steps`: the default `maxDelay = 60` at the initial
`delay = 1`. -/
theorem saturating_delay_steps_witness :
    (handleKey 60 startState 171).delay = min (startState.delay + 1) 60 ∧
    (handleKey 60 startState 173).delay = max (startState.delay - 1) 1 :=
  ⟨(saturating_delay_steps 60 startState (by decide) (by norm_num) (by decide) (by decide)).1,
   (saturating_delay_steps 60 startState (by decide) (by norm_num) (by decide) (by decide)).2.1⟩

/-- C11 fails as stated at `maxDelay = 4294967295` and `delay = maxDelay`: `+` leaves
`delay = 0`, while `min (delay+1) maxDelay` is `maxDelay`. -/
theorem saturating_plus_counterexample :
    (1 : Nat) ≤ 4294967295 ∧
    ({ startState with delay := 4294967295 } : State).delay = 4294967295 ∧
    (handleKey 4294967295 { startState with delay := 4294967295 } 171).delay = 0 ∧
    min (({ startState with delay := 4294967295 } : State).delay + 1) 4294967295
      = 4294967295 := by
  refine ⟨by decide, rfl, by decide, by decide⟩

/-! ### The default bounds -/

/-- C12 (amended): with the default member initialisers of `class Kinect` read as exact
rationals, `xMin < xMax`, `zMin < zMax` and `rMin < rMoy < rMax`; the y bound is the
single point `yMin = yMax = 0`. -/
theorem default_bounds :
    Kinect.xMin < Kinect.xMax ∧ Kinect.zMin < Kinect.zMax ∧
    Kinect.rMin < Kinect.rMoy ∧ Kinect.rMoy < Kinect.rMax ∧
    Kinect.yMin = 0 ∧ Kinect.yMax = 0 := by
  refine ⟨?_, ?_, ?_, ?_, rfl, rfl⟩ <;>
    simp only [Kinect.xMin, Kinect.xMax, Kinect.zMin, Kinect.zMax, Kinect.rMin, Kinect.rMoy,
      Kinect.rMax] <;> norm_num

/-- C12 fails as stated: the defaults are `yMin = 0` and `yMax = 0`, so `yMin < yMax`
does not hold. -/
theorem default_y_bound_counterexample :
    Kinect.yMin = 0 ∧ Kinect.yMax = 0 ∧ Kinect.yMax ≤ Kinect.yMin ∧
    (Kinect.yMin < Kinect.yMax ↔ False) := by
  refine ⟨rfl, rfl, le_refl _, ?_⟩
  simp only [Kinect.yMin, Kinect.yMax, lt_self_iff_false]

/-! ### Automatic mode switching -/

theorem switchStep_flags (s : State) :
    ((switchStep s).vertical, (switchStep s).reverse) = switchFlags (s.vertical, s.reverse) ∧
    (switchStep s).symmetric = s.symmetric ∧ (switchStep s).delay = s.delay := by
  refine ⟨?_, rfl, rfl⟩
  simp only [switchStep, switchFlags, useSymmetric]
  cases s.vertical <;> cases s.reverse <;> rfl

theorem iterate_switchStep_flags (n : Nat) (s : State) :
    ((switchStep^[n] s).vertical, (switchStep^[n] s).reverse)
      = switchFlags^[n] (s.vertical, s.reverse) ∧
    (switchStep^[n] s).symmetric = s.symmetric ∧ (switchStep^[n] s).delay = s.delay := by
  induction n with
  | zero => exact ⟨rfl, rfl, rfl⟩
  | succ n ih =>
    rw [Function.iterate_succ_apply', Function.iterate_succ_apply']
    obtain ⟨a, b, c⟩ := switchStep_flags (switchStep^[n] s)
    exact ⟨a.trans (congrArg switchFlags ih.1), b.trans ih.2.1, c.trans ih.2.2⟩

/-- C19: automatic mode switching has period four.  With `useSymmetric = false`, one
switching step of `main` negates `vertical`, negates `reverse` exactly when the new value
of `vertical` is true, and leaves `symmetric` and `delay` unchanged.  From every starting
state, four consecutive switching steps restore `(vertical, reverse)`, no smaller
positive number of steps does, and the states after 0, 1, 2 and 3 steps show four
distinct combinations of `(vertical, reverse)`. -/
theorem switching_period_four (s : State) :
    useSymmetric = false ∧
    (switchStep s).vertical = (!s.vertical) ∧
    (switchStep s).reverse = (if (switchStep s).vertical then !s.reverse else s.reverse) ∧
    (switchStep s).symmetric = s.symmetric ∧ (switchStep s).delay = s.delay ∧
    ((switchStep^[4] s).vertical = s.vertical ∧ (switchStep^[4] s).reverse = s.reverse) ∧
    (∀ n, 1 ≤ n → n < 4 →
      ((switchStep^[n] s).vertical, (switchStep^[n] s).reverse) ≠ (s.vertical, s.reverse)) ∧
    (∀ i j, i < 4 → j < 4 → i ≠ j →
      ((switchStep^[i] s).vertical, (switchStep^[i] s).reverse)
        ≠ ((switchStep^[j] s).vertical, (switchStep^[j] s).reverse)) ∧
    (∀ n, (switchStep^[n] s).symmetric = s.symmetric ∧ (switchStep^[n] s).delay = s.delay) := by
  have key : ∀ p : Bool × Bool,
      switchFlags^[4] p = p ∧
      (∀ n, n < 4 → 1 ≤ n → switchFlags^[n] p ≠ p) ∧
      (∀ i, i < 4 → ∀ j, j < 4 → i ≠ j → switchFlags^[i] p ≠ switchFlags^[j] p) := by
    decide
  obtain ⟨k4, klt, kdist⟩ := key (s.vertical, s.reverse)
  have h1 := (switchStep_flags s).1
  refine ⟨rfl, ?_, ?_, rfl, rfl, ?_, ?_, ?_, ?_⟩
  · exact congrArg Prod.fst h1
  · have h2 := congrArg Prod.snd h1
    have h3 := congrArg Prod.fst h1
    simp only [switchFlags] at h2 h3
    rw [h2, h3]
  · have h := (iterate_switchStep_flags 4 s).1
    rw [k4] at h
    exact ⟨congrArg Prod.fst h, congrArg Prod.snd h⟩
  · intro n hn1 hn4
    rw [(iterate_switchStep_flags n s).1]
    exact klt n hn4 hn1
  · intro i j hi hj hij
    rw [(iterate_switchStep_flags i s).1, (iterate_switchStep_flags j s).1]
    exact kdist i hi j hj hij
  · intro n
    exact (iterate_switchStep_flags n s).2

/-! ### Delay 1 -/

theorem toU32_natCast (n : Nat) (h : n < 4294967296) : toU32 (n : Int) = n := by
  unfold toU32
  omega

theorem toI32_of_lt (u : Nat) (h : u < 2147483648) : toI32 u = u := by
  unfold toI32
  rw [Nat.mod_eq_of_lt (by omega), if_pos h]

theorem toU32_toI32 (u : Nat) : toU32 (toI32 u) = u % 4294967296 := by
  unfold toU32 toI32
  split_ifs <;> omega

theorem uadd32_of_lt (a b : Nat) (h : a + b < 4294967296) : uadd32 a b = a + b := by
  unfold uadd32 uintSize
  omega

theorem usub32_of_le (a b : Nat) (hb : b ≤ a) (ha : a < 4294967296) : usub32 a b = a - b := by
  unfold usub32 uintSize
  omega

theorem reduceSteps_le_one (maxDelay fuel x : Nat) (h : x < 2 * (maxDelay + 2)) :
    reduceSteps maxDelay fuel x ≤ 1 := by
  cases fuel with
  | zero => simp [reduceSteps]
  | succ n =>
    simp only [reduceSteps]
    split_ifs with hx
    · cases n with
      | zero => simp [reduceSteps]
      | succ m =>
        simp only [reduceSteps]
        rw [if_neg (by omega)]
    · omega

/-- The machine loop of line 216 agrees with the loop on natural numbers when its start
value is below `2 * (maxDelay+2)`. -/
theorem reduceLoop32_spec (maxDelay fuel x : Nat) (hN : maxDelay + 2 < 2147483648)
    (hx : x < 2 * (maxDelay + 2)) :
    (reduceLoop32 maxDelay (fuel + 2) (toI32 x)).1 = ((x % (maxDelay + 2) : Nat) : Int) ∧
    (reduceLoop32 maxDelay (fuel + 2) (toI32 x)).2 ≤ 1 := by
  have hN32 : uadd32 maxDelay 2 = maxDelay + 2 := uadd32_of_lt _ _ (by omega)
  have hu : toU32 (toI32 x) = x := by
    rw [toU32_toI32, Nat.mod_eq_of_lt (by omega)]
  by_cases h : x ≥ maxDelay + 2
  · have hsub : usub32 x (maxDelay + 2) = x - (maxDelay + 2) := usub32_of_le _ _ h (by omega)
    have hu2 : toU32 (toI32 (x - (maxDelay + 2))) = x - (maxDelay + 2) := by
      rw [toU32_toI32, Nat.mod_eq_of_lt (by omega)]
    have hin : reduceLoop32 maxDelay (fuel + 1) (toI32 (x - (maxDelay + 2)))
        = (toI32 (x - (maxDelay + 2)), 0) := by
      rw [reduceLoop32, hu2, hN32, if_neg (by omega)]
    rw [reduceLoop32, hu, hN32, if_pos h, hsub, hin]
    refine ⟨?_, le_refl _⟩
    show toI32 (x - (maxDelay + 2)) = _
    rw [toI32_of_lt _ (by omega), Nat.mod_eq_sub_mod h, Nat.mod_eq_of_lt (by omega)]
  · rw [reduceLoop32, hu, hN32, if_neg h]
    refine ⟨?_, Nat.zero_le _⟩
    show toI32 x = _
    rw [toI32_of_lt _ (by omega), Nat.mod_eq_of_lt (by omega)]

theorem cast_mod_shift (a b n : Nat) (x : Int) (h : (a : Int) + b = x + n) :
    (((a + b) % n : Nat) : Int) = x % (n : Int) := by
  have e : (((a + b : Nat) : Int)) = x + n := by
    push_cast
    exact h
  rw [Int.natCast_mod, e, Int.add_emod_self]

/-- C13: the ring-slot formula.  Let `N = maxDelay+2` with `1 ≤ maxDelay` and `N < 2^31`,
`newDelay ≤ N` at the top of a tick and `1 ≤ delay ≤ maxDelay`.  After lines 213-219,
`newDelay' = newDelay mod N` is below `N`, `displayDelay = (newDelay' - delay - 1) mod N`
and `currentDelay = (newDelay' - delay) mod N`, both below `N`, and the reduction loop of
line 216 makes at most one subtraction.  The same values come out of the lines run on
32-bit machine integers. -/
theorem ring_slot_formula (maxDelay delay newDelay : Nat) (hmax : 1 ≤ maxDelay)
    (hN : maxDelay + 2 < 2 ^ 31) (hnd : newDelay ≤ maxDelay + 2)
    (h1 : 1 ≤ delay) (h2 : delay ≤ maxDelay) :
    wrapNewDelay maxDelay newDelay = newDelay % (maxDelay + 2) ∧
    wrapNewDelay maxDelay newDelay < maxDelay + 2 ∧
    ((displayDelayOf maxDelay delay (wrapNewDelay maxDelay newDelay) : Nat) : Int)
      = ((wrapNewDelay maxDelay newDelay : Int) - delay - 1) % ((maxDelay + 2 : Nat) : Int) ∧
    displayDelayOf maxDelay delay (wrapNewDelay maxDelay newDelay) < maxDelay + 2 ∧
    ((currentDelayOf maxDelay
        (displayDelayOf maxDelay delay (wrapNewDelay maxDelay newDelay)) : Nat) : Int)
      = ((wrapNewDelay maxDelay newDelay : Int) - delay) % ((maxDelay + 2 : Nat) : Int) ∧
    currentDelayOf maxDelay (displayDelayOf maxDelay delay (wrapNewDelay maxDelay newDelay))
      < maxDelay + 2 ∧
    reduceSteps maxDelay (wrapNewDelay maxDelay newDelay + 1 + (maxDelay - delay))
      (wrapNewDelay maxDelay newDelay + 1 + (maxDelay - delay)) ≤ 1 ∧
    wrapNewDelay32 maxDelay (newDelay : Int) = (wrapNewDelay maxDelay newDelay : Int) ∧
    (displayDelay32 maxDelay delay (wrapNewDelay maxDelay newDelay : Int)).1
      = (displayDelayOf maxDelay delay (wrapNewDelay maxDelay newDelay) : Int) ∧
    (displayDelay32 maxDelay delay (wrapNewDelay maxDelay newDelay : Int)).2 ≤ 1 ∧
    currentDelay32 maxDelay
        (displayDelayOf maxDelay delay (wrapNewDelay maxDelay newDelay) : Int)
      = (currentDelayOf maxDelay
          (displayDelayOf maxDelay delay (wrapNewDelay maxDelay newDelay)) : Int) := by
  have hN' : maxDelay + 2 < 2147483648 := by omega
  have hw : wrapNewDelay maxDelay newDelay < maxDelay + 2 := wrapNewDelay_lt _ _
  have hN32 : uadd32 maxDelay 2 = maxDelay + 2 := uadd32_of_lt _ _ (by omega)
  have hdd : displayDelayOf maxDelay delay (wrapNewDelay maxDelay newDelay)
      = (wrapNewDelay maxDelay newDelay + 1 + (maxDelay - delay)) % (maxDelay + 2) :=
    displayDelayOf_eq_mod _ _ _
  have hddlt : displayDelayOf maxDelay delay (wrapNewDelay maxDelay newDelay) < maxDelay + 2 := by
    rw [hdd]
    exact Nat.mod_lt _ (by omega)
  have hcd := currentDelay_formula maxDelay delay (wrapNewDelay maxDelay newDelay) h2
  have hcdlt := currentDelayOf_lt maxDelay delay (wrapNewDelay maxDelay newDelay) h2
  refine ⟨?_, hw, ?_, hddlt, ?_, hcdlt, ?_, ?_, ?_, ?_, ?_⟩
  · unfold wrapNewDelay
    split_ifs with h
    · have : newDelay = maxDelay + 2 := by omega
      rw [this, Nat.mod_self]
    · rw [Nat.mod_eq_of_lt (by omega)]
  · rw [hdd, Nat.add_assoc]
    apply cast_mod_shift
    push_cast
    omega
  · rw [hcd]
    apply cast_mod_shift
    push_cast
    omega
  · exact reduceSteps_le_one _ _ _ (by omega)
  · unfold wrapNewDelay32 wrapNewDelay
    rw [toU32_natCast _ (by omega), hN32]
    split_ifs <;> rfl
  · unfold displayDelay32
    have hin : uadd32 (toU32 ((wrapNewDelay maxDelay newDelay : Int) + 1))
        (usub32 maxDelay delay) = wrapNewDelay maxDelay newDelay + 1 + (maxDelay - delay) := by
      have e : (wrapNewDelay maxDelay newDelay : Int) + 1
          = ((wrapNewDelay maxDelay newDelay + 1 : Nat) : Int) := by push_cast; rfl
      rw [e, toU32_natCast _ (by omega), usub32_of_le _ _ h2 (by omega),
        uadd32_of_lt _ _ (by omega)]
    have hf : uintSize = 4294967294 + 2 := by
      unfold uintSize
      norm_num
    rw [hin, hf, hdd]
    exact (reduceLoop32_spec maxDelay 4294967294 _ hN' (by omega)).1
  · unfold displayDelay32
    have hin : uadd32 (toU32 ((wrapNewDelay maxDelay newDelay : Int) + 1))
        (usub32 maxDelay delay) = wrapNewDelay maxDelay newDelay + 1 + (maxDelay - delay) := by
      have e : (wrapNewDelay maxDelay newDelay : Int) + 1
          = ((wrapNewDelay maxDelay newDelay + 1 : Nat) : Int) := by push_cast; rfl
      rw [e, toU32_natCast _ (by omega), usub32_of_le _ _ h2 (by omega),
        uadd32_of_lt _ _ (by omega)]
    have hf : uintSize = 4294967294 + 2 := by
      unfold uintSize
      norm_num
    rw [hin, hf]
    exact (reduceLoop32_spec maxDelay 4294967294 _ hN' (by omega)).2
  · unfold currentDelay32 currentDelayOf
    have e : ((displayDelayOf maxDelay delay (wrapNewDelay maxDelay newDelay) : Nat) : Int) + 1
        = ((displayDelayOf maxDelay delay (wrapNewDelay maxDelay newDelay) + 1 : Nat) : Int) := by
      push_cast; rfl
    rw [e, toU32_natCast _ (by omega), hN32]
    split_ifs with h
    · rw [usub32_of_le _ _ h (by omega), toI32_of_lt _ (by omega)]
    · rfl

/-- Witness for `ring_slot_formula`: the default `maxDelay = 60` with `delay = 2` and
`newDelay = 62` at the top of the tick. -/
theorem ring_slot_formula_witness :
    wrapNewDelay 60 62 = 62 % (60 + 2) ∧
    ((currentDelayOf 60 (displayDelayOf 60 2 (wrapNewDelay 60 62)) : Nat) : Int)
      = ((wrapNewDelay 60 62 : Int) - (2 : Nat)) % ((60 + 2 : Nat) : Int) :=
  ⟨(ring_slot_formula 60 2 62 (by decide) (by norm_num) (by decide) (by decide) (by decide)).1,
   (ring_slot_formula 60 2 62 (by decide) (by norm_num) (by decide) (by decide)
    (by decide)).2.2.2.2.1⟩

/-! ### Indices in bounds -/

/-- Every step of the outer loop copies the band between the bound of the iteration
before (or the first bound) and its own bound. -/
theorem bandLoop_mem (maxDelay : Nat) (lastOf : Nat → Nat) (body : Nat → Nat → List Nat)
    (n d w first : Nat) (st : Step)
    (hst : st ∈ bandLoop maxDelay lastOf body n d w first) :
    ∃ j, d ≤ j ∧ j < d + n ∧
      st.pixels = body (if j = d then first else lastOf (j - 1)) (lastOf j) := by
  induction n generalizing d w first with
  | zero => simp [bandLoop] at hst
  | succ n ih =>
    simp only [bandLoop, List.mem_cons] at hst
    rcases hst with h | h
    · refine ⟨d, le_refl _, by omega, ?_⟩
      rw [h, if_pos rfl]
    · obtain ⟨j, hj1, hj2, hj3⟩ := ih (d + 1) (nextSlot maxDelay w) (lastOf d) h
      refine ⟨j, by omega, by omega, ?_⟩
      rw [hj3]
      by_cases hj : j = d + 1
      · subst hj
        rw [if_pos rfl, if_neg (by omega)]
        rfl
      · rw [if_neg hj, if_neg (by omega)]

theorem bandLoop_length (maxDelay : Nat) (lastOf : Nat → Nat) (body : Nat → Nat → List Nat)
    (n d w first : Nat) : (bandLoop maxDelay lastOf body n d w first).length = n := by
  induction n generalizing d w first with
  | zero => rfl
  | succ n ih => simp only [bandLoop, List.length_cons, ih]

theorem bandLoop_slot_lt (maxDelay : Nat) (lastOf : Nat → Nat) (body : Nat → Nat → List Nat)
    (n d w first : Nat) (st : Step)
    (hst : st ∈ bandLoop maxDelay lastOf body n d w first) :
    st.workingDelay < maxDelay + 2 := by
  induction n generalizing d w first with
  | zero => simp [bandLoop] at hst
  | succ n ih =>
    simp only [bandLoop, List.mem_cons] at hst
    rcases hst with h | h
    · rw [h]
      exact nextSlot_lt maxDelay w
    · exact ih _ _ _ h

/-- Every ring slot a compute function takes a pixel pointer from is a slot of the ring. -/
theorem steps_slot_lt (v : Variant) (band : Nat → Nat → Nat → Nat)
    (W H maxDelay delay currentDelay : Nat) (st : Step)
    (hst : st ∈ v.steps band W H maxDelay delay currentDelay) :
    st.workingDelay < maxDelay + 2 := by
  cases v
  case horizontalSymmetricBis =>
    simp only [Variant.steps, computeHorizontalSymmetricBisSteps, List.mem_append] at hst
    rcases hst with h | h
    · exact bandLoop_slot_lt _ _ _ _ _ _ _ st h
    · exact bandLoop_slot_lt _ _ _ _ _ _ _ st h
  all_goals exact bandLoop_slot_lt _ _ _ _ _ _ _ st hst

theorem mem_rangeUp (a b x : Nat) : x ∈ rangeUp a b ↔ a ≤ x ∧ x < b := by
  unfold rangeUp
  rw [List.mem_range'_1]
  omega

theorem mem_rangeDown (a b x : Nat) : x ∈ rangeDown a b ↔ b < x ∧ x ≤ a := by
  unfold rangeDown
  simp only [List.mem_map, List.mem_range]
  constructor
  · rintro ⟨j, hj, rfl⟩
    omega
  · rintro ⟨h1, h2⟩
    exact ⟨a - x, by omega, by omega⟩

theorem mem_rowPixels (start n i : Nat) : i ∈ rowPixels start n ↔ ∃ c, c < n ∧ i = start + c := by
  unfold rowPixels
  simp only [List.mem_map, List.mem_range]
  constructor
  · rintro ⟨c, hc, rfl⟩
    exact ⟨c, hc, rfl⟩
  · rintro ⟨c, hc, rfl⟩
    exact ⟨c, hc, rfl⟩

theorem mem_colPixels (W H start i : Nat) :
    i ∈ colPixels W H start ↔ ∃ r, r < H ∧ i = start + r * W := by
  unfold colPixels
  simp only [List.mem_map, List.mem_range]
  constructor
  · rintro ⟨r, hr, rfl⟩
    exact ⟨r, hr, rfl⟩
  · rintro ⟨r, hr, rfl⟩
    exact ⟨r, hr, rfl⟩

/-- Column `c < W`, row `r < H`: the linear index is inside the frame. -/
theorem index_lt (W H c r : Nat) (hc : c < W) (hr : r < H) : c + r * W < W * H := by
  have h1 : (r + 1) * W ≤ H * W := Nat.mul_le_mul_right _ hr
  have h2 : (r + 1) * W = r * W + W := by ring
  have h3 : H * W = W * H := Nat.mul_comm _ _
  omega

theorem exactBand_le_dim (dim delay k : Nat) (hd : 1 ≤ delay) (hk : k ≤ delay) :
    exactBand dim delay k ≤ dim := by
  have := exactBand_le_of_le dim delay k delay hk
  rwa [exactBand_full dim delay hd] at this

theorem exactBand_lt_dim (dim delay k : Nat) (hdim : 0 < dim) (hk : k < delay) :
    exactBand dim delay k < dim := by
  unfold exactBand
  apply Nat.div_lt_of_lt_mul
  exact Nat.mul_lt_mul_of_pos_right hk hdim

theorem mem_writes (steps : List Step) (i : Nat) :
    i ∈ writes steps ↔ ∃ st, st ∈ steps ∧ i ∈ st.pixels := by
  unfold writes
  rw [List.mem_flatMap]

/-! ### The symmetric modes: bounds and mirror -/

theorem bandLoop_succ (maxDelay : Nat) (lastOf : Nat → Nat) (body : Nat → Nat → List Nat)
    (n d w first : Nat) :
    bandLoop maxDelay lastOf body (n + 1) d w first
      = ⟨nextSlot maxDelay w, body first (lastOf d)⟩ ::
          bandLoop maxDelay lastOf body n (d + 1) (nextSlot maxDelay w) (lastOf d) := rfl

/-- The pixels `computeHorizontalSymmetric` copies for one row `r`: the row itself and
the row `H - r`. -/
theorem mem_horizontalSymmetric_body (W H first last i : Nat) :
    i ∈ (rangeUp first last).flatMap
        (fun r => rowPixels (r * W) W ++ rowPixels ((H - r) * W) W) ↔
      ∃ r c, first ≤ r ∧ r < last ∧ c < W ∧ (i = r * W + c ∨ i = (H - r) * W + c) := by
  simp only [List.mem_flatMap, mem_rangeUp, List.mem_append, mem_rowPixels]
  constructor
  · rintro ⟨r, ⟨h1, h2⟩, ⟨c, hc, e⟩ | ⟨c, hc, e⟩⟩
    · exact ⟨r, c, h1, h2, hc, Or.inl e⟩
    · exact ⟨r, c, h1, h2, hc, Or.inr e⟩
  · rintro ⟨r, c, h1, h2, hc, e | e⟩
    · exact ⟨r, ⟨h1, h2⟩, Or.inl ⟨c, hc, e⟩⟩
    · exact ⟨r, ⟨h1, h2⟩, Or.inr ⟨c, hc, e⟩⟩

/-- C16, the failing input: `maxDelay = 721` (`argv[2]`), `delay = 721` (Enter), mode
horizontal + symmetric.  The first band of `computeHorizontalSymmetric` is row
`r = 0` (`(int) (720/721) = 0` up to `(int) (2*720/721) = 1`), and its mirrored copy
starts at `i = (frameHeight - 0) * frameWidth = 921600 = frameWidth * frameHeight`, one
whole row past the end of the frame. -/
theorem horizontalSymmetric_writes_past_frame :
    selectVariant false false true = .horizontalSymmetric ∧
    exactBand frameHeight 721 1 = 0 ∧ exactBand frameHeight 721 2 = 1 ∧
    frameWidth * frameHeight = 921600 ∧
    921600 ∈ writes (computeHorizontalSymmetricSteps exactBand frameWidth frameHeight
      721 721 0) ∧
    921600 + 1279 ∈ writes (computeHorizontalSymmetricSteps exactBand frameWidth frameHeight
      721 721 0) := by
  have hn : (721 : Nat) / 2 - 1 = 358 + 1 := by norm_num
  have hb1 : exactBand frameHeight 721 1 = 0 := by decide
  have hb2 : exactBand frameHeight 721 (1 + 1) = 1 := by decide
  have hmem : ∀ c, c < frameWidth → 921600 + c ∈
      writes (computeHorizontalSymmetricSteps exactBand frameWidth frameHeight 721 721 0) := by
    intro c hc
    rw [mem_writes]
    unfold computeHorizontalSymmetricSteps
    rw [hn, bandLoop_succ]
    refine ⟨_, List.mem_cons_self _ _, ?_⟩
    show 921600 + c ∈ (rangeUp (exactBand frameHeight 721 1)
      (exactBand frameHeight 721 (1 + 1))).flatMap
        (fun r => rowPixels (r * frameWidth) frameWidth
          ++ rowPixels ((frameHeight - r) * frameWidth) frameWidth)
    rw [mem_horizontalSymmetric_body, hb1, hb2]
    exact ⟨0, c, le_refl _, by decide, hc, Or.inr (by simp only [frameHeight, frameWidth])⟩
  exact ⟨by decide, hb1, hb2, by decide, hmem 0 (by decide), hmem 1279 (by decide)⟩

/-- `computeVerticalSymmetric` stays inside the frame for every delay. -/
theorem computeVerticalSymmetric_in_bounds (W H maxDelay delay currentDelay : Nat)
    (h1 : 1 ≤ delay) (st : Step)
    (hst : st ∈ computeVerticalSymmetricSteps exactBand W H maxDelay delay currentDelay)
    (i : Nat) (hi : i ∈ st.pixels) : i < W * H := by
  obtain ⟨j, hj1, hj2, e⟩ := bandLoop_mem _ _ _ _ _ _ _ st hst
  rw [e, List.mem_flatMap] at hi
  obtain ⟨c, hc, hi⟩ := hi
  rw [mem_rangeUp] at hc
  have hhalf : delay / 2 ≤ delay := Nat.div_le_self _ _
  have hb : exactBand W delay (j + 1) ≤ W := exactBand_le_dim W delay (j + 1) h1 (by omega)
  rw [List.mem_append, mem_colPixels, mem_colPixels] at hi
  rcases hi with ⟨r, hr, rfl⟩ | ⟨r, hr, rfl⟩
  · exact index_lt W H c r (by omega) hr
  · exact index_lt W H (W - 1 - c) r (by omega) hr

/-- `computeVerticalReverseSymmetric` stays inside the frame for every delay. -/
theorem computeVerticalReverseSymmetric_in_bounds (W H maxDelay delay currentDelay : Nat)
    (hW : 0 < W) (h1 : 1 ≤ delay) (st : Step)
    (hst : st ∈ computeVerticalReverseSymmetricSteps exactBand W H maxDelay delay currentDelay)
    (i : Nat) (hi : i ∈ st.pixels) : i < W * H := by
  obtain ⟨j, hj1, hj2, e⟩ := bandLoop_mem _ _ _ _ _ _ _ st hst
  rw [e, List.mem_flatMap] at hi
  obtain ⟨c, hc, hi⟩ := hi
  rw [mem_rangeDown] at hc
  have hhalf : delay / 2 ≤ delay := Nat.div_le_self _ _
  have hfirst : (if j = 1 then exactBand W delay (delay - 1)
      else exactBand W delay (delay / 2 - (j - 1 + 1))) < W := by
    split_ifs
    · exact exactBand_lt_dim W delay _ hW (by omega)
    · exact exactBand_lt_dim W delay _ hW (by omega)
  rw [List.mem_append, mem_colPixels, mem_colPixels] at hi
  rcases hi with ⟨r, hr, rfl⟩ | ⟨r, hr, rfl⟩
  · exact index_lt W H c r (by omega) hr
  · exact index_lt W H (W - c) r (by omega) hr

/-- `computeHorizontalSymmetric` stays inside the frame as long as `delay ≤ H`: then no
band starts at row 0. -/
theorem computeHorizontalSymmetric_in_bounds (W H maxDelay delay currentDelay : Nat)
    (h1 : 1 ≤ delay) (hH : delay ≤ H) (st : Step)
    (hst : st ∈ computeHorizontalSymmetricSteps exactBand W H maxDelay delay currentDelay)
    (i : Nat) (hi : i ∈ st.pixels) : i < W * H := by
  obtain ⟨j, hj1, hj2, e⟩ := bandLoop_mem _ _ _ _ _ _ _ st hst
  rw [e, mem_horizontalSymmetric_body] at hi
  obtain ⟨r, c, hr1, hr2, hc, hi⟩ := hi
  have hhalf : delay / 2 ≤ delay := Nat.div_le_self _ _
  have hb : exactBand H delay (j + 1) ≤ H := exactBand_le_dim H delay (j + 1) h1 (by omega)
  have hone : 1 ≤ exactBand H delay 1 := by
    unfold exactBand
    rw [Nat.one_mul]
    exact (Nat.one_le_div_iff (by omega)).2 hH
  have hfirst : 1 ≤ (if j = 1 then exactBand H delay 1
      else exactBand H delay (j - 1 + 1)) := by
    split_ifs
    · exact hone
    · exact le_trans hone (exactBand_le_of_le H delay 1 _ (by omega))
  rcases hi with rfl | rfl
  · rw [Nat.add_comm]
    exact index_lt W H c r hc (by omega)
  · rw [Nat.add_comm]
    exact index_lt W H c (H - r) hc (by omega)

/-- The mirror of `computeVerticalSymmetric`: a step that copies column `c` also copies
column `W-1-c`, and conversely. -/
theorem computeVerticalSymmetric_mirror (W H maxDelay delay currentDelay : Nat)
    (h1 : 1 ≤ delay) (st : Step)
    (hst : st ∈ computeVerticalSymmetricSteps exactBand W H maxDelay delay currentDelay)
    (c r : Nat) (hc : c < W) (hr : r < H) :
    c + r * W ∈ st.pixels ↔ (W - 1 - c) + r * W ∈ st.pixels := by
  obtain ⟨j, hj1, hj2, e⟩ := bandLoop_mem _ _ _ _ _ _ _ st hst
  have hhalf : delay / 2 ≤ delay := Nat.div_le_self _ _
  have hb : exactBand W delay (j + 1) ≤ W := exactBand_le_dim W delay (j + 1) h1 (by omega)
  have hcol : ∀ a b r1 r2 : Nat, a < W → b < W → a + r1 * W = b + r2 * W → a = b := by
    intro a b r1 r2 ha hb2 h
    have e1 : (a + r1 * W) % W = a := by
      rw [Nat.add_mul_mod_self_right, Nat.mod_eq_of_lt ha]
    have e2 : (b + r2 * W) % W = b := by
      rw [Nat.add_mul_mod_self_right, Nat.mod_eq_of_lt hb2]
    rw [← e1, ← e2, h]
  rw [e]
  simp only [List.mem_flatMap, mem_rangeUp, List.mem_append, mem_colPixels]
  constructor
  · rintro ⟨x, ⟨hx1, hx2⟩, ⟨r1, hr1, h⟩ | ⟨r1, hr1, h⟩⟩
    · have := hcol c x r r1 hc (by omega) h
      subst this
      exact ⟨c, ⟨hx1, hx2⟩, Or.inr ⟨r, hr, rfl⟩⟩
    · have := hcol c (W - 1 - x) r r1 hc (by omega) h
      exact ⟨x, ⟨hx1, hx2⟩, Or.inl ⟨r, hr, by omega⟩⟩
  · rintro ⟨x, ⟨hx1, hx2⟩, ⟨r1, hr1, h⟩ | ⟨r1, hr1, h⟩⟩
    · have := hcol (W - 1 - c) x r r1 (by omega) (by omega) h
      exact ⟨x, ⟨hx1, hx2⟩, Or.inr ⟨r, hr, by omega⟩⟩
    · have := hcol (W - 1 - c) (W - 1 - x) r r1 (by omega) (by omega) h
      exact ⟨x, ⟨hx1, hx2⟩, Or.inl ⟨r, hr, by omega⟩⟩

/-- The mirror of `computeHorizontalSymmetric` as the code has it: a step that copies a row
`r` of its band copies row `H - r` with it. -/
theorem computeHorizontalSymmetric_copies (W H maxDelay delay currentDelay : Nat) (st : Step)
    (hst : st ∈ computeHorizontalSymmetricSteps exactBand W H maxDelay delay currentDelay) :
    ∃ first last, ∀ i, i ∈ st.pixels ↔
      ∃ r c, first ≤ r ∧ r < last ∧ c < W ∧ (i = r * W + c ∨ i = (H - r) * W + c) := by
  obtain ⟨j, _, _, e⟩ := bandLoop_mem _ _ _ _ _ _ _ st hst
  refine ⟨if j = 1 then exactBand H delay 1 else exactBand H delay (j - 1 + 1),
    exactBand H delay (j + 1), fun i => ?_⟩
  rw [e]
  exact mem_horizontalSymmetric_body W H _ _ i

/-- C17, the failing input: the default `maxDelay = 60` with `delay = 4`, mode horizontal +
symmetric.  The single band of `computeHorizontalSymmetric` is rows `180 .. 359`; with each
row `r` it copies row `frameHeight - r`, not `frameHeight - 1 - r`.  Row 540
(`= 720 - 180`) is copied, its mirror image row 179 (`= 719 - 540`) is not, and row 360, the
mirror image of the copied row 359, is not either. -/
theorem horizontalSymmetric_not_mirror_symmetric :
    selectVariant false false true = .horizontalSymmetric ∧
    540 * frameWidth ∈ writes (computeHorizontalSymmetricSteps exactBand frameWidth
      frameHeight 60 4 0) ∧
    359 * frameWidth ∈ writes (computeHorizontalSymmetricSteps exactBand frameWidth
      frameHeight 60 4 0) ∧
    (frameHeight - 1 - 540) * frameWidth ∉ writes (computeHorizontalSymmetricSteps exactBand
      frameWidth frameHeight 60 4 0) ∧
    (frameHeight - 1 - 359) * frameWidth ∉ writes (computeHorizontalSymmetricSteps exactBand
      frameWidth frameHeight 60 4 0) := by
  have hb1 : exactBand frameHeight 4 1 = 180 := by decide
  have hb2 : exactBand frameHeight 4 (1 + 1) = 360 := by decide
  have hsteps : computeHorizontalSymmetricSteps exactBand frameWidth frameHeight 60 4 0
      = [⟨nextSlot 60 (symmetricStart 60 4 0),
          (rangeUp (exactBand frameHeight 4 1) (exactBand frameHeight 4 (1 + 1))).flatMap
            (fun r => rowPixels (r * frameWidth) frameWidth
              ++ rowPixels ((frameHeight - r) * frameWidth) frameWidth)⟩] := rfl
  have hmem : ∀ i, i ∈ writes (computeHorizontalSymmetricSteps exactBand frameWidth
      frameHeight 60 4 0) ↔
      ∃ r c, 180 ≤ r ∧ r < 360 ∧ c < 1280 ∧ (i = r * 1280 + c ∨ i = (720 - r) * 1280 + c) := by
    intro i
    rw [hsteps, mem_writes]
    simp only [List.mem_singleton, exists_eq_left]
    rw [mem_horizontalSymmetric_body, hb1, hb2]
    rfl
  refine ⟨by decide, ?_, ?_, ?_, ?_⟩
  · rw [hmem]
    exact ⟨180, 0, by decide, by decide, by decide, Or.inr (by decide)⟩
  · rw [hmem]
    exact ⟨359, 0, by decide, by decide, by decide, Or.inl (by decide)⟩
  · rw [hmem]
    rintro ⟨r, c, h1, h2, hc, h | h⟩
    · simp only [frameHeight, frameWidth] at h
      omega
    · simp only [frameHeight, frameWidth] at h
      omega
  · rw [hmem]
    rintro ⟨r, c, h1, h2, hc, h | h⟩
    · simp only [frameHeight, frameWidth] at h
      omega
    · simp only [frameHeight, frameWidth] at h
      omega

/-! ### Reverse and forward modes: which slot a pixel comes from -/

/-- A pixel that no step of the outer loop copies keeps its value. -/
theorem bandLoop_apply_none (maxDelay : Nat) (lastOf : Nat → Nat) (body : Nat → Nat → List Nat)
    (fa : Nat → Frame) (i : Nat) (n : Nat) :
    ∀ (d w first : Nat) (cur : Frame),
      (∀ j, d ≤ j → j < d + n →
        i ∉ body (if j = d then first else lastOf (j - 1)) (lastOf j)) →
      runSteps fa cur (bandLoop maxDelay lastOf body n d w first) i = cur i := by
  induction n with
  | zero => intro d w first cur _; rfl
  | succ n ih =>
    intro d w first cur h
    rw [bandLoop_succ, runSteps_cons]
    rw [ih (d + 1) (nextSlot maxDelay w) (lastOf d) _ (by
      intro j hj1 hj2
      have := h j (by omega) (by omega)
      rw [if_neg (by omega)] at this
      split_ifs with e
      · have e2 : j - 1 = d := by omega
        rw [e2] at this
        exact this
      · exact this)]
    apply runStep_of_not_mem
    have := h d (le_refl d) (by omega)
    rw [if_pos rfl] at this
    exact this

/-- A pixel copied by iteration `j` of the outer loop and by no later iteration holds the
pixel of slot `(w + (j - d) + 1) mod (maxDelay+2)`. -/
theorem bandLoop_apply_some (maxDelay : Nat) (lastOf : Nat → Nat) (body : Nat → Nat → List Nat)
    (fa : Nat → Frame) (i : Nat) (n : Nat) :
    ∀ (d w first : Nat) (cur : Frame) (j : Nat), w < maxDelay + 2 → d ≤ j → j < d + n →
      i ∈ body (if j = d then first else lastOf (j - 1)) (lastOf j) →
      (∀ j1, j < j1 → j1 < d + n → i ∉ body (lastOf (j1 - 1)) (lastOf j1)) →
      runSteps fa cur (bandLoop maxDelay lastOf body n d w first) i
        = fa ((w + (j - d) + 1) % (maxDelay + 2)) i := by
  induction n with
  | zero => intro d w first cur j _ h1 h2; omega
  | succ n ih =>
    intro d w first cur j hw hj1 hj2 hmem hlater
    rw [bandLoop_succ, runSteps_cons]
    by_cases hjd : j = d
    · subst hjd
      rw [if_pos rfl] at hmem
      rw [bandLoop_apply_none maxDelay lastOf body fa i n (j + 1) _ _ _ (by
        intro j1 h1 h2
        have := hlater j1 (by omega) (by omega)
        split_ifs with e
        · have e2 : j1 - 1 = j := by omega
          rw [e2] at this
          exact this
        · exact this)]
      rw [runStep_of_mem fa cur _ i hmem]
      show fa (nextSlot maxDelay w) i = _
      rw [nextSlot_eq_mod maxDelay w hw, Nat.sub_self, Nat.add_zero]
    · rw [if_neg hjd] at hmem
      have hw2 : nextSlot maxDelay w < maxDelay + 2 := by
        rw [nextSlot_eq_mod maxDelay w hw]
        exact Nat.mod_lt _ (by omega)
      rw [ih (d + 1) (nextSlot maxDelay w) (lastOf d) _ j hw2 (by omega) (by omega) (by
        split_ifs with e
        · have e2 : j - 1 = d := by omega
          rw [e2] at hmem
          exact hmem
        · exact hmem) (by
        intro j1 h1 h2
        exact hlater j1 h1 (by omega))]
      rw [nextSlot_eq_mod maxDelay w hw]
      have e : (w + 1) % (maxDelay + 2) + (j - (d + 1)) + 1
          = (j - (d + 1) + 1) + (w + 1) % (maxDelay + 2) := by omega
      have e3 : j - (d + 1) + 1 + (w + 1) = w + (j - d) + 1 := by omega
      rw [e, Nat.add_mod_mod, e3]

/-- Membership in the row loops: index `r*W + c` is copied iff row `r` is visited. -/
theorem mem_rows (W : Nat) (L : List Nat) (r c : Nat) (hc : c < W) :
    r * W + c ∈ L.flatMap (fun r => rowPixels (r * W) W) ↔ r ∈ L := by
  simp only [List.mem_flatMap, mem_rowPixels]
  constructor
  · rintro ⟨r1, h1, c1, hc1, e⟩
    have := row_index_inj W r c r1 c1 hc hc1 e
    subst this
    exact h1
  · intro h
    exact ⟨r, h, c, hc, rfl⟩

/-- Membership in the column loops: index `c + r*W` is copied iff column `c` is visited,
as long as the loops visit only columns of the frame. -/
theorem mem_cols (W H : Nat) (L : List Nat) (hL : ∀ x ∈ L, x < W) (r c : Nat) (hc : c < W)
    (hr : r < H) :
    c + r * W ∈ L.flatMap (fun c => colPixels W H c) ↔ c ∈ L := by
  simp only [List.mem_flatMap, mem_colPixels]
  constructor
  · rintro ⟨c1, h1, r1, hr1, e⟩
    have hc1 := hL c1 h1
    have e1 : (c + r * W) % W = c := by
      rw [Nat.add_mul_mod_self_right, Nat.mod_eq_of_lt hc]
    have e2 : (c1 + r1 * W) % W = c1 := by
      rw [Nat.add_mul_mod_self_right, Nat.mod_eq_of_lt hc1]
    have : c = c1 := by rw [← e1, ← e2, e]
    subst this
    exact h1
  · intro h
    exact ⟨c, h, r, hr, rfl⟩

/-! ### Binary32 band bounds -/

theorem log2Step_spec (level : Nat) :
    ∀ n, n ≠ 0 → n < 2 ^ 2 ^ level →
      2 ^ log2Step level n ≤ n ∧ n < 2 ^ (log2Step level n + 1) ∧
        log2Step level n < 2 ^ level := by
  induction level with
  | zero =>
    intro n h0 h
    have : n = 1 := by
      simp only [pow_zero, pow_one] at h
      omega
    subst this
    simp [log2Step]
  | succ l ih =>
    intro n h0 h
    unfold log2Step
    split_ifs with hlt
    · obtain ⟨a, b, c⟩ := ih n h0 hlt
      refine ⟨a, b, ?_⟩
      rw [pow_succ]
      omega
    · have hpos : 0 < 2 ^ 2 ^ l := pow_pos (by decide) _
      have hge : 2 ^ 2 ^ l ≤ n := Nat.le_of_not_lt hlt
      have hq0 : n / 2 ^ 2 ^ l ≠ 0 := by
        have h1 : 1 * 2 ^ 2 ^ l ≤ n := by
          rw [Nat.one_mul]
          exact hge
        have : 1 ≤ n / 2 ^ 2 ^ l := (Nat.le_div_iff_mul_le hpos).2 h1
        omega
      have hq1 : n / 2 ^ 2 ^ l < 2 ^ 2 ^ l := by
        rw [Nat.div_lt_iff_lt_mul hpos, ← pow_add]
        have : 2 ^ l + 2 ^ l = 2 ^ (l + 1) := by rw [pow_succ]; omega
        rw [this]
        exact h
      obtain ⟨a, b, c⟩ := ih _ hq0 hq1
      refine ⟨?_, ?_, ?_⟩
      · rw [pow_add]
        calc 2 ^ 2 ^ l * 2 ^ log2Step l (n / 2 ^ 2 ^ l)
            ≤ 2 ^ 2 ^ l * (n / 2 ^ 2 ^ l) := Nat.mul_le_mul_left _ a
          _ ≤ n := Nat.mul_div_le _ _
      · have e : 2 ^ l + log2Step l (n / 2 ^ 2 ^ l) + 1
            = (log2Step l (n / 2 ^ 2 ^ l) + 1) + 2 ^ l := by omega
        rw [e, pow_add, ← Nat.div_lt_iff_lt_mul hpos]
        exact b
      · rw [pow_succ]
        omega

theorem ilog2_spec (n : Nat) (h0 : n ≠ 0) (h : n < 2 ^ 256) :
    2 ^ ilog2 n ≤ n ∧ n < 2 ^ (ilog2 n + 1) := by
  obtain ⟨a, b, _⟩ := log2Step_spec 8 n h0 (by norm_num; exact h)
  exact ⟨a, b⟩

theorem ilog2_zero : ilog2 0 = 0 := by decide

theorem rne_bounds (a b : Nat) (hb : 0 < b) :
    2 * (rne a b * b) ≤ 2 * a + b ∧ 2 * a ≤ 2 * (rne a b * b) + b := by
  have h := Nat.div_add_mod a b
  have hr := Nat.mod_lt a hb
  unfold rne
  split_ifs <;> (try rw [Nat.add_mul, Nat.one_mul]) <;> rw [Nat.mul_comm (a / b) b] <;> omega

theorem rne_of_dvd (t c : Nat) (hc : 0 < c) : rne (t * c) c = t := by
  unfold rne
  rw [Nat.mul_mod_left, Nat.mul_div_cancel _ hc]
  simp [hc]

theorem rne_le (a b : Nat) : rne a b ≤ a / b + 1 := by
  unfold rne
  split_ifs <;> omega

/-- Rounding to 24 significant bits has relative error at most `2^-24`. -/
theorem round24_error (a b : Nat) (hb : 0 < b) (h23 : 2 ^ 23 ≤ a / b) (h256 : a / b < 2 ^ 256) :
    16777216 * (round24 a b * b) ≤ 16777217 * a ∧
    16777215 * a ≤ 16777216 * (round24 a b * b) := by
  have hq0 : a / b ≠ 0 := by
    have : 0 < 2 ^ 23 := by norm_num
    omega
  obtain ⟨e1, e2⟩ := ilog2_spec (a / b) hq0 h256
  have he : 23 < ilog2 (a / b) + 1 :=
    (Nat.pow_lt_pow_iff_right (by decide)).1 (lt_of_le_of_lt h23 e2)
  have hu : 0 < 2 ^ (ilog2 (a / b) - 23) := pow_pos (by decide) _
  have hpow : 2 ^ 23 * 2 ^ (ilog2 (a / b) - 23) = 2 ^ ilog2 (a / b) := by
    rw [← pow_add]
    congr 1
    omega
  have hY : 8388608 * (b * 2 ^ (ilog2 (a / b) - 23)) ≤ a := by
    have h1 : 2 ^ ilog2 (a / b) * b ≤ a := (Nat.le_div_iff_mul_le hb).1 e1
    calc 8388608 * (b * 2 ^ (ilog2 (a / b) - 23))
        = 2 ^ 23 * 2 ^ (ilog2 (a / b) - 23) * b := by ring
      _ = 2 ^ ilog2 (a / b) * b := by rw [hpow]
      _ ≤ a := h1
  obtain ⟨r1, r2⟩ := rne_bounds a (b * 2 ^ (ilog2 (a / b) - 23)) (Nat.mul_pos hb hu)
  unfold round24
  have hX : rne a (b * 2 ^ (ilog2 (a / b) - 23)) * 2 ^ (ilog2 (a / b) - 23) * b
      = rne a (b * 2 ^ (ilog2 (a / b) - 23)) * (b * 2 ^ (ilog2 (a / b) - 23)) := by ring
  rw [hX]
  constructor <;> omega

/-- A value with at most 24 significant bits is not changed by rounding. -/
theorem round24_exact (q b m j : Nat) (hb : 0 < b) (hq : q = m * 2 ^ j) (hm : m < 2 ^ 24)
    (h256 : q < 2 ^ 256) : round24 (q * b) b = q := by
  unfold round24
  rw [Nat.mul_div_cancel q hb]
  by_cases hq0 : q = 0
  · rw [hq0, ilog2_zero]
    simp [rne, hb]
  · obtain ⟨e1, e2⟩ := ilog2_spec q hq0 h256
    have hlt : 2 ^ ilog2 q < 2 ^ (24 + j) := by
      calc 2 ^ ilog2 q ≤ q := e1
        _ = m * 2 ^ j := hq
        _ < 2 ^ 24 * 2 ^ j := Nat.mul_lt_mul_of_pos_right hm (pow_pos (by decide) _)
        _ = 2 ^ (24 + j) := by rw [pow_add]
    have he : ilog2 q < 24 + j := (Nat.pow_lt_pow_iff_right (by decide)).1 hlt
    have h2j : 2 ^ (ilog2 q - 23) ∣ 2 ^ j := pow_dvd_pow 2 (by omega)
    have hdvd : 2 ^ (ilog2 q - 23) ∣ q := Dvd.dvd.trans h2j ⟨m, by rw [hq, Nat.mul_comm]⟩
    have hu : 0 < 2 ^ (ilog2 q - 23) := pow_pos (by decide) _
    generalize 2 ^ (ilog2 q - 23) = u at hdvd hu ⊢
    obtain ⟨t, ht⟩ := hdvd
    have e : q * b = t * (b * u) := by
      rw [ht]
      ring
    rw [e, rne_of_dvd t _ (Nat.mul_pos hb hu), ht, Nat.mul_comm]

/-- The result of rounding has at most 24 significant bits. -/
theorem round24_repr (a b : Nat) (h256 : a / b < 2 ^ 256) :
    ∃ m j, round24 a b = m * 2 ^ j ∧ m < 2 ^ 24 := by
  have hu : 0 < 2 ^ (ilog2 (a / b) - 23) := pow_pos (by decide) _
  have hle := rne_le a (b * 2 ^ (ilog2 (a / b) - 23))
  have hdiv : a / (b * 2 ^ (ilog2 (a / b) - 23)) < 2 ^ 24 := by
    rw [← Nat.div_div_eq_div_mul, Nat.div_lt_iff_lt_mul hu]
    by_cases hq0 : a / b = 0
    · have : 0 < 2 ^ 24 * 2 ^ (ilog2 (a / b) - 23) := Nat.mul_pos (by norm_num) hu
      omega
    · obtain ⟨_, e2⟩ := ilog2_spec (a / b) hq0 h256
      refine lt_of_lt_of_le e2 ?_
      rw [← pow_add]
      exact Nat.pow_le_pow_right (by decide) (by omega)
  by_cases hm : rne a (b * 2 ^ (ilog2 (a / b) - 23)) < 2 ^ 24
  · exact ⟨_, _, rfl, hm⟩
  · have e : rne a (b * 2 ^ (ilog2 (a / b) - 23)) = 2 ^ 24 := by omega
    refine ⟨1, 24 + (ilog2 (a / b) - 23), ?_, by norm_num⟩
    unfold round24
    rw [e, Nat.one_mul, pow_add]

theorem floatOfNat_exact (n : Nat) (h : n < 2 ^ 24) : floatOfNat n = n * fscale := by
  unfold floatOfNat
  have h256 : n * fscale < 2 ^ 256 := by
    unfold fscale
    calc n * 2 ^ 64 < 2 ^ 24 * 2 ^ 64 := Nat.mul_lt_mul_of_pos_right h (by norm_num)
      _ < 2 ^ 256 := by norm_num
  have := round24_exact (n * fscale) 1 n 64 (by decide) rfl h h256
  rw [Nat.mul_one] at this
  exact this

theorem floatOfNat_zero : floatOfNat 0 = 0 := by decide

theorem floatMul_zero (q : Nat) : floatMul 0 q = 0 := by
  unfold floatMul
  rw [Nat.zero_mul]
  decide

theorem floatBand_zero (dim delay : Nat) : floatBand dim delay 0 = 0 := by
  unfold floatBand
  rw [floatOfNat_zero, floatMul_zero]
  decide

/-- The quotient `(float) dim / (float) delay` for `dim, delay < 2^24`: relative error at
most `2^-24`, and the size of the result. -/
theorem floatDiv_error (dim delay : Nat) (hdim : 1 ≤ dim) (hdim2 : dim < 2 ^ 24)
    (h1 : 1 ≤ delay) (hd : delay < 2 ^ 24) :
    16777216 * (floatDiv (floatOfNat dim) (floatOfNat delay) * delay)
      ≤ 16777217 * (dim * fscale) ∧
    16777215 * (dim * fscale)
      ≤ 16777216 * (floatDiv (floatOfNat dim) (floatOfNat delay) * delay) ∧
    (dim * fscale * fscale) / (delay * fscale) < 2 ^ 256 := by
  rw [floatOfNat_exact dim hdim2, floatOfNat_exact delay hd]
  unfold floatDiv
  have hS : 0 < fscale := by decide
  have hSv : fscale = 18446744073709551616 := by decide
  have hb : 0 < delay * fscale := Nat.mul_pos h1 hS
  have hdiv : dim * fscale * fscale / (delay * fscale) = dim * fscale / delay :=
    Nat.mul_div_mul_right _ _ hS
  have h23 : 2 ^ 23 ≤ dim * fscale * fscale / (delay * fscale) := by
    rw [hdiv, Nat.le_div_iff_mul_le h1]
    calc 2 ^ 23 * delay ≤ 2 ^ 23 * 2 ^ 24 := Nat.mul_le_mul_left _ (le_of_lt hd)
      _ ≤ 1 * fscale := by rw [hSv]; norm_num
      _ ≤ dim * fscale := Nat.mul_le_mul_right _ hdim
  have h256 : dim * fscale * fscale / (delay * fscale) < 2 ^ 256 := by
    rw [hdiv]
    calc dim * fscale / delay ≤ dim * fscale := Nat.div_le_self _ _
      _ < 2 ^ 24 * fscale := Nat.mul_lt_mul_of_pos_right hdim2 hS
      _ < 2 ^ 256 := by rw [hSv]; norm_num
  obtain ⟨a1, a2⟩ := round24_error _ _ hb h23 h256
  refine ⟨?_, ?_, h256⟩
  · have e1 : 16777216 * (round24 (dim * fscale * fscale) (delay * fscale) * (delay * fscale))
        = 16777216 * (round24 (dim * fscale * fscale) (delay * fscale) * delay) * fscale := by
      ring
    have e2 : 16777217 * (dim * fscale * fscale) = 16777217 * (dim * fscale) * fscale := by ring
    rw [e1, e2] at a1
    exact Nat.le_of_mul_le_mul_right a1 hS
  · have e1 : 16777216 * (round24 (dim * fscale * fscale) (delay * fscale) * (delay * fscale))
        = 16777216 * (round24 (dim * fscale * fscale) (delay * fscale) * delay) * fscale := by
      ring
    have e2 : 16777215 * (dim * fscale * fscale) = 16777215 * (dim * fscale) * fscale := by ring
    rw [e1, e2] at a2
    exact Nat.le_of_mul_le_mul_right a2 hS

/-- The product `k * ((float) dim / (float) delay)` for `dim, delay, k < 2^24`, as the
fixed-point value `p` with `floatBand dim delay k = p / 2^64`: `p * delay` lies within the
factors `(1 - 2^-24)^2` and `(1 + 2^-24)^2` of `k * dim`. -/
theorem floatBand_error (dim delay k : Nat) (hdim : 1 ≤ dim) (hdim2 : dim < 2 ^ 24)
    (h1 : 1 ≤ delay) (hd : delay < 2 ^ 24) (hk : 1 ≤ k) (hk2 : k < 2 ^ 24) :
    ∃ p, floatBand dim delay k = p / fscale ∧
      281474976710656 * (p * delay) ≤ 281475010265089 * (k * dim * fscale) ∧
      281474943156225 * (k * dim * fscale) ≤ 281474976710656 * (p * delay) := by
  obtain ⟨q1, q2, _⟩ := floatDiv_error dim delay hdim hdim2 h1 hd
  have hS : 0 < fscale := by decide
  have hSv : fscale = 18446744073709551616 := by decide
  refine ⟨floatMul (floatOfNat k) (floatDiv (floatOfNat dim) (floatOfNat delay)), rfl, ?_⟩
  generalize floatDiv (floatOfNat dim) (floatOfNat delay) = q at q1 q2 ⊢
  rw [floatOfNat_exact k hk2]
  unfold floatMul
  have hdiv : k * fscale * q / fscale = k * q := by
    rw [Nat.mul_right_comm, Nat.mul_div_cancel _ hS]
  -- size of `q`
  have hqd : q ≤ q * delay := Nat.le_mul_of_pos_right _ h1
  have hdimS : dim * fscale < 2 ^ 24 * fscale := Nat.mul_lt_mul_of_pos_right hdim2 hS
  have hq_hi : q < 2 ^ 90 := by
    rw [hSv] at q1 hdimS
    norm_num at hdimS ⊢
    omega
  have hq_lo : 2 ^ 23 ≤ q := by
    by_contra hcon
    have hq : q ≤ 2 ^ 23 := by omega
    have h3 : q * delay ≤ 2 ^ 23 * 2 ^ 24 := Nat.mul_le_mul hq (le_of_lt hd)
    have h4 : 1 * fscale ≤ dim * fscale := Nat.mul_le_mul_right _ hdim
    rw [hSv] at q2 h4
    norm_num at h3
    omega
  have h23 : 2 ^ 23 ≤ k * fscale * q / fscale := by
    rw [hdiv]
    calc 2 ^ 23 ≤ q := hq_lo
      _ ≤ k * q := Nat.le_mul_of_pos_left _ hk
  have h256 : k * fscale * q / fscale < 2 ^ 256 := by
    rw [hdiv]
    calc k * q < 2 ^ 24 * 2 ^ 90 :=
          Nat.mul_lt_mul_of_lt_of_le hk2 (le_of_lt hq_hi) (by norm_num)
      _ < 2 ^ 256 := by norm_num
  obtain ⟨a1, a2⟩ := round24_error _ _ hS h23 h256
  generalize round24 (k * fscale * q) fscale = p at a1 a2 ⊢
  have e1 : 16777217 * (k * fscale * q) = 16777217 * (k * q) * fscale := by ring
  have e2 : 16777216 * (p * fscale) = 16777216 * p * fscale := by ring
  have e3 : 16777215 * (k * fscale * q) = 16777215 * (k * q) * fscale := by ring
  rw [e1, e2] at a1
  rw [e3, e2] at a2
  have b1 := Nat.le_of_mul_le_mul_right a1 hS
  have b2 := Nat.le_of_mul_le_mul_right a2 hS
  constructor
  · calc 281474976710656 * (p * delay)
        = (16777216 * p) * (16777216 * delay) := by ring
      _ ≤ (16777217 * (k * q)) * (16777216 * delay) := Nat.mul_le_mul_right _ b1
      _ = 16777217 * k * (16777216 * (q * delay)) := by ring
      _ ≤ 16777217 * k * (16777217 * (dim * fscale)) := Nat.mul_le_mul_left _ q1
      _ = 281475010265089 * (k * dim * fscale) := by ring
  · calc 281474943156225 * (k * dim * fscale)
        = 16777215 * k * (16777215 * (dim * fscale)) := by ring
      _ ≤ 16777215 * k * (16777216 * (q * delay)) := Nat.mul_le_mul_left _ q2
      _ = (16777215 * (k * q)) * (16777216 * delay) := by ring
      _ ≤ (16777216 * p) * (16777216 * delay) := Nat.mul_le_mul_right _ b2
      _ = 281474976710656 * (p * delay) := by ring

/-- The binary32 bound lies below an integer `y` that the exact bound misses by the gap
`g`: if `k*dim + g ≤ y*delay` and the rounding error is smaller than the gap. -/
theorem floatBand_lt (dim delay k y g : Nat) (hdim : 1 ≤ dim) (hdim2 : dim < 2 ^ 24)
    (h1 : 1 ≤ delay) (hd : delay < 2 ^ 24) (hk2 : k < 2 ^ 24)
    (hgap : k * dim + g ≤ y * delay)
    (herr : 33554433 * (y * delay) < 281475010265089 * g) :
    floatBand dim delay k < y := by
  by_cases hk : k = 0
  · subst hk
    rw [floatBand_zero]
    rcases Nat.eq_zero_or_pos y with h | h
    · rw [h, Nat.zero_mul] at hgap herr
      omega
    · exact h
  · obtain ⟨p, e, u, _⟩ := floatBand_error dim delay k hdim hdim2 h1 hd (by omega) hk2
    have hS : 0 < fscale := by decide
    rw [e, Nat.div_lt_iff_lt_mul hS]
    by_contra hcon
    have h3 : y * fscale ≤ p := Nat.le_of_not_lt hcon
    have h4 : 281474976710656 * (y * fscale * delay) ≤ 281474976710656 * (p * delay) :=
      Nat.mul_le_mul_left _ (Nat.mul_le_mul_right _ h3)
    have h5 : 281474976710656 * (y * delay) * fscale ≤ 281475010265089 * (k * dim) * fscale := by
      calc 281474976710656 * (y * delay) * fscale
          = 281474976710656 * (y * fscale * delay) := by ring
        _ ≤ 281474976710656 * (p * delay) := h4
        _ ≤ 281475010265089 * (k * dim * fscale) := u
        _ = 281475010265089 * (k * dim) * fscale := by ring
    have h6 := Nat.le_of_mul_le_mul_right h5 hS
    omega

/-- The binary32 bound reaches an integer `y` that the exact bound exceeds by the gap `g`:
if `y*delay + g ≤ k*dim` and the rounding error is smaller than the gap. -/
theorem le_floatBand (dim delay k y g : Nat) (hdim : 1 ≤ dim) (hdim2 : dim < 2 ^ 24)
    (h1 : 1 ≤ delay) (hd : delay < 2 ^ 24) (hk2 : k < 2 ^ 24)
    (hgap : y * delay + g ≤ k * dim)
    (herr : 33554431 * (y * delay) ≤ 281474943156225 * g) :
    y ≤ floatBand dim delay k := by
  by_cases hk : k = 0
  · subst hk
    rw [Nat.zero_mul] at hgap
    have : y * delay = 0 := by omega
    rcases Nat.mul_eq_zero.1 this with h | h
    · rw [h]
      exact Nat.zero_le _
    · omega
  · obtain ⟨p, e, _, l⟩ := floatBand_error dim delay k hdim hdim2 h1 hd (by omega) hk2
    have hS : 0 < fscale := by decide
    rw [e, Nat.le_div_iff_mul_le hS]
    by_contra hcon
    have h3 : p + 1 ≤ y * fscale := by omega
    have h4 : 281474976710656 * ((p + 1) * delay) ≤ 281474976710656 * (y * fscale * delay) :=
      Nat.mul_le_mul_left _ (Nat.mul_le_mul_right _ h3)
    have h5 : 281474943156225 * (k * dim) * fscale
        < 281474976710656 * (y * delay) * fscale := by
      calc 281474943156225 * (k * dim) * fscale
          = 281474943156225 * (k * dim * fscale) := by ring
        _ ≤ 281474976710656 * (p * delay) := l
        _ < 281474976710656 * ((p + 1) * delay) := by
            apply Nat.mul_lt_mul_of_pos_left _ (by norm_num)
            rw [Nat.add_mul, Nat.one_mul]
            omega
        _ ≤ 281474976710656 * (y * fscale * delay) := h4
        _ = 281474976710656 * (y * delay) * fscale := by ring
    have h6 := Nat.lt_of_mul_lt_mul_right h5
    omega

/-- The first bound `(int) ((float) dim / (float) delay)` of the forward loops is the
bound for `k = 1`: the product `1 * q` is `q`. -/
theorem floatBand_one (dim delay : Nat) (hdim : 1 ≤ dim) (hdim2 : dim < 2 ^ 24)
    (h1 : 1 ≤ delay) (hd : delay < 2 ^ 24) :
    floatBand dim delay 1 = floatToInt (floatDiv (floatOfNat dim) (floatOfNat delay)) := by
  obtain ⟨q1, _, h256⟩ := floatDiv_error dim delay hdim hdim2 h1 hd
  have hS : 0 < fscale := by decide
  have hSv : fscale = 18446744073709551616 := by decide
  have hrepr : ∃ m j, floatDiv (floatOfNat dim) (floatOfNat delay) = m * 2 ^ j ∧ m < 2 ^ 24 := by
    rw [floatOfNat_exact dim hdim2, floatOfNat_exact delay hd]
    exact round24_repr _ _ h256
  obtain ⟨m, j, hq, hm⟩ := hrepr
  unfold floatBand
  generalize floatDiv (floatOfNat dim) (floatOfNat delay) = q at q1 hq ⊢
  have hqd : q ≤ q * delay := Nat.le_mul_of_pos_right _ h1
  have hdimS : dim * fscale < 2 ^ 24 * fscale := Nat.mul_lt_mul_of_pos_right hdim2 hS
  have hq_hi : q < 2 ^ 256 := by
    rw [hSv] at q1 hdimS
    norm_num at hdimS ⊢
    omega
  rw [floatOfNat_exact 1 (by norm_num), Nat.one_mul]
  unfold floatMul
  rw [Nat.mul_comm fscale q, round24_exact q fscale m j hS hq hm hq_hi]

/-- For `k ≤ delay` the binary32 bound does not exceed `dim`. -/
theorem floatBand_le_dim (dim delay k : Nat) (hdim : 1 ≤ dim) (hdim2 : dim < 2 ^ 23)
    (h1 : 1 ≤ delay) (hd : delay < 2 ^ 24) (hk : k ≤ delay) :
    floatBand dim delay k ≤ dim := by
  have h23 : (2 : Nat) ^ 23 = 8388608 := by norm_num
  have h24 : (2 : Nat) ^ 24 = 16777216 := by norm_num
  have hkd : k * dim ≤ delay * dim := Nat.mul_le_mul_right _ hk
  have e : (dim + 1) * delay = delay * dim + delay := by ring
  have hpos : 0 < delay := h1
  have hmul : dim * delay ≤ 8388607 * delay := Nat.mul_le_mul_right _ (by omega)
  have e2 : delay * dim = dim * delay := Nat.mul_comm _ _
  have := floatBand_lt dim delay k (dim + 1) delay hdim (by omega) h1 hd (by omega)
    (by omega) (by omega)
  omega

/-- For `k < delay ≤ 2^23` the binary32 bound stays below `dim`. -/
theorem floatBand_lt_dim (dim delay k : Nat) (hdim : 1 ≤ dim) (hdim2 : dim < 2 ^ 24)
    (hd : delay ≤ 2 ^ 23) (hk : k < delay) :
    floatBand dim delay k < dim := by
  have h23 : (2 : Nat) ^ 23 = 8388608 := by norm_num
  have h24 : (2 : Nat) ^ 24 = 16777216 := by norm_num
  have hkd : (k + 1) * dim ≤ delay * dim := Nat.mul_le_mul_right _ hk
  have e : (k + 1) * dim = k * dim + dim := by ring
  have e2 : delay * dim = dim * delay := Nat.mul_comm _ _
  have hmul : dim * delay ≤ dim * 8388608 := Nat.mul_le_mul_left _ (by omega)
  exact floatBand_lt dim delay k dim dim hdim hdim2 (by omega) (by omega) (by omega)
    (by omega) (by omega)

/-- For every `delay ≤ 72` the binary32 bounds on `frameHeight = 720` are the exact ones. -/
theorem floatBand_exact_rows :
    ∀ delay, delay < 73 → ∀ k, k < delay + 1 →
      floatBand 720 delay k = exactBand 720 delay k := by
  decide!

/-! ### The machine loops and the step lists -/

theorem copyLoop32_spec (stride n : Nat) (fuel : Nat) :
    ∀ (x i : Nat) (out : List Nat), n - x < fuel → i + (n - x) * stride < 2 ^ 32 →
      copyLoop32 stride n fuel x i out
        = some (out ++ (List.range (n - x)).map (fun t => i + t * stride)) := by
  induction fuel with
  | zero => intro x i out h; omega
  | succ fuel ih =>
    intro x i out hf hi
    unfold copyLoop32
    by_cases hx : x < n
    · rw [if_pos hx]
      have e : n - x = (n - (x + 1)) + 1 := by omega
      have hs : i + stride < 2 ^ 32 := by
        rw [e, Nat.add_mul, Nat.one_mul] at hi
        omega
      have hu : uadd32 i stride = i + stride := by
        unfold uadd32 uintSize
        exact Nat.mod_eq_of_lt hs
      rw [hu, ih (x + 1) (i + stride) (out ++ [i]) (by omega) (by
        rw [e, Nat.add_mul, Nat.one_mul] at hi
        omega)]
      rw [e, List.range_succ_eq_map, List.map_cons, List.map_map, List.append_assoc]
      congr 2
      simp only [Nat.zero_mul, Nat.add_zero, List.singleton_append, List.cons.injEq, true_and]
      apply List.map_congr_left
      intro t _
      simp only [Function.comp, Nat.succ_eq_add_one, Nat.add_mul, Nat.one_mul]
      omega
    · rw [if_neg hx]
      have e : n - x = 0 := by omega
      rw [e]
      simp

theorem rowLine32_spec (W fuel r : Nat) (hf : W < fuel) (hr : r * W + W < 2 ^ 32) :
    rowLine32 W fuel r = some (rowPixels (r * W) W) := by
  unfold rowLine32
  have hu : umul32 r W = r * W := by
    unfold umul32 uintSize
    exact Nat.mod_eq_of_lt (by omega)
  rw [hu, copyLoop32_spec 1 W fuel 0 (r * W) [] (by omega) (by omega)]
  simp [rowPixels]

theorem colLine32_spec (W H fuel c : Nat) (hf : H < fuel) (hc : c + H * W < 2 ^ 32) :
    colLine32 W H fuel c = some (colPixels W H c) := by
  unfold colLine32
  rw [copyLoop32_spec W H fuel 0 c [] (by omega) (by rw [Nat.sub_zero]; exact hc)]
  simp [colPixels]

theorem rangeUp_cons (x last : Nat) (h : x < last) :
    rangeUp x last = x :: rangeUp (x + 1) last := by
  unfold rangeUp
  have e : last - x = (last - (x + 1)) + 1 := by omega
  rw [e, List.range'_succ]

theorem rangeUp_nil (x last : Nat) (h : ¬ x < last) : rangeUp x last = [] := by
  unfold rangeUp
  have e : last - x = 0 := by omega
  rw [e]
  rfl

theorem rangeDown_cons (x last : Nat) (h : x > last) :
    rangeDown x last = x :: rangeDown (x - 1) last := by
  unfold rangeDown
  have e : x - last = (x - 1 - last) + 1 := by omega
  rw [e, List.range_succ_eq_map, List.map_cons, List.map_map]
  congr 1
  apply List.map_congr_left
  intro t _
  simp only [Function.comp, Nat.succ_eq_add_one]
  omega

theorem rangeDown_nil (x last : Nat) (h : ¬ x > last) : rangeDown x last = [] := by
  unfold rangeDown
  have e : x - last = 0 := by omega
  rw [e]
  rfl

theorem linesUp32_spec (line : Nat → Nat → Option (List Nat)) (lineOf : Nat → List Nat)
    (last F0 : Nat) (hlast : last < 2 ^ 32) (fuel : Nat) :
    ∀ (x : Nat) (out : List Nat), F0 + (last - x) < fuel →
      (∀ y f, x ≤ y → y < last → F0 ≤ f → line f y = some (lineOf y)) →
      linesUp32 line last fuel x out = some (out ++ (rangeUp x last).flatMap lineOf) := by
  induction fuel with
  | zero => intro x out h; omega
  | succ fuel ih =>
    intro x out hf hline
    unfold linesUp32
    by_cases hx : x < last
    · rw [if_pos hx, hline x fuel (le_refl x) hx (by omega)]
      have hu : uadd32 x 1 = x + 1 := by
        unfold uadd32 uintSize
        exact Nat.mod_eq_of_lt (by omega)
      simp only [hu]
      rw [ih (x + 1) _ (by omega) (fun y f h1 h2 h3 => hline y f (by omega) h2 h3),
        rangeUp_cons x last hx, List.flatMap_cons, List.append_assoc]
    · rw [if_neg hx, rangeUp_nil x last hx]
      simp

theorem linesDown32_spec (line : Nat → Nat → Option (List Nat)) (lineOf : Nat → List Nat)
    (last F0 : Nat) (fuel : Nat) :
    ∀ (x : Nat) (out : List Nat), x < 2 ^ 32 → F0 + (x - last) < fuel →
      (∀ y f, last < y → y ≤ x → F0 ≤ f → line f y = some (lineOf y)) →
      linesDown32 line last fuel x out = some (out ++ (rangeDown x last).flatMap lineOf) := by
  induction fuel with
  | zero => intro x out _ h; omega
  | succ fuel ih =>
    intro x out hx32 hf hline
    unfold linesDown32
    by_cases hx : x > last
    · rw [if_pos hx, hline x fuel hx (le_refl x) (by omega)]
      have hu : usub32 x 1 = x - 1 := by
        unfold usub32 uintSize
        omega
      simp only [hu]
      rw [ih (x - 1) _ (by omega) (by omega) (fun y f h1 h2 h3 => hline y f h1 (by omega) h3),
        rangeDown_cons x last hx, List.flatMap_cons, List.append_assoc]
    · rw [if_neg hx, rangeDown_nil x last hx]
      simp

theorem nextSlot32_eq (maxDelay w : Nat) (hN : maxDelay + 2 < 2 ^ 31) (hw : w < maxDelay + 2) :
    nextSlot32 maxDelay (w : Int) = ((nextSlot maxDelay w : Nat) : Int) := by
  unfold nextSlot32 nextSlot
  have h1 : toU32 ((w : Int) + 1) = w + 1 := by
    unfold toU32
    omega
  have h2 : uadd32 maxDelay 2 = maxDelay + 2 := by
    unfold uadd32 uintSize
    omega
  rw [h1, h2]
  split_ifs <;> simp

theorem outerLoop32_spec (maxDelay delay : Nat) (lastOf32 lastOf : Nat → Nat)
    (lines : Nat → Nat → Nat → Option (List Nat)) (body : Nat → Nat → List Nat) (F0 : Nat)
    (hN : maxDelay + 2 < 2 ^ 31) (hd32 : delay < 2 ^ 32) (fuel : Nat) :
    ∀ (d w first : Nat) (acc : List Step), w < maxDelay + 2 → F0 + (delay - d) < fuel →
      (∀ j, d ≤ j → j < delay → lastOf32 j = lastOf j) →
      (∀ j f, d ≤ j → j < delay → F0 ≤ f →
        lines f (if j = d then first else lastOf (j - 1)) (lastOf j)
          = some (body (if j = d then first else lastOf (j - 1)) (lastOf j))) →
      outerLoop32 maxDelay delay lastOf32 lines fuel d (w : Int) first acc
        = some (acc ++ bandLoop maxDelay lastOf body (delay - d) d w first) := by
  induction fuel with
  | zero => intro d w first acc _ h; omega
  | succ fuel ih =>
    intro d w first acc hw hf hlast hlines
    unfold outerLoop32
    by_cases hd : d < delay
    · rw [if_pos hd, hlast d (le_refl d) hd]
      have h0 := hlines d fuel (le_refl d) hd (by omega)
      rw [if_pos rfl] at h0
      rw [h0]
      have hu : uadd32 d 1 = d + 1 := by
        unfold uadd32 uintSize
        exact Nat.mod_eq_of_lt (by omega)
      simp only [hu, nextSlot32_eq maxDelay w hN hw, Int.toNat_ofNat]
      rw [ih (d + 1) (nextSlot maxDelay w) (lastOf d) _ (nextSlot_lt maxDelay w) (by omega)
        (fun j h1 h2 => hlast j (by omega) h2) (by
          intro j f h1 h2 h3
          have := hlines j f (by omega) h2 h3
          rw [if_neg (by omega)] at this
          split_ifs with e
          · have e2 : j - 1 = d := by omega
            rw [e2] at this
            exact this
          · exact this)]
      have e : delay - d = (delay - (d + 1)) + 1 := by omega
      rw [e, bandLoop_succ, List.append_assoc]
      rfl
    · rw [if_neg hd]
      have e : delay - d = 0 := by omega
      rw [e]
      simp [bandLoop]

theorem usub32_eq (a b : Nat) (ha : a < 2 ^ 32) (hb : b ≤ a) : usub32 a b = a - b := by
  unfold usub32 uintSize
  omega

theorem uadd32_eq (a b : Nat) (h : a + b < 2 ^ 32) : uadd32 a b = a + b := by
  unfold uadd32 uintSize
  exact Nat.mod_eq_of_lt h

/-- With enough fuel the run of `computeHorizontal` ends, and its iterations are the steps
of `computeHorizontalSteps` with the binary32 bounds. -/
theorem computeHorizontal32_spec (W H maxDelay delay cd fuel : Nat)
    (hW : 1 ≤ W) (hH : 1 ≤ H) (hH2 : H < 2 ^ 23) (hWH : W + W * H < 2 ^ 32)
    (hN : maxDelay + 2 < 2 ^ 31) (h1 : 1 ≤ delay) (hd : delay ≤ 2 ^ 23)
    (hc : cd < maxDelay + 2) (hf : W + H + delay + 3 ≤ fuel) :
    computeHorizontal32 W H maxDelay delay (cd : Int) fuel
      = some (computeHorizontalSteps floatBand W H maxDelay delay cd) := by
  have h23 : (2 : Nat) ^ 23 = 8388608 := by norm_num
  have h24 : (2 : Nat) ^ 24 = 16777216 := by norm_num
  have h32 : (2 : Nat) ^ 32 = 4294967296 := by norm_num
  unfold computeHorizontal32 computeHorizontalSteps
  rw [← floatBand_one H delay hH (by omega) h1 (by omega)]
  rw [outerLoop32_spec maxDelay delay _ (fun d => floatBand H delay (d + 1)) _
    (fun first last => (rangeUp first last).flatMap (fun r => rowPixels (r * W) W))
    (W + H + 2) hN (by omega) fuel 1 cd _ [] hc (by omega)
    (fun j _ h2 => by
      show floatBand H delay (uadd32 j 1) = floatBand H delay (j + 1)
      rw [uadd32_eq j 1 (by omega)])
    (fun j f hj1 hj2 hf0 => by
      have hl : floatBand H delay (j + 1) ≤ H :=
        floatBand_le_dim H delay (j + 1) hH hH2 h1 (by omega) (by omega)
      have e := linesUp32_spec (rowLine32 W) (fun r => rowPixels (r * W) W)
        (floatBand H delay (j + 1)) (W + 1) (by omega) f
        (if j = 1 then floatBand H delay 1 else floatBand H delay (j - 1 + 1)) []
        (by omega)
        (fun y f1 _ hy2 hf1 => rowLine32_spec W f1 y (by omega) (by
          have : y * W + W = W * (y + 1) := by ring
          have h3 : W * (y + 1) ≤ W * H := Nat.mul_le_mul_left _ (by omega)
          omega))
      rw [List.nil_append] at e
      exact e)]
  rfl

/-- With enough fuel the run of `computeHorizontalReverse` ends, and its iterations are the
steps of `computeHorizontalReverseSteps` with the binary32 bounds. -/
theorem computeHorizontalReverse32_spec (W H maxDelay delay cd fuel : Nat)
    (hW : 1 ≤ W) (hH : 1 ≤ H) (hH2 : H < 2 ^ 23) (hWH : W + W * H < 2 ^ 32)
    (hN : maxDelay + 2 < 2 ^ 31) (h1 : 1 ≤ delay) (hd : delay ≤ 2 ^ 23)
    (hc : cd < maxDelay + 2) (hf : W + H + delay + 3 ≤ fuel) :
    computeHorizontalReverse32 W H maxDelay delay (cd : Int) fuel
      = some (computeHorizontalReverseSteps floatBand W H maxDelay delay cd) := by
  have h23 : (2 : Nat) ^ 23 = 8388608 := by norm_num
  have h24 : (2 : Nat) ^ 24 = 16777216 := by norm_num
  have h32 : (2 : Nat) ^ 32 = 4294967296 := by norm_num
  unfold computeHorizontalReverse32 computeHorizontalReverseSteps
  rw [usub32_eq delay 1 (by omega) h1]
  rw [outerLoop32_spec maxDelay delay _ (fun d => floatBand H delay (delay - (d + 1))) _
    (fun first last => (rangeDown first last).flatMap (fun r => rowPixels (r * W) W))
    (W + H + 2) hN (by omega) fuel 1 cd _ [] hc (by omega)
    (fun j _ h2 => by
      show floatBand H delay (usub32 delay (uadd32 j 1)) = floatBand H delay (delay - (j + 1))
      rw [uadd32_eq j 1 (by omega), usub32_eq delay (j + 1) (by omega) (by omega)])
    (fun j f hj1 hj2 hf0 => by
      have hs : (if j = 1 then floatBand H delay (delay - 1)
          else floatBand H delay (delay - (j - 1 + 1))) < H := by
        split_ifs
        · exact floatBand_lt_dim H delay _ hH (by omega) hd (by omega)
        · exact floatBand_lt_dim H delay _ hH (by omega) hd (by omega)
      have e := linesDown32_spec (rowLine32 W) (fun r => rowPixels (r * W) W)
        (floatBand H delay (delay - (j + 1))) (W + 1) f
        (if j = 1 then floatBand H delay (delay - 1)
          else floatBand H delay (delay - (j - 1 + 1))) []
        (by omega) (by omega)
        (fun y f1 _ hy2 hf1 => rowLine32_spec W f1 y (by omega) (by
          have : y * W + W = W * (y + 1) := by ring
          have h3 : W * (y + 1) ≤ W * H := Nat.mul_le_mul_left _ (by omega)
          omega))
      rw [List.nil_append] at e
      exact e)]
  rfl

/-- With enough fuel the run of `computeVertical` ends, and its iterations are the steps of
`computeVerticalSteps` with the binary32 bounds. -/
theorem computeVertical32_spec (W H maxDelay delay cd fuel : Nat)
    (hW : 1 ≤ W) (hW2 : W < 2 ^ 23) (hWH : W + W * H < 2 ^ 32)
    (hN : maxDelay + 2 < 2 ^ 31) (h1 : 1 ≤ delay) (hd : delay ≤ 2 ^ 23)
    (hc : cd < maxDelay + 2) (hf : W + H + delay + 3 ≤ fuel) :
    computeVertical32 W H maxDelay delay (cd : Int) fuel
      = some (computeVerticalSteps floatBand W H maxDelay delay cd) := by
  have h23 : (2 : Nat) ^ 23 = 8388608 := by norm_num
  have h24 : (2 : Nat) ^ 24 = 16777216 := by norm_num
  have h32 : (2 : Nat) ^ 32 = 4294967296 := by norm_num
  unfold computeVertical32 computeVerticalSteps
  rw [← floatBand_one W delay hW (by omega) h1 (by omega)]
  rw [outerLoop32_spec maxDelay delay _ (fun d => floatBand W delay (d + 1)) _
    (fun first last => (rangeUp first last).flatMap (fun c => colPixels W H c))
    (W + H + 2) hN (by omega) fuel 1 cd _ [] hc (by omega)
    (fun j _ h2 => by
      show floatBand W delay (uadd32 j 1) = floatBand W delay (j + 1)
      rw [uadd32_eq j 1 (by omega)])
    (fun j f hj1 hj2 hf0 => by
      have hl : floatBand W delay (j + 1) ≤ W :=
        floatBand_le_dim W delay (j + 1) hW hW2 h1 (by omega) (by omega)
      have e := linesUp32_spec (colLine32 W H) (fun c => colPixels W H c)
        (floatBand W delay (j + 1)) (H + 1) (by omega) f
        (if j = 1 then floatBand W delay 1 else floatBand W delay (j - 1 + 1)) []
        (by omega)
        (fun y f1 _ hy2 hf1 => colLine32_spec W H f1 y (by omega) (by
          have : H * W = W * H := Nat.mul_comm _ _
          omega))
      rw [List.nil_append] at e
      exact e)]
  rfl

/-- With enough fuel the run of `computeVerticalReverse` ends, and its iterations are the
steps of `computeVerticalReverseSteps` with the binary32 bounds. -/
theorem computeVerticalReverse32_spec (W H maxDelay delay cd fuel : Nat)
    (hW : 1 ≤ W) (hW2 : W < 2 ^ 23) (hWH : W + W * H < 2 ^ 32)
    (hN : maxDelay + 2 < 2 ^ 31) (h1 : 1 ≤ delay) (hd : delay ≤ 2 ^ 23)
    (hc : cd < maxDelay + 2) (hf : W + H + delay + 3 ≤ fuel) :
    computeVerticalReverse32 W H maxDelay delay (cd : Int) fuel
      = some (computeVerticalReverseSteps floatBand W H maxDelay delay cd) := by
  have h23 : (2 : Nat) ^ 23 = 8388608 := by norm_num
  have h24 : (2 : Nat) ^ 24 = 16777216 := by norm_num
  have h32 : (2 : Nat) ^ 32 = 4294967296 := by norm_num
  unfold computeVerticalReverse32 computeVerticalReverseSteps
  rw [usub32_eq delay 1 (by omega) h1]
  rw [outerLoop32_spec maxDelay delay _ (fun d => floatBand W delay (delay - (d + 1))) _
    (fun first last => (rangeDown first last).flatMap (fun c => colPixels W H c))
    (W + H + 2) hN (by omega) fuel 1 cd _ [] hc (by omega)
    (fun j _ h2 => by
      show floatBand W delay (usub32 delay (uadd32 j 1)) = floatBand W delay (delay - (j + 1))
      rw [uadd32_eq j 1 (by omega), usub32_eq delay (j + 1) (by omega) (by omega)])
    (fun j f hj1 hj2 hf0 => by
      have hs : (if j = 1 then floatBand W delay (delay - 1)
          else floatBand W delay (delay - (j - 1 + 1))) < W := by
        split_ifs
        · exact floatBand_lt_dim W delay _ hW (by omega) hd (by omega)
        · exact floatBand_lt_dim W delay _ hW (by omega) hd (by omega)
      have e := linesDown32_spec (colLine32 W H) (fun c => colPixels W H c)
        (floatBand W delay (delay - (j + 1))) (H + 1) f
        (if j = 1 then floatBand W delay (delay - 1)
          else floatBand W delay (delay - (j - 1 + 1))) []
        (by omega) (by omega)
        (fun y f1 _ hy2 hf1 => colLine32_spec W H f1 y (by omega) (by
          have : H * W = W * H := Nat.mul_comm _ _
          omega))
      rw [List.nil_append] at e
      exact e)]
  rfl

/-! ### The ring arithmetic on machine integers -/

/-- For `maxDelay+2 < 2^31` lines 213-219 on machine integers give the values of the
natural-number definitions. -/
theorem machine_slots (maxDelay delay newDelay : Nat) (hN : maxDelay + 2 < 2 ^ 31)
    (hnd : newDelay ≤ maxDelay + 2) (h2 : delay ≤ maxDelay) :
    wrapNewDelay32 maxDelay (newDelay : Int) = (wrapNewDelay maxDelay newDelay : Int) ∧
    (displayDelay32 maxDelay delay (wrapNewDelay maxDelay newDelay : Int)).1
      = (displayDelayOf maxDelay delay (wrapNewDelay maxDelay newDelay) : Int) ∧
    currentDelay32 maxDelay
        (displayDelayOf maxDelay delay (wrapNewDelay maxDelay newDelay) : Int)
      = (currentDelayOf maxDelay
          (displayDelayOf maxDelay delay (wrapNewDelay maxDelay newDelay)) : Int) := by
  have hN' : maxDelay + 2 < 2147483648 := by
    have : (2 : Nat) ^ 31 = 2147483648 := by norm_num
    omega
  have hN32 : uadd32 maxDelay 2 = maxDelay + 2 := uadd32_of_lt _ _ (by omega)
  have hw := wrapNewDelay_lt maxDelay newDelay
  have hdd : displayDelayOf maxDelay delay (wrapNewDelay maxDelay newDelay)
      = (wrapNewDelay maxDelay newDelay + 1 + (maxDelay - delay)) % (maxDelay + 2) :=
    displayDelayOf_eq_mod _ _ _
  have hddlt : displayDelayOf maxDelay delay (wrapNewDelay maxDelay newDelay) < maxDelay + 2 := by
    rw [hdd]
    exact Nat.mod_lt _ (by omega)
  refine ⟨?_, ?_, ?_⟩
  · unfold wrapNewDelay32 wrapNewDelay
    rw [toU32_natCast _ (by omega), hN32]
    split_ifs <;> rfl
  · unfold displayDelay32
    have hin : uadd32 (toU32 ((wrapNewDelay maxDelay newDelay : Int) + 1))
        (usub32 maxDelay delay) = wrapNewDelay maxDelay newDelay + 1 + (maxDelay - delay) := by
      have e : (wrapNewDelay maxDelay newDelay : Int) + 1
          = ((wrapNewDelay maxDelay newDelay + 1 : Nat) : Int) := by push_cast; rfl
      rw [e, toU32_natCast _ (by omega), usub32_of_le _ _ h2 (by omega),
        uadd32_of_lt _ _ (by omega)]
    have hf : uintSize = 4294967294 + 2 := by
      unfold uintSize
      norm_num
    rw [hin, hf, hdd]
    exact (reduceLoop32_spec maxDelay 4294967294 _ hN' (by omega)).1
  · unfold currentDelay32 currentDelayOf
    have e : ((displayDelayOf maxDelay delay (wrapNewDelay maxDelay newDelay) : Nat) : Int) + 1
        = ((displayDelayOf maxDelay delay (wrapNewDelay maxDelay newDelay) + 1 : Nat) : Int) := by
      push_cast; rfl
    rw [e, toU32_natCast _ (by omega), hN32]
    split_ifs with h
    · rw [usub32_of_le _ _ h (by omega), toI32_of_lt _ (by omega)]
    · rfl

/-- For `maxDelay+2 < 2^31` the machine initialisation loop ends, having filled slots
`n .. maxDelay` in order, with `newDelay = maxDelay+1`. -/
theorem initLoop32_spec (maxDelay : Nat) (hN : maxDelay + 2 < 2 ^ 31) (fuel : Nat) :
    ∀ (n : Nat) (filled : List Int), n ≤ maxDelay + 1 → maxDelay + 1 - n < fuel →
      initLoop32 maxDelay fuel (n : Int) filled
        = some (((maxDelay + 1 : Nat) : Int),
            filled ++ (List.range' n (maxDelay + 1 - n)).map (fun (k : Nat) => (k : Int))) := by
  have h31 : (2 : Nat) ^ 31 = 2147483648 := by norm_num
  have hM : uadd32 maxDelay 1 = maxDelay + 1 := uadd32_of_lt _ _ (by omega)
  induction fuel with
  | zero => intro n filled _ h; omega
  | succ fuel ih =>
    intro n filled hn hf
    unfold initLoop32
    rw [toU32_natCast n (by omega), hM]
    by_cases h : n < maxDelay + 1
    · rw [if_pos h]
      have e : (n : Int) + 1 = ((n + 1 : Nat) : Int) := by push_cast; rfl
      rw [e, ih (n + 1) _ (by omega) (by omega)]
      have e2 : maxDelay + 1 - n = (maxDelay + 1 - (n + 1)) + 1 := by omega
      rw [e2, List.range'_succ, List.map_cons, List.append_assoc]
      rfl
    · rw [if_neg h]
      have e : n = maxDelay + 1 := by omega
      subst e
      simp

/-- C9 (amended): acquisition never overlaps a slot being read, non-symmetric modes.  Let
`N = maxDelay+2` with `1 ≤ maxDelay` and `N < 2^31` (the ring indices are C `int`s compared
as 32-bit unsigned values), `newDelay < N` the slot `getFrame` writes and
`1 ≤ delay ≤ maxDelay`.  The base slot `currentDelay` and every slot `workingDelay`
selected by `computeVertical`, `computeVerticalReverse`, `computeHorizontal` and
`computeHorizontalReverse` differ from `newDelay`, for any truncation of the band bounds.
The initialisation loop fills slots `0..maxDelay` and leaves `newDelay = maxDelay+1`; at
the start of every tick every slot but the one about to be written has been acquired, so
every slot read in a tick of a non-symmetric mode holds a frame acquired during
initialisation or an earlier tick.  For these `maxDelay` the lines on machine integers
(lines 213-219, the slot increment of the compute functions, the initialisation loop) give
the values of the natural-number definitions. -/
theorem acquisition_never_overlaps_plain (maxDelay : Nat) (hmax : 1 ≤ maxDelay)
    (hN : maxDelay + 2 < 2 ^ 31) :
    (∀ (band : Nat → Nat → Nat → Nat) (W H newDelay delay : Nat) (v : Variant),
      newDelay < maxDelay + 2 → 1 ≤ delay → delay ≤ maxDelay →
      (v = .vertical ∨ v = .verticalReverse ∨ v = .horizontal ∨ v = .horizontalReverse) →
      currentDelayOf maxDelay (displayDelayOf maxDelay delay newDelay) ≠ newDelay ∧
      ∀ st ∈ v.steps band W H maxDelay delay
          (currentDelayOf maxDelay (displayDelayOf maxDelay delay newDelay)),
        st.workingDelay ≠ newDelay) ∧
    (∀ cams : Nat → Frame,
      (initState maxDelay cams).newDelay = maxDelay + 1 ∧
      (∀ slot, slot ≤ maxDelay → (initState maxDelay cams).acquired slot = true ∧
        (initState maxDelay cams).frameArray slot = cams slot) ∧
      RingReady maxDelay (initState maxDelay cams)) ∧
    (∀ (band : Nat → Nat → Nat → Nat) (W H : Nat) (s : State) (inp : TickInput) (s1 : State),
      RingReady maxDelay s → (parallelTick band W H maxDelay s inp).outcome = .next s1 →
      RingReady maxDelay s1) ∧
    (∀ (band : Nat → Nat → Nat → Nat) (W H : Nat) (s : State) (racy : Frame),
      RingReady maxDelay s → 1 ≤ s.delay → s.delay ≤ maxDelay → s.symmetric = false →
      ∀ slot ∈ slotsRead band W H maxDelay s,
        slot < maxDelay + 2 ∧ slot ≠ (selectSlots maxDelay s).newDelay ∧
        s.acquired slot = true ∧
        ringSeen (selectSlots maxDelay s) racy slot = s.frameArray slot) ∧
    (∀ newDelay delay : Nat, newDelay ≤ maxDelay + 2 → 1 ≤ delay → delay ≤ maxDelay →
      wrapNewDelay32 maxDelay (newDelay : Int) = (wrapNewDelay maxDelay newDelay : Int) ∧
      (displayDelay32 maxDelay delay (wrapNewDelay maxDelay newDelay : Int)).1
        = (displayDelayOf maxDelay delay (wrapNewDelay maxDelay newDelay) : Int) ∧
      currentDelay32 maxDelay
          (displayDelayOf maxDelay delay (wrapNewDelay maxDelay newDelay) : Int)
        = (currentDelayOf maxDelay
            (displayDelayOf maxDelay delay (wrapNewDelay maxDelay newDelay)) : Int)) ∧
    (∀ workingDelay : Nat, workingDelay < maxDelay + 2 →
      nextSlot32 maxDelay (workingDelay : Int) = (nextSlot maxDelay workingDelay : Int)) ∧
    (∀ fuel : Nat, maxDelay + 2 ≤ fuel →
      initLoop32 maxDelay fuel 0 []
        = some (((maxDelay + 1 : Nat) : Int),
            (List.range' 0 (maxDelay + 1)).map (fun (k : Nat) => (k : Int)))) := by
  obtain ⟨a1, a2, a3, a4⟩ := acquisition_never_overlaps_nat maxDelay hmax
  refine ⟨a1, a2, a3, a4, ?_, ?_, ?_⟩
  · intro newDelay delay hnd _ h2
    exact machine_slots maxDelay delay newDelay hN hnd h2
  · intro w hw
    exact nextSlot32_eq maxDelay w hN hw
  · intro fuel hf
    have := initLoop32_spec maxDelay hN fuel 0 [] (by omega) (by omega)
    rw [List.nil_append, Nat.sub_zero] at this
    exact this

/-- Witness for `acquisition_never_overlaps_plain`: `computeHorizontal` at the default
`maxDelay = 60` with `delay = 2`, while `getFrame` writes slot 0. -/
theorem acquisition_never_overlaps_plain_witness :
    currentDelayOf 60 (displayDelayOf 60 2 0) ≠ 0 ∧
    ∀ st ∈ Variant.horizontal.steps floatBand frameWidth frameHeight 60 2
        (currentDelayOf 60 (displayDelayOf 60 2 0)),
      st.workingDelay ≠ 0 :=
  (acquisition_never_overlaps_plain 60 (by decide) (by norm_num)).1 floatBand frameWidth
    frameHeight 0 2 .horizontal (by decide) (by decide) (by decide)
    (Or.inr (Or.inr (Or.inl rfl)))

/-- C9 fails as stated at `maxDelay = 4294967295` (`argv[2] = -1`), `delay = maxDelay`: as
32-bit values `maxDelay+1` is 0 and `maxDelay+2` is 1.  The initialisation loop makes no
iteration, fills no slot and leaves `newDelay = 0`; in the tick `newDelay = 0`,
`displayDelay = 0` and `currentDelay = 0`, the slot `getFrame` writes; and the slot
increment of the compute functions gives `workingDelay = 0` again. -/
theorem acquisition_overlap_counterexample :
    (1 : Nat) ≤ 4294967295 ∧
    initLoop32 4294967295 1 0 [] = some (0, []) ∧
    wrapNewDelay32 4294967295 0 = 0 ∧
    (displayDelay32 4294967295 4294967295 (wrapNewDelay32 4294967295 0)).1 = 0 ∧
    currentDelay32 4294967295
      (displayDelay32 4294967295 4294967295 (wrapNewDelay32 4294967295 0)).1
        = wrapNewDelay32 4294967295 0 ∧
    nextSlot32 4294967295 (wrapNewDelay32 4294967295 0) = wrapNewDelay32 4294967295 0 := by
  decide

/-! ### Indices in bounds, binary32 bounds -/

/-- The forward column loops stay in the frame when no bound exceeds `W`. -/
theorem computeVertical_in_bounds (band : Nat → Nat → Nat → Nat)
    (W H maxDelay delay currentDelay : Nat)
    (hle : ∀ k, k ≤ delay → band W delay k ≤ W) (st : Step)
    (hst : st ∈ computeVerticalSteps band W H maxDelay delay currentDelay)
    (i : Nat) (hi : i ∈ st.pixels) : i < W * H := by
  obtain ⟨j, hj1, hj2, e⟩ := bandLoop_mem _ _ _ _ _ _ _ st hst
  rw [e, List.mem_flatMap] at hi
  obtain ⟨c, hc, hi⟩ := hi
  rw [mem_rangeUp] at hc
  rw [mem_colPixels] at hi
  obtain ⟨r, hr, rfl⟩ := hi
  have hb : band W delay (j + 1) ≤ W := hle (j + 1) (by omega)
  exact index_lt W H c r (by omega) hr

/-- The forward row loops stay in the frame when no bound exceeds `H`. -/
theorem computeHorizontal_in_bounds (band : Nat → Nat → Nat → Nat)
    (W H maxDelay delay currentDelay : Nat)
    (hle : ∀ k, k ≤ delay → band H delay k ≤ H) (st : Step)
    (hst : st ∈ computeHorizontalSteps band W H maxDelay delay currentDelay)
    (i : Nat) (hi : i ∈ st.pixels) : i < W * H := by
  obtain ⟨j, hj1, hj2, e⟩ := bandLoop_mem _ _ _ _ _ _ _ st hst
  rw [e, List.mem_flatMap] at hi
  obtain ⟨r, hr, hi⟩ := hi
  rw [mem_rangeUp] at hr
  rw [mem_rowPixels] at hi
  obtain ⟨c, hc, rfl⟩ := hi
  have hb : band H delay (j + 1) ≤ H := hle (j + 1) (by omega)
  rw [Nat.add_comm]
  exact index_lt W H c r hc (by omega)

/-- The first bound of an iteration of a downward loop is a bound for some `k < delay`. -/
theorem reverse_first_lt (band : Nat → Nat → Nat → Nat) (dim delay j : Nat) (h1 : 1 ≤ delay)
    (hlt : ∀ k, k < delay → band dim delay k < dim) :
    (if j = 1 then band dim delay (delay - 1)
      else band dim delay (delay - (j - 1 + 1))) < dim := by
  split_ifs
  · exact hlt _ (by omega)
  · exact hlt _ (by omega)

/-- The downward column loops stay in the frame when every bound for `k < delay` is below
`W`. -/
theorem computeVerticalReverse_in_bounds (band : Nat → Nat → Nat → Nat)
    (W H maxDelay delay currentDelay : Nat) (h1 : 1 ≤ delay)
    (hlt : ∀ k, k < delay → band W delay k < W) (st : Step)
    (hst : st ∈ computeVerticalReverseSteps band W H maxDelay delay currentDelay)
    (i : Nat) (hi : i ∈ st.pixels) : i < W * H := by
  obtain ⟨j, hj1, hj2, e⟩ := bandLoop_mem _ _ _ _ _ _ _ st hst
  rw [e, List.mem_flatMap] at hi
  obtain ⟨c, hc, hi⟩ := hi
  rw [mem_rangeDown] at hc
  rw [mem_colPixels] at hi
  obtain ⟨r, hr, rfl⟩ := hi
  have hb := reverse_first_lt band W delay j h1 hlt
  exact index_lt W H c r (by omega) hr

/-- The downward row loops stay in the frame when every bound for `k < delay` is below
`H`. -/
theorem computeHorizontalReverse_in_bounds (band : Nat → Nat → Nat → Nat)
    (W H maxDelay delay currentDelay : Nat) (h1 : 1 ≤ delay)
    (hlt : ∀ k, k < delay → band H delay k < H) (st : Step)
    (hst : st ∈ computeHorizontalReverseSteps band W H maxDelay delay currentDelay)
    (i : Nat) (hi : i ∈ st.pixels) : i < W * H := by
  obtain ⟨j, hj1, hj2, e⟩ := bandLoop_mem _ _ _ _ _ _ _ st hst
  rw [e, List.mem_flatMap] at hi
  obtain ⟨r, hr, hi⟩ := hi
  rw [mem_rangeDown] at hr
  rw [mem_rowPixels] at hi
  obtain ⟨c, hc, rfl⟩ := hi
  have hb := reverse_first_lt band H delay j h1 hlt
  rw [Nat.add_comm]
  exact index_lt W H c r hc (by omega)

/-- C15 (amended): in-bounds access in the non-symmetric modes, on machine integers and
binary32 bounds.  For `frameWidth = W = 1280`, `frameHeight = H = 720`, `N = maxDelay+2`
with `1 ≤ maxDelay` and `N < 2^31`, and `1 ≤ delay ≤ maxDelay` with `delay ≤ 2^23`:
the ring indices a tick uses (`newDelay` in `getFrame`, `currentDelay` in `main`, every
`workingDelay`) are below `N`, and lines 213-219 on machine integers give these values;
the runs of `computeVertical`, `computeVerticalReverse`, `computeHorizontal` and
`computeHorizontalReverse` on machine integers end (any fuel from `W + H + delay + 3` on
gives a result) after `delay - 1` outer iterations; and every ring slot they use is below
`N` and every pixel index they read or write is below `W*H`. -/
theorem in_bounds_plain (maxDelay delay : Nat) (hmax : 1 ≤ maxDelay)
    (hN : maxDelay + 2 < 2 ^ 31) (h1 : 1 ≤ delay) (h2 : delay ≤ maxDelay)
    (hd : delay ≤ 2 ^ 23) :
    (∀ (s : State), s.delay = delay →
      (selectSlots maxDelay s).newDelay < maxDelay + 2 ∧
      (selectSlots maxDelay s).currentDelay < maxDelay + 2 ∧
      ∀ slot ∈ slotsRead floatBand frameWidth frameHeight maxDelay s, slot < maxDelay + 2) ∧
    (∀ newDelay : Nat, newDelay ≤ maxDelay + 2 →
      wrapNewDelay32 maxDelay (newDelay : Int) = (wrapNewDelay maxDelay newDelay : Int) ∧
      (displayDelay32 maxDelay delay (wrapNewDelay maxDelay newDelay : Int)).1
        = (displayDelayOf maxDelay delay (wrapNewDelay maxDelay newDelay) : Int) ∧
      currentDelay32 maxDelay
          (displayDelayOf maxDelay delay (wrapNewDelay maxDelay newDelay) : Int)
        = (currentDelayOf maxDelay
            (displayDelayOf maxDelay delay (wrapNewDelay maxDelay newDelay)) : Int)) ∧
    (∀ (currentDelay fuel : Nat), currentDelay < maxDelay + 2 →
      frameWidth + frameHeight + delay + 3 ≤ fuel →
      computeVertical32 frameWidth frameHeight maxDelay delay (currentDelay : Int) fuel
        = some (Variant.vertical.steps floatBand frameWidth frameHeight maxDelay delay
            currentDelay) ∧
      computeVerticalReverse32 frameWidth frameHeight maxDelay delay (currentDelay : Int) fuel
        = some (Variant.verticalReverse.steps floatBand frameWidth frameHeight maxDelay delay
            currentDelay) ∧
      computeHorizontal32 frameWidth frameHeight maxDelay delay (currentDelay : Int) fuel
        = some (Variant.horizontal.steps floatBand frameWidth frameHeight maxDelay delay
            currentDelay) ∧
      computeHorizontalReverse32 frameWidth frameHeight maxDelay delay (currentDelay : Int) fuel
        = some (Variant.horizontalReverse.steps floatBand frameWidth frameHeight maxDelay
            delay currentDelay)) ∧
    (∀ (v : Variant) (currentDelay : Nat),
      v = .vertical ∨ v = .verticalReverse ∨ v = .horizontal ∨ v = .horizontalReverse →
      (v.steps floatBand frameWidth frameHeight maxDelay delay currentDelay).length
        = delay - 1 ∧
      ∀ st ∈ v.steps floatBand frameWidth frameHeight maxDelay delay currentDelay,
        st.workingDelay < maxDelay + 2 ∧
        ∀ i ∈ st.pixels, i < frameWidth * frameHeight) := by
  have h23 : (2 : Nat) ^ 23 = 8388608 := by norm_num
  have h24 : (2 : Nat) ^ 24 = 16777216 := by norm_num
  have hleW : ∀ k, k ≤ delay → floatBand frameWidth delay k ≤ frameWidth := fun k hk =>
    floatBand_le_dim frameWidth delay k (by decide) (by decide) h1 (by omega) hk
  have hleH : ∀ k, k ≤ delay → floatBand frameHeight delay k ≤ frameHeight := fun k hk =>
    floatBand_le_dim frameHeight delay k (by decide) (by decide) h1 (by omega) hk
  have hltW : ∀ k, k < delay → floatBand frameWidth delay k < frameWidth := fun k hk =>
    floatBand_lt_dim frameWidth delay k (by decide) (by decide) hd hk
  have hltH : ∀ k, k < delay → floatBand frameHeight delay k < frameHeight := fun k hk =>
    floatBand_lt_dim frameHeight delay k (by decide) (by decide) hd hk
  refine ⟨?_, ?_, ?_, ?_⟩
  · intro s hs
    have hcd : (selectSlots maxDelay s).currentDelay < maxDelay + 2 := by
      show currentDelayOf maxDelay (displayDelayOf maxDelay s.delay _) < _
      rw [hs]
      exact currentDelayOf_lt maxDelay delay _ h2
    refine ⟨wrapNewDelay_lt maxDelay s.newDelay, hcd, ?_⟩
    intro slot hslot
    simp only [slotsRead, List.mem_cons, List.mem_map] at hslot
    rcases hslot with h | ⟨st, hst, h⟩
    · rw [h]
      exact hcd
    · rw [← h]
      exact steps_slot_lt _ _ _ _ _ _ _ st hst
  · intro newDelay hnd
    exact machine_slots maxDelay delay newDelay hN hnd h2
  · intro currentDelay fuel hc hf
    exact ⟨computeVertical32_spec frameWidth frameHeight maxDelay delay currentDelay fuel
        (by decide) (by decide) (by decide) hN h1 hd hc hf,
      computeVerticalReverse32_spec frameWidth frameHeight maxDelay delay currentDelay fuel
        (by decide) (by decide) (by decide) hN h1 hd hc hf,
      computeHorizontal32_spec frameWidth frameHeight maxDelay delay currentDelay fuel
        (by decide) (by decide) (by decide) (by decide) hN h1 hd hc hf,
      computeHorizontalReverse32_spec frameWidth frameHeight maxDelay delay currentDelay fuel
        (by decide) (by decide) (by decide) (by decide) hN h1 hd hc hf⟩
  · intro v currentDelay hv
    rcases hv with h | h | h | h <;> subst h
    · exact ⟨bandLoop_length _ _ _ _ _ _ _, fun st hst =>
        ⟨steps_slot_lt _ _ _ _ _ _ _ st hst, fun i hi =>
          computeVertical_in_bounds floatBand _ _ _ _ _ hleW st hst i hi⟩⟩
    · exact ⟨bandLoop_length _ _ _ _ _ _ _, fun st hst =>
        ⟨steps_slot_lt _ _ _ _ _ _ _ st hst, fun i hi =>
          computeVerticalReverse_in_bounds floatBand _ _ _ _ _ h1 hltW st hst i hi⟩⟩
    · exact ⟨bandLoop_length _ _ _ _ _ _ _, fun st hst =>
        ⟨steps_slot_lt _ _ _ _ _ _ _ st hst, fun i hi =>
          computeHorizontal_in_bounds floatBand _ _ _ _ _ hleH st hst i hi⟩⟩
    · exact ⟨bandLoop_length _ _ _ _ _ _ _, fun st hst =>
        ⟨steps_slot_lt _ _ _ _ _ _ _ st hst, fun i hi =>
          computeHorizontalReverse_in_bounds floatBand _ _ _ _ _ h1 hltH st hst i hi⟩⟩

/-- Witness for `in_bounds_plain`: with `maxDelay = delay = 2000`, more bands than rows,
the run of `computeHorizontalReverse` from slot 7 with fuel 4003 ends with the steps of
`computeHorizontalReverseSteps`. -/
theorem in_bounds_plain_witness :
    computeHorizontalReverse32 frameWidth frameHeight 2000 2000 ((7 : Nat) : Int) 4003
      = some (Variant.horizontalReverse.steps floatBand frameWidth frameHeight 2000 2000 7) :=
  ((in_bounds_plain 2000 2000 (by decide) (by norm_num) (by decide) (by decide)
    (by norm_num)).2.2.1 7 4003 (by decide) (by decide)).2.2.2

/-- C15 fails as stated at `maxDelay = delay = 9718272` (`maxDelay+2 < 2^31`), mode
vertical + reverse: in binary32 the first bound `(int) ((delay-1) * ((float) frameWidth /
(float) delay))` of `computeVerticalReverse` is `1280 = frameWidth`, where the exact
quotient gives 1279, and the bound of the first iteration is 1279; so that iteration copies
column `c = 1280`, whose last index `1280 + 719 * frameWidth = 921600 = W*H` lies outside
the frame. -/
theorem in_bounds_counterexample :
    (1 : Nat) ≤ 9718272 ∧ 9718272 + 2 < 2 ^ 31 ∧
    floatBand frameWidth 9718272 (9718272 - 1) = 1280 ∧
    exactBand frameWidth 9718272 (9718272 - 1) = 1279 ∧
    floatBand frameWidth 9718272 (9718272 - (1 + 1)) = 1279 ∧
    frameWidth * frameHeight = 921600 ∧
    921600 ∈ writes (Variant.verticalReverse.steps floatBand frameWidth frameHeight
      9718272 9718272 0) := by
  have b1 : floatBand frameWidth 9718272 (9718272 - 1) = 1280 := by decide!
  have b2 : floatBand frameWidth 9718272 (9718272 - (1 + 1)) = 1279 := by decide!
  refine ⟨by decide, by norm_num, b1, by decide!, b2, by decide, ?_⟩
  have hn : 9718272 - 1 = 9718270 + 1 := by norm_num
  rw [mem_writes]
  show ∃ st, st ∈ computeVerticalReverseSteps floatBand frameWidth frameHeight
    9718272 9718272 0 ∧ 921600 ∈ st.pixels
  unfold computeVerticalReverseSteps
  rw [hn, bandLoop_succ]
  refine ⟨_, List.mem_cons_self _ _, ?_⟩
  show 921600 ∈ (rangeDown (floatBand frameWidth 9718272 (9718270 + 1))
    (floatBand frameWidth 9718272 (9718272 - (1 + 1)))).flatMap
      (fun c => colPixels frameWidth frameHeight c)
  rw [← hn, b1, b2, List.mem_flatMap]
  refine ⟨1280, ?_, ?_⟩
  · rw [mem_rangeDown]
    omega
  · rw [mem_colPixels]
    exact ⟨719, by decide, by decide⟩

/-! ### The band map of `computeHorizontal`, binary32 bounds -/

/-- The outer loop depends on the bounds of its own iterations only. -/
theorem bandLoop_congr (maxDelay : Nat) (lastOf1 lastOf2 : Nat → Nat)
    (body : Nat → Nat → List Nat) (n : Nat) :
    ∀ (d w first : Nat), (∀ j, d ≤ j → j < d + n → lastOf1 j = lastOf2 j) →
      bandLoop maxDelay lastOf1 body n d w first
        = bandLoop maxDelay lastOf2 body n d w first := by
  induction n with
  | zero => intro d w first _; rfl
  | succ n ih =>
    intro d w first h
    rw [bandLoop_succ, bandLoop_succ, h d (le_refl d) (by omega),
      ih (d + 1) _ _ (fun j h1 h2 => h j (by omega) (by omega))]

/-- For `delay ≤ 72` the steps of `computeHorizontal` on `frameHeight = 720` with the
binary32 bounds are the steps with the exact bounds. -/
theorem computeHorizontalSteps_float (W maxDelay delay currentDelay : Nat) (h1 : 1 ≤ delay)
    (h72 : delay ≤ 72) :
    computeHorizontalSteps floatBand W frameHeight maxDelay delay currentDelay
      = computeHorizontalSteps exactBand W frameHeight maxDelay delay currentDelay := by
  have hb : ∀ k, k ≤ delay → floatBand frameHeight delay k = exactBand frameHeight delay k :=
    fun k hk => floatBand_exact_rows delay (by omega) k (by omega)
  unfold computeHorizontalSteps
  rw [hb 1 h1]
  exact bandLoop_congr maxDelay _ _ _ _ _ _ _ (fun j _ hj2 => hb (j + 1) (by omega))

/-- C8 (amended): band map of `computeHorizontal` as the code computes it, `frameWidth =
1280`, `frameHeight = H = 720`, `N = maxDelay+2 < 2^31`, `1 ≤ delay ≤ maxDelay` and
`delay ≤ 72`.  For these delays every binary32 bound `(int) (k * ((float) H / (float)
delay))`, `k ≤ delay`, equals `floor (k*H/delay)`, and the run of `computeHorizontal` on
machine integers ends with the steps of `computeHorizontalSteps`.  After it every row
`r < H/delay` of `finalFrame` is unchanged; every row `r` with
`d*H/delay ≤ r < (d+1)*H/delay`, `1 ≤ d < delay`, equals pixel for pixel the same row of
`frameArray[(currentDelay + d) mod N]`; the bands are pairwise disjoint, they cover exactly
the rows `H/delay .. H-1`, and every pixel of those rows is written exactly once. -/
theorem computeHorizontal_band_map (maxDelay delay currentDelay : Nat)
    (hN : maxDelay + 2 < 2 ^ 31) (h1 : 1 ≤ delay) (h2 : delay ≤ maxDelay) (h72 : delay ≤ 72)
    (hc : currentDelay < maxDelay + 2) (frameArray : Nat → Frame) (finalFrame : Frame) :
    (∀ k, k ≤ delay → floatBand frameHeight delay k = k * frameHeight / delay) ∧
    (∀ fuel, frameWidth + frameHeight + delay + 3 ≤ fuel →
      computeHorizontal32 frameWidth frameHeight maxDelay delay (currentDelay : Int) fuel
        = some (computeHorizontalSteps floatBand frameWidth frameHeight maxDelay delay
            currentDelay)) ∧
    (∀ r c, r < frameHeight / delay → c < frameWidth →
      compute .horizontal floatBand frameWidth frameHeight maxDelay delay currentDelay
          frameArray finalFrame (r * frameWidth + c)
        = finalFrame (r * frameWidth + c)) ∧
    (∀ d r c, 1 ≤ d → d < delay →
      d * frameHeight / delay ≤ r → r < (d + 1) * frameHeight / delay → c < frameWidth →
      compute .horizontal floatBand frameWidth frameHeight maxDelay delay currentDelay
          frameArray finalFrame (r * frameWidth + c)
        = frameArray ((currentDelay + d) % (maxDelay + 2)) (r * frameWidth + c)) ∧
    (∀ d d1 r,
      d * frameHeight / delay ≤ r → r < (d + 1) * frameHeight / delay →
      d1 * frameHeight / delay ≤ r → r < (d1 + 1) * frameHeight / delay → d = d1) ∧
    (∀ r, (frameHeight / delay ≤ r ∧ r < frameHeight) ↔
      ∃ d, 1 ≤ d ∧ d < delay ∧
        d * frameHeight / delay ≤ r ∧ r < (d + 1) * frameHeight / delay) ∧
    (∀ r c, frameHeight / delay ≤ r → r < frameHeight → c < frameWidth →
      (writes (computeHorizontalSteps floatBand frameWidth frameHeight maxDelay delay
        currentDelay)).count (r * frameWidth + c) = 1) := by
  have hsteps := computeHorizontalSteps_float frameWidth maxDelay delay currentDelay h1 h72
  have hcomp : compute .horizontal floatBand frameWidth frameHeight maxDelay delay
      currentDelay frameArray finalFrame
      = compute .horizontal exactBand frameWidth frameHeight maxDelay delay currentDelay
          frameArray finalFrame := by
    show runSteps frameArray finalFrame (computeHorizontalSteps floatBand _ _ _ _ _)
      = runSteps frameArray finalFrame (computeHorizontalSteps exactBand _ _ _ _ _)
    rw [hsteps]
  obtain ⟨a1, a2, a3, a4, a5⟩ := computeHorizontal_band_map_exact maxDelay delay currentDelay
    h1 h2 hc frameArray finalFrame
  rw [hcomp, hsteps]
  refine ⟨fun k hk => floatBand_exact_rows delay (by omega) k (by omega), ?_, a1, a2, a3,
    a4, a5⟩
  intro fuel hf
  have h23 : (2 : Nat) ^ 23 = 8388608 := by norm_num
  rw [← hsteps]
  exact computeHorizontal32_spec frameWidth frameHeight maxDelay delay currentDelay fuel
    (by decide) (by decide) (by decide) (by decide) hN h1 (by omega) hc hf

/-- Witness for `computeHorizontal_band_map`: the default `maxDelay = 60` with `delay = 3`
and `currentDelay = 61`; row 300 lies in band `d = 1` and comes from slot 0. -/
theorem computeHorizontal_band_map_witness :
    compute .horizontal floatBand frameWidth frameHeight 60 3 61
        (fun slot _ => ⟨slot, 0, 0⟩) blackFrame (300 * frameWidth + 7)
      = (fun slot _ => (⟨slot, 0, 0⟩ : Vec3b)) ((61 + 1) % (60 + 2)) (300 * frameWidth + 7) :=
  (computeHorizontal_band_map 60 3 61 (by norm_num) (by decide) (by decide) (by decide)
    (by decide) (fun slot _ => ⟨slot, 0, 0⟩) blackFrame).2.2.2.1 1 300 7 (by decide)
    (by decide) (by decide) (by decide) (by decide)

/-- C8 fails as stated at `maxDelay = delay = 73`, `currentDelay = 0`, ring slot `s` filled
with the colour `(s, 0, 0)` and `finalFrame` the clone of slot 0: in binary32 the last
bound `(int) (73 * ((float) 720 / (float) 73))` is 719, not `floor (73*720/73) = 720`.
Row 719 lies in the exact band `d = 72` (`710 ≤ 719 < 720`), so the claim takes it from
slot 72; the code never writes it and it keeps the pixels of slot 0. -/
theorem band_map_counterexample :
    (1 : Nat) ≤ 73 ∧ 73 + 2 < 2 ^ 31 ∧
    floatBand frameHeight 73 73 = 719 ∧
    72 * frameHeight / 73 ≤ 719 ∧ 719 < (72 + 1) * frameHeight / 73 ∧
    compute .horizontal floatBand frameWidth frameHeight 73 73 0
        (fun slot _ => ⟨slot, 0, 0⟩) ((fun slot _ => (⟨slot, 0, 0⟩ : Vec3b)) 0)
        (719 * frameWidth + 0) = ⟨0, 0, 0⟩ ∧
    (fun slot _ => (⟨slot, 0, 0⟩ : Vec3b)) ((0 + 72) % (73 + 2)) (719 * frameWidth + 0)
      = ⟨72, 0, 0⟩ := by
  have hall : ∀ k, k < 74 → floatBand frameHeight 73 k ≤ 719 := by decide!
  refine ⟨by decide, by norm_num, by decide!, by decide, by decide, ?_, rfl⟩
  show runSteps _ _ (computeHorizontalSteps floatBand frameWidth frameHeight 73 73 0) _ = _
  unfold computeHorizontalSteps
  rw [bandLoop_apply_none 73 (fun d => floatBand frameHeight 73 (d + 1))
    (fun first last => (rangeUp first last).flatMap
      (fun r => rowPixels (r * frameWidth) frameWidth))
    (fun slot _ => ⟨slot, 0, 0⟩) (719 * frameWidth + 0) (73 - 1) 1 0
    (floatBand frameHeight 73 1) _ (by
      intro j hj1 hj2
      dsimp only
      rw [mem_rows frameWidth _ 719 0 (by decide), mem_rangeUp]
      have := hall (j + 1) (by omega)
      omega)]

/-! ### Reverse and forward modes: the mirror, binary32 bounds -/

/-- Forward loops (`computeVertical`, `computeHorizontal`) over bounds `b 1 .. b delay`:
a line `x` with `b k ≤ x < b j` for every `j > k` holds the pixels of slot
`(currentDelay + k) mod N` (the base slot for `k = 0`). -/
theorem forward_band_slot (maxDelay dim delay cd : Nat) (b : Nat → Nat)
    (body : Nat → Nat → List Nat) (fa : Nat → Frame) (i x k : Nat)
    (hbody : ∀ a c, c ≤ dim → (i ∈ body a c ↔ a ≤ x ∧ x < c))
    (hc : cd < maxDelay + 2) (hkd : k < delay)
    (hle : ∀ j, j ≤ delay → b j ≤ dim)
    (hA : 1 ≤ k → b k ≤ x) (hB : ∀ j, k < j → j ≤ delay → x < b j) :
    runSteps fa (fa cd) (bandLoop maxDelay (fun d => b (d + 1)) body
        (delay - 1) 1 cd (b 1)) i
      = fa ((cd + k) % (maxDelay + 2)) i := by
  have start_eq : ∀ j, 1 ≤ j → (if j = 1 then b 1 else b (j - 1 + 1)) = b j := by
    intro j hj
    rw [Nat.sub_add_cancel hj]
    split_ifs with e
    · rw [e]
    · rfl
  by_cases hk0 : k = 0
  · subst hk0
    rw [bandLoop_apply_none maxDelay (fun d => b (d + 1)) body fa i
      (delay - 1) 1 cd (b 1) (fa cd) (by
      intro j hj1 hj2
      dsimp only
      rw [start_eq j hj1, hbody _ _ (hle (j + 1) (by omega))]
      rintro ⟨h, _⟩
      have := hB j (by omega) (by omega)
      omega)]
    rw [Nat.add_zero, Nat.mod_eq_of_lt hc]
  · have e : cd + k = cd + (k - 1) + 1 := by omega
    rw [e]
    refine bandLoop_apply_some maxDelay _ body fa i (delay - 1) 1 cd _ _ k hc (by omega)
      (by omega) ?_ ?_
    · dsimp only
      rw [start_eq k (by omega), hbody _ _ (hle (k + 1) (by omega))]
      exact ⟨hA (by omega), hB (k + 1) (by omega) (by omega)⟩
    · intro j1 hj1 hj2
      rw [Nat.sub_add_cancel (by omega), hbody _ _ (hle (j1 + 1) (by omega))]
      rintro ⟨h, _⟩
      have := hB j1 hj1 (by omega)
      omega

/-- Reverse loops (`computeVerticalReverse`, `computeHorizontalReverse`) over bounds
`b (delay-1) .. b 0`: a line `x` with `b j < x` for every `j < delay - d` and
`x ≤ b (delay - d)` holds the pixels of slot `(currentDelay + d) mod N` (the base slot for
`d = 0`). -/
theorem reverse_band_slot (maxDelay dim delay cd : Nat) (b : Nat → Nat)
    (body : Nat → Nat → List Nat) (fa : Nat → Frame) (i x d : Nat)
    (hbody : ∀ a c, a < dim → (i ∈ body a c ↔ c < x ∧ x ≤ a))
    (hc : cd < maxDelay + 2) (hd : d < delay)
    (hlt : ∀ j, j < delay → b j < dim)
    (hA : 1 ≤ d → x ≤ b (delay - d)) (hB : ∀ j, j + d < delay → b j < x) :
    runSteps fa (fa cd) (bandLoop maxDelay (fun d => b (delay - (d + 1)))
        body (delay - 1) 1 cd (b (delay - 1))) i
      = fa ((cd + d) % (maxDelay + 2)) i := by
  have start_eq : ∀ j, 1 ≤ j →
      (if j = 1 then b (delay - 1) else b (delay - (j - 1 + 1))) = b (delay - j) := by
    intro j hj
    rw [Nat.sub_add_cancel hj]
    split_ifs with e
    · rw [e]
    · rfl
  by_cases hd0 : d = 0
  · subst hd0
    rw [bandLoop_apply_none maxDelay (fun d => b (delay - (d + 1))) body fa i
      (delay - 1) 1 cd (b (delay - 1)) (fa cd) (by
      intro j hj1 hj2
      dsimp only
      rw [start_eq j hj1, hbody _ _ (hlt (delay - j) (by omega))]
      rintro ⟨_, h⟩
      have := hB (delay - j) (by omega)
      omega)]
    rw [Nat.add_zero, Nat.mod_eq_of_lt hc]
  · have e : cd + d = cd + (d - 1) + 1 := by omega
    rw [e]
    refine bandLoop_apply_some maxDelay _ body fa i (delay - 1) 1 cd _ _ d hc (by omega)
      (by omega) ?_ ?_
    · dsimp only
      rw [start_eq d (by omega), hbody _ _ (hlt (delay - d) (by omega))]
      exact ⟨hB (delay - (d + 1)) (by omega), hA (by omega)⟩
    · intro j1 hj1 hj2
      rw [Nat.sub_add_cancel (by omega), hbody _ _ (hlt (delay - j1) (by omega))]
      rintro ⟨_, h⟩
      have := hB (delay - j1) (by omega)
      omega

/-- The rows of `computeHorizontal` on a copy of `frameArray[currentDelay]`. -/
theorem computeHorizontal_row_slot (band : Nat → Nat → Nat → Nat)
    (W H maxDelay delay cd : Nat) (fa : Nat → Frame) (r c k : Nat)
    (hc : cd < maxDelay + 2) (hcw : c < W) (hkd : k < delay)
    (hle : ∀ j, j ≤ delay → band H delay j ≤ H)
    (hA : 1 ≤ k → band H delay k ≤ r) (hB : ∀ j, k < j → j ≤ delay → r < band H delay j) :
    compute .horizontal band W H maxDelay delay cd fa (fa cd) (r * W + c)
      = fa ((cd + k) % (maxDelay + 2)) (r * W + c) :=
  forward_band_slot maxDelay H delay cd (fun j => band H delay j) _ fa (r * W + c) r k
    (fun a b _ => by rw [mem_rows W _ r c hcw, mem_rangeUp]) hc hkd hle hA hB

/-- The rows of `computeHorizontalReverse` on a copy of `frameArray[currentDelay]`. -/
theorem computeHorizontalReverse_row_slot (band : Nat → Nat → Nat → Nat)
    (W H maxDelay delay cd : Nat) (fa : Nat → Frame) (r c d : Nat)
    (hc : cd < maxDelay + 2) (hcw : c < W) (hd : d < delay)
    (hlt : ∀ j, j < delay → band H delay j < H)
    (hA : 1 ≤ d → r ≤ band H delay (delay - d))
    (hB : ∀ j, j + d < delay → band H delay j < r) :
    compute .horizontalReverse band W H maxDelay delay cd fa (fa cd) (r * W + c)
      = fa ((cd + d) % (maxDelay + 2)) (r * W + c) :=
  reverse_band_slot maxDelay H delay cd (fun j => band H delay j) _ fa (r * W + c) r d
    (fun a b _ => by rw [mem_rows W _ r c hcw, mem_rangeDown]) hc hd hlt hA hB

/-- The columns of `computeVertical` on a copy of `frameArray[currentDelay]`. -/
theorem computeVertical_col_slot (band : Nat → Nat → Nat → Nat)
    (W H maxDelay delay cd : Nat) (fa : Nat → Frame) (r c k : Nat)
    (hc : cd < maxDelay + 2) (hr : r < H) (hcw : c < W) (hkd : k < delay)
    (hle : ∀ j, j ≤ delay → band W delay j ≤ W)
    (hA : 1 ≤ k → band W delay k ≤ c) (hB : ∀ j, k < j → j ≤ delay → c < band W delay j) :
    compute .vertical band W H maxDelay delay cd fa (fa cd) (c + r * W)
      = fa ((cd + k) % (maxDelay + 2)) (c + r * W) :=
  forward_band_slot maxDelay W delay cd (fun j => band W delay j) _ fa (c + r * W) c k
    (fun a b hb => by
      rw [mem_cols W H _ (fun x hx => by
        rw [mem_rangeUp] at hx
        omega) r c hcw hr, mem_rangeUp]) hc hkd hle hA hB

/-- The columns of `computeVerticalReverse` on a copy of `frameArray[currentDelay]`. -/
theorem computeVerticalReverse_col_slot (band : Nat → Nat → Nat → Nat)
    (W H maxDelay delay cd : Nat) (fa : Nat → Frame) (r c d : Nat)
    (hc : cd < maxDelay + 2) (hr : r < H) (hcw : c < W) (hd : d < delay)
    (hlt : ∀ j, j < delay → band W delay j < W)
    (hA : 1 ≤ d → c ≤ band W delay (delay - d))
    (hB : ∀ j, j + d < delay → band W delay j < c) :
    compute .verticalReverse band W H maxDelay delay cd fa (fa cd) (c + r * W)
      = fa ((cd + d) % (maxDelay + 2)) (c + r * W) :=
  reverse_band_slot maxDelay W delay cd (fun j => band W delay j) _ fa (c + r * W) c d
    (fun a b ha => by
      rw [mem_cols W H _ (fun x hx => by
        rw [mem_rangeDown] at hx
        omega) r c hcw hr, mem_rangeDown]) hc hd hlt hA hB

/-- Reverse loops never copy line 0: their inner loop runs while `x > (int) last`. -/
theorem reverse_band_zero (maxDelay : Nat) (lastOf : Nat → Nat) (body : Nat → Nat → List Nat)
    (fa : Nat → Frame) (cur : Frame) (i n d w first : Nat)
    (hbody : ∀ a b, i ∈ body a b → b < 0) :
    runSteps fa cur (bandLoop maxDelay lastOf body n d w first) i = cur i :=
  bandLoop_apply_none maxDelay lastOf body fa i n d w first cur
    (fun _ _ _ h => Nat.not_lt_zero _ (hbody _ _ h))

/-- Row 0 of the result of `computeHorizontalReverse` is row 0 of `finalFrame`. -/
theorem computeHorizontalReverse_row_zero (band : Nat → Nat → Nat → Nat)
    (W H maxDelay delay cd : Nat) (fa : Nat → Frame) (cur : Frame) (c : Nat) (hcw : c < W) :
    compute .horizontalReverse band W H maxDelay delay cd fa cur (0 * W + c)
      = cur (0 * W + c) :=
  reverse_band_zero maxDelay _ _ fa cur (0 * W + c) _ _ _ _
    (fun a b h => by
      rw [mem_rows W _ 0 c hcw, mem_rangeDown] at h
      exact h.1)

/-- The arithmetic of the mirror: when `x*delay` is not a multiple of `dim`, with
`q = x*delay/dim` and `d = delay - 1 - q`, line `x` lies strictly inside the exact reverse
band `d` and line `dim-1-x` strictly inside the exact forward band `d`. -/
theorem mirror_band (dim delay x : Nat) (h1 : 1 ≤ delay) (hx : x < dim)
    (hnd : ¬ dim ∣ x * delay) :
    x * delay / dim < delay ∧
    (x * delay / dim) * dim < x * delay ∧
    x * delay < (x * delay / dim + 1) * dim ∧
    (delay - 1 - x * delay / dim) * dim < (dim - x) * delay ∧
    (dim - x) * delay < (delay - 1 - x * delay / dim + 1) * dim := by
  have hs : x * delay % dim ≠ 0 := fun h => hnd (Nat.dvd_of_mod_eq_zero h)
  have hs2 : x * delay % dim < dim := Nat.mod_lt _ (by omega)
  have hdm := Nat.div_add_mod (x * delay) dim
  have hq : x * delay / dim < delay := by
    rw [Nat.div_lt_iff_lt_mul (by omega)]
    calc x * delay < dim * delay := Nat.mul_lt_mul_of_pos_right hx (by omega)
      _ = delay * dim := Nat.mul_comm _ _
  generalize x * delay / dim = q at *
  have e3 : delay - 1 - q + 1 = delay - q := by omega
  have e5 : (delay - 1 - q) * dim + (q + 1) * dim = delay * dim := by
    rw [← Nat.add_mul]
    congr 1
    omega
  have e6 : (dim - x) * delay + x * delay = delay * dim := by
    rw [← Nat.add_mul, Nat.sub_add_cancel (by omega), Nat.mul_comm]
  have e7 : (delay - q) * dim + q * dim = delay * dim := by
    rw [← Nat.add_mul, Nat.sub_add_cancel (by omega)]
  have e8 : (q + 1) * dim = q * dim + dim := by
    rw [Nat.add_mul, Nat.one_mul]
  have e9 : dim * q = q * dim := Nat.mul_comm _ _
  rw [e3]
  refine ⟨hq, by omega, by omega, by omega, by omega⟩

/-- The mirror for one dimension with the binary32 bounds: for `dim * delay < 2^23` and a
line `x` with `x*delay` not a multiple of `dim`, the bounds around line `x` in the reverse
loop and around line `dim-1-x` in the forward loop select the same iteration
`d = delay - 1 - x*delay/dim`. -/
theorem mirror_band_float (dim delay x : Nat) (hdim2 : dim < 2 ^ 23) (h1 : 1 ≤ delay)
    (hdom : dim * delay < 2 ^ 23) (hx : x < dim) (hnd : ¬ dim ∣ x * delay) :
    delay - 1 - x * delay / dim < delay ∧
    (∀ j, j ≤ delay → floatBand dim delay j ≤ dim) ∧
    (∀ j, j < delay → floatBand dim delay j < dim) ∧
    (1 ≤ delay - 1 - x * delay / dim →
      x ≤ floatBand dim delay (delay - (delay - 1 - x * delay / dim))) ∧
    (∀ j, j + (delay - 1 - x * delay / dim) < delay → floatBand dim delay j < x) ∧
    (1 ≤ delay - 1 - x * delay / dim →
      floatBand dim delay (delay - 1 - x * delay / dim) ≤ dim - 1 - x) ∧
    (∀ j, delay - 1 - x * delay / dim < j → j ≤ delay →
      dim - 1 - x < floatBand dim delay j) := by
  have h23 : (2 : Nat) ^ 23 = 8388608 := by norm_num
  have h24 : (2 : Nat) ^ 24 = 16777216 := by norm_num
  have hdim : 1 ≤ dim := by omega
  have hdd : delay ≤ dim * delay := Nat.le_mul_of_pos_left _ hdim
  have hd24 : delay < 2 ^ 24 := by omega
  obtain ⟨m1, m2, m3, m4, m5⟩ := mirror_band dim delay x h1 hx hnd
  have hxd : x * delay ≤ dim * delay := Nat.mul_le_mul_right _ (le_of_lt hx)
  have hyd : (dim - x) * delay ≤ dim * delay := Nat.mul_le_mul_right _ (Nat.sub_le _ _)
  generalize x * delay / dim = q at *
  have eq1 : delay - (delay - 1 - q) = q + 1 := by omega
  refine ⟨by omega, ?_, ?_, ?_, ?_, ?_, ?_⟩
  · intro j hj
    exact floatBand_le_dim dim delay j hdim hdim2 h1 hd24 hj
  · intro j hj
    exact floatBand_lt_dim dim delay j hdim (by omega) (by omega) hj
  · intro _
    rw [eq1]
    exact le_floatBand dim delay (q + 1) x 1 hdim (by omega) h1 hd24 (by omega) (by omega)
      (by omega)
  · intro j hj
    have hjq : j * dim ≤ q * dim := Nat.mul_le_mul_right _ (by omega)
    exact floatBand_lt dim delay j x 1 hdim (by omega) h1 hd24 (by omega) (by omega)
      (by omega)
  · intro _
    have e : dim - 1 - x + 1 = dim - x := by omega
    have := floatBand_lt dim delay (delay - 1 - q) (dim - x) 1 hdim (by omega) h1 hd24
      (by omega) (by omega) (by omega)
    omega
  · intro j hj1 hj2
    have hjq : (delay - 1 - q + 1) * dim ≤ j * dim := Nat.mul_le_mul_right _ (by omega)
    have := le_floatBand dim delay j (dim - x) 1 hdim (by omega) h1 hd24 (by omega)
      (by omega) (by omega)
    omega

/-- C18 (amended): the reverse modes mirror the forward modes away from the band edges, as
the code computes them.  For `N = maxDelay+2 < 2^31`, `1 ≤ delay ≤ maxDelay` with
`delay ≤ 6553`, ring contents `frameArray`, ring index `currentDelay < N`, `finalFrame` the
copy of `frameArray[currentDelay]` that `main` makes, and the binary32 band bounds: for
every row `r` such that `r*delay` is not a multiple of `frameHeight`, row `r` of the result
of `computeHorizontalReverse` and row `frameHeight-1-r` of the result of
`computeHorizontal` hold the pixels of the same ring slot,
`(currentDelay + delay-1 - r*delay/frameHeight) mod N`; and for every column `c` such that
`c*delay` is not a multiple of `frameWidth`, column `c` of the result of
`computeVerticalReverse` and column `frameWidth-1-c` of the result of `computeVertical`
hold the pixels of the same ring slot, `(currentDelay + delay-1 - c*delay/frameWidth)
mod N`.  The results are those of the runs on machine integers, which end. -/
theorem reverse_mirrors_forward (maxDelay delay currentDelay : Nat)
    (hN : maxDelay + 2 < 2 ^ 31) (h1 : 1 ≤ delay) (h2 : delay ≤ maxDelay)
    (hdom : delay ≤ 6553) (hc : currentDelay < maxDelay + 2) (frameArray : Nat → Frame) :
    (∀ r c, r < frameHeight → c < frameWidth → ¬ frameHeight ∣ r * delay →
      compute .horizontalReverse floatBand frameWidth frameHeight maxDelay delay currentDelay
          frameArray (frameArray currentDelay) (r * frameWidth + c)
        = frameArray ((currentDelay + (delay - 1 - r * delay / frameHeight)) % (maxDelay + 2))
            (r * frameWidth + c) ∧
      compute .horizontal floatBand frameWidth frameHeight maxDelay delay currentDelay
          frameArray (frameArray currentDelay) ((frameHeight - 1 - r) * frameWidth + c)
        = frameArray ((currentDelay + (delay - 1 - r * delay / frameHeight)) % (maxDelay + 2))
            ((frameHeight - 1 - r) * frameWidth + c)) ∧
    (∀ r c, r < frameHeight → c < frameWidth → ¬ frameWidth ∣ c * delay →
      compute .verticalReverse floatBand frameWidth frameHeight maxDelay delay currentDelay
          frameArray (frameArray currentDelay) (c + r * frameWidth)
        = frameArray ((currentDelay + (delay - 1 - c * delay / frameWidth)) % (maxDelay + 2))
            (c + r * frameWidth) ∧
      compute .vertical floatBand frameWidth frameHeight maxDelay delay currentDelay
          frameArray (frameArray currentDelay) ((frameWidth - 1 - c) + r * frameWidth)
        = frameArray ((currentDelay + (delay - 1 - c * delay / frameWidth)) % (maxDelay + 2))
            ((frameWidth - 1 - c) + r * frameWidth)) ∧
    (∀ fuel : Nat, frameWidth + frameHeight + delay + 3 ≤ fuel →
      computeHorizontalReverse32 frameWidth frameHeight maxDelay delay (currentDelay : Int) fuel
        = some (Variant.horizontalReverse.steps floatBand frameWidth frameHeight maxDelay
            delay currentDelay) ∧
      computeHorizontal32 frameWidth frameHeight maxDelay delay (currentDelay : Int) fuel
        = some (Variant.horizontal.steps floatBand frameWidth frameHeight maxDelay delay
            currentDelay) ∧
      computeVerticalReverse32 frameWidth frameHeight maxDelay delay (currentDelay : Int) fuel
        = some (Variant.verticalReverse.steps floatBand frameWidth frameHeight maxDelay delay
            currentDelay) ∧
      computeVertical32 frameWidth frameHeight maxDelay delay (currentDelay : Int) fuel
        = some (Variant.vertical.steps floatBand frameWidth frameHeight maxDelay delay
            currentDelay)) := by
  have _ := h2
  have h23 : (2 : Nat) ^ 23 = 8388608 := by norm_num
  have hH : frameHeight = 720 := rfl
  have hW : frameWidth = 1280 := rfl
  refine ⟨?_, ?_, ?_⟩
  rotate_left 2
  · intro fuel hf
    exact ⟨computeHorizontalReverse32_spec frameWidth frameHeight maxDelay delay currentDelay
        fuel (by decide) (by decide) (by decide) (by decide) hN h1 (by omega) hc hf,
      computeHorizontal32_spec frameWidth frameHeight maxDelay delay currentDelay fuel
        (by decide) (by decide) (by decide) (by decide) hN h1 (by omega) hc hf,
      computeVerticalReverse32_spec frameWidth frameHeight maxDelay delay currentDelay fuel
        (by decide) (by decide) (by decide) hN h1 (by omega) hc hf,
      computeVertical32_spec frameWidth frameHeight maxDelay delay currentDelay fuel
        (by decide) (by decide) (by decide) hN h1 (by omega) hc hf⟩
  · intro r c hr hcw hnd
    obtain ⟨m0, mle, mlt, rA, rB, fA, fB⟩ := mirror_band_float frameHeight delay r
      (by decide) h1 (by rw [hH]; omega) hr hnd
    exact ⟨computeHorizontalReverse_row_slot floatBand frameWidth frameHeight maxDelay delay
        currentDelay frameArray r c _ hc hcw m0 mlt rA rB,
      computeHorizontal_row_slot floatBand frameWidth frameHeight maxDelay delay currentDelay
        frameArray (frameHeight - 1 - r) c _ hc hcw m0 mle fA fB⟩
  · intro r c hr hcw hnd
    obtain ⟨m0, mle, mlt, rA, rB, fA, fB⟩ := mirror_band_float frameWidth delay c
      (by decide) h1 (by rw [hW]; omega) hcw hnd
    exact ⟨computeVerticalReverse_col_slot floatBand frameWidth frameHeight maxDelay delay
        currentDelay frameArray r c _ hc hr hcw m0 mlt rA rB,
      computeVertical_col_slot floatBand frameWidth frameHeight maxDelay delay currentDelay
        frameArray r (frameWidth - 1 - c) _ hc hr (by omega) m0 mle fA fB⟩

/-- Witness for `reverse_mirrors_forward`: the default `maxDelay = 60` with `delay = 3` and
`currentDelay = 0`; row 100 of the reverse result and row 619 of the forward result both come
from slot 2. -/
theorem reverse_mirrors_forward_witness :
    compute .horizontalReverse floatBand frameWidth frameHeight 60 3 0
        (fun slot _ => ⟨slot, 0, 0⟩) ((fun slot _ => (⟨slot, 0, 0⟩ : Vec3b)) 0)
        (100 * frameWidth + 7)
      = (fun slot _ => (⟨slot, 0, 0⟩ : Vec3b)) ((0 + (3 - 1 - 100 * 3 / frameHeight)) % (60 + 2))
          (100 * frameWidth + 7) ∧
    compute .horizontal floatBand frameWidth frameHeight 60 3 0
        (fun slot _ => ⟨slot, 0, 0⟩) ((fun slot _ => (⟨slot, 0, 0⟩ : Vec3b)) 0)
        ((frameHeight - 1 - 100) * frameWidth + 7)
      = (fun slot _ => (⟨slot, 0, 0⟩ : Vec3b)) ((0 + (3 - 1 - 100 * 3 / frameHeight)) % (60 + 2))
          ((frameHeight - 1 - 100) * frameWidth + 7) :=
  (reverse_mirrors_forward 60 3 0 (by norm_num) (by decide) (by decide) (by decide)
    (by decide) (fun slot _ => ⟨slot, 0, 0⟩)).1 100 7 (by decide) (by decide) (by decide)

/-- C18 fails as stated at the default `maxDelay = 60`, `delay = 2`, `currentDelay = 0`,
ring slot `s` filled with the colour `(s, 0, 0)`: the binary32 bounds are `0, 360, 720`;
`computeHorizontalReverse` copies rows `360` down to `1` from slot 1 and leaves row 0 as it
is in slot 0, `computeHorizontal` copies rows `360 .. 719` from slot 1.  Row 0 of the
reverse result comes from slot 0, row `frameHeight-1-0 = 719` of the forward result from
slot 1. -/
theorem reverse_mirror_counterexample :
    floatBand frameHeight 2 0 = 0 ∧ floatBand frameHeight 2 1 = 360 ∧
    floatBand frameHeight 2 2 = 720 ∧
    compute .horizontalReverse floatBand frameWidth frameHeight 60 2 0
        (fun slot _ => ⟨slot, 0, 0⟩) ((fun slot _ => (⟨slot, 0, 0⟩ : Vec3b)) 0)
        (0 * frameWidth + 0) = ⟨0, 0, 0⟩ ∧
    compute .horizontal floatBand frameWidth frameHeight 60 2 0
        (fun slot _ => ⟨slot, 0, 0⟩) ((fun slot _ => (⟨slot, 0, 0⟩ : Vec3b)) 0)
        ((frameHeight - 1 - 0) * frameWidth + 0) = ⟨1, 0, 0⟩ := by
  have b0 : floatBand frameHeight 2 0 = 0 := by decide!
  have b1 : floatBand frameHeight 2 1 = 360 := by decide!
  have b2 : floatBand frameHeight 2 2 = 720 := by decide!
  have hb : ∀ j, j < 3 → floatBand frameHeight 2 j = j * 360 := by decide!
  refine ⟨b0, b1, b2, ?_, ?_⟩
  · exact computeHorizontalReverse_row_zero floatBand frameWidth frameHeight 60 2 0
      (fun slot _ => ⟨slot, 0, 0⟩) ((fun slot _ => (⟨slot, 0, 0⟩ : Vec3b)) 0) 0 (by decide)
  · exact computeHorizontal_row_slot floatBand frameWidth frameHeight 60 2 0
      (fun slot _ => ⟨slot, 0, 0⟩) (frameHeight - 1 - 0) 0 1 (by decide) (by decide)
      (by decide)
      (fun j hj => by rw [hb j (by omega)]; show j * 360 ≤ 720; omega)
      (fun _ => by rw [b1]; decide)
      (fun j h1 h2 => by
        have e : j = 2 := by omega
        rw [e, b2]
        decide)

/-- Why the mirror needs a bound on `delay`: at `delay = 8597` the binary32 bound
`(int) (8147 * ((float) 1280 / (float) 8597))` is 1213 where the exact quotient gives 1212,
one short of a multiple of 8597 (`8147 * 1280 = 1212 * 8597 + 8596`). -/
theorem mirror_needs_delay_bound :
    floatBand frameWidth 8597 8147 = 1213 ∧ 8147 * frameWidth / 8597 = 1212 ∧
    8147 * frameWidth % 8597 = 8596 := by
  refine ⟨by decide!, by decide, by decide⟩

/-- The binary32 bounds at the inputs of the two `computeHorizontalSymmetric` evaluations
above are the exact ones: `delay = 721` (bounds `0, 1`) and `delay = 4` (bounds
`180, 360`). -/
theorem horizontalSymmetric_float_bounds :
    floatBand frameHeight 721 1 = exactBand frameHeight 721 1 ∧
    floatBand frameHeight 721 2 = exactBand frameHeight 721 2 ∧
    floatBand frameHeight 4 1 = exactBand frameHeight 4 1 ∧
    floatBand frameHeight 4 2 = exactBand frameHeight 4 2 := by
  decide!

end MovingCells
